import Mathlib

/-!
# Sudoku solver: state, propagation and search

A shallow embedding of `sudokuState.hpp` (class `SudokuState`) and of the search
engine of `sudoku.cpp` (`search`, `deduce`, `boxCheck`, `columnCheck`, `rowCheck`,
`merge`, `repeat`), followed by theorems about them.

Modelling conventions.

* `char grid[81]` is a map from the cell index to the stored number. The code only
  ever touches the indices `x + 9 * y` with `0 ≤ x, y ≤ 8`, that is `0 .. 80`.
  Cell contents are `Int`, so that the range test of `isValid` (`i < 0 || i > 9`)
  keeps its meaning.
* `double value` is an `Int`: the only values ever stored are `0.0` and
  `gridCount * 10.0 + (9 - c)`, small integers that a double represents exactly.
* The globals `OpenList`, `ClosedList`, `ExpandCount` and `Maybe` are fields of
  `Globals`, passed through `search` explicitly; `Strategy` and `RepeatCheck`, which
  are fixed before `search` starts, are parameters.
* Loops with a counter are folds over the list of values the loop variable takes;
  loops that leave with `return` are recursive functions over that list.
* `while` loops take a bound on the number of iterations; `none` means the bound was
  reached before the loop was left.
-/

namespace Sudoku

/-- The search strategy enum of `sudoku.cpp`. -/
inductive Strategy where
  | DEPTH
  | BREADTH
  | BEST
  deriving DecidableEq, Repr

/-- The class `SudokuState`: the number grid and the evaluated value. -/
structure SudokuState where
  grid : Nat → Int
  value : Int

/-- The default constructor `SudokuState()`: all cells 0, value 0. -/
def SudokuState.new : SudokuState :=
  { grid := fun _ => 0, value := 0 }

/-- `getNum(x, y)`: `grid[x + (y * 9)]`. -/
def getNum (s : SudokuState) (x y : Nat) : Int :=
  s.grid (x + (y * 9))

/-- `setNum(x, y, num)`: `grid[x + (y * 9)] = num`. -/
def setNum (s : SudokuState) (x y : Nat) (num : Int) : SudokuState :=
  { s with grid := Function.update s.grid (x + (y * 9)) num }

/-- `getValue()`. -/
def getValue (s : SudokuState) : Int :=
  s.value

/-- `setValue(value)`. -/
def setValue (s : SudokuState) (value : Int) : SudokuState :=
  { s with value := value }

/-- `gridCount()`: how many numbers are in the grid. -/
def gridCount (s : SudokuState) : Nat :=
  (List.range 9).foldl
    (fun c y => (List.range 9).foldl (fun c x => if getNum s x y > 0 then c + 1 else c) c) 0

/-- `numInRow(y, num)`: occurrences of a number in a row. -/
def numInRow (s : SudokuState) (y : Nat) (num : Int) : Nat :=
  (List.range 9).foldl (fun c x => if getNum s x y = num then c + 1 else c) 0

/-- `numInCol(x, num)`: occurrences of a number in a column. -/
def numInCol (s : SudokuState) (x : Nat) (num : Int) : Nat :=
  (List.range 9).foldl (fun c y => if getNum s x y = num then c + 1 else c) 0

/-- `numInBox(x, y, num)`: occurrences of a number in the box containing `(x, y)`.
The coordinates are first moved to the centre of the box. -/
def numInBox (s : SudokuState) (x y : Nat) (num : Int) : Nat :=
  let x := ((x / 3) * 3) + 1
  let y := ((y / 3) * 3) + 1
  [y - 1, y, y + 1].foldl
    (fun c y2 => [x - 1, x, x + 1].foldl
      (fun c x2 => if getNum s x2 y2 = num then c + 1 else c) c) 0

/-- `placeOK(x, y, num)`: can the number be placed at `(x, y)`? -/
def placeOK (s : SudokuState) (x y : Nat) (num : Int) : Bool :=
  if getNum s x y > 0 then false
  else if numInRow s y num > 0 then false
  else if numInCol s x num > 0 then false
  else if numInBox s x y num > 0 then false
  else true

/-- The values `1 .. 9` of the loops `for (i = 1; i <= 9; i++)`. -/
def digits : List Nat :=
  List.range' 1 9

/-- `isValid()`: is this a valid state? Every `return false` of the nested loops
makes the whole result `false`. -/
def isValid (s : SudokuState) : Bool :=
  (List.range 9).all fun y =>
    (List.range 9).all fun x =>
      if getNum s x y < 0 ∨ getNum s x y > 9 then false
      else digits.all fun i =>
        if numInRow s y i > 1 then false
        else if numInCol s x i > 1 then false
        else if numInBox s x y i > 1 then false
        else true

/-- `isDuplicate(state)`: all 81 cells of `state` equal those of `this`. -/
def isDuplicate (this state : SudokuState) : Bool :=
  (List.range 81).all fun i => if state.grid i ≠ this.grid i then false else true

/-- `clone()`: a fresh `SudokuState()` into which the 81 cells are copied. -/
def clone (s : SudokuState) : SudokuState :=
  (List.range 81).foldl
    (fun state i => { state with grid := Function.update state.grid i (s.grid i) })
    SudokuState.new

/-- The global `bool Maybe[9][9][10]`. -/
abbrev MaybeTable := Nat → Nat → Nat → Bool

/-- The assignment `Maybe[x][y][z] = b`. -/
def setMaybe (m : MaybeTable) (x y z : Nat) (b : Bool) : MaybeTable :=
  fun x2 y2 z2 => if x2 = x ∧ y2 = y ∧ z2 = z then b else m x2 y2 z2

/-- `columnCheck(col, cx, cy, num)`: can the number be in the box with centre
`(cx, cy)` other than in the given column? -/
def columnCheck (m : MaybeTable) (col cx cy : Int) (num : Nat) : Bool :=
  [cy - 1, cy, cy + 1].any fun y =>
    [cx - 1, cx, cx + 1].any fun x =>
      decide (x ≠ col) && m x.toNat y.toNat num

/-- `rowCheck(row, cx, cy, num)`: can the number be in the box with centre
`(cx, cy)` other than in the given row? -/
def rowCheck (m : MaybeTable) (row cx cy : Int) (num : Nat) : Bool :=
  [cy - 1, cy, cy + 1].any fun y =>
    [cx - 1, cx, cx + 1].any fun x =>
      decide (y ≠ row) && m x.toNat y.toNat num

/-- `boxCheck(x, y, num)`: check the given number against the other boxes. The
centre coordinates are signed, as in the source, because 6 or 3 is subtracted from
them before the bounds test. -/
def boxCheck (m : MaybeTable) (x y num : Nat) : Bool :=
  let cx : Int := (((x / 3) * 3) + 1 : Nat)
  let cy : Int := (((y / 3) * 3) + 1 : Nat)
  if cy - 6 ≥ 0 ∧ columnCheck m x cx (cy - 6) num = false then false
  else if cy - 3 ≥ 0 ∧ columnCheck m x cx (cy - 3) num = false then false
  else if cy + 6 < 9 ∧ columnCheck m x cx (cy + 6) num = false then false
  else if cy + 3 < 9 ∧ columnCheck m x cx (cy + 3) num = false then false
  else if cx - 6 ≥ 0 ∧ rowCheck m y (cx - 6) cy num = false then false
  else if cx - 3 ≥ 0 ∧ rowCheck m y (cx - 3) cy num = false then false
  else if cx + 6 < 9 ∧ rowCheck m y (cx + 6) cy num = false then false
  else if cx + 3 < 9 ∧ rowCheck m y (cx + 3) cy num = false then false
  else true

/-- First part of a pass of `deduce`, for one cell: all ten entries are cleared, then
the entry of each `z` in `1 .. 9` is set when `z` is the number in the cell or can
be placed there. -/
def fillCell (state : SudokuState) (x y : Nat) (m : MaybeTable) : MaybeTable :=
  let m := (List.range 10).foldl (fun m z => setMaybe m x y z false) m
  digits.foldl
    (fun m (z : Nat) =>
      if (z : Int) = getNum state x y then setMaybe m x y z true
      else if placeOK state x y z then setMaybe m x y z true
      else m) m

/-- First part of a pass of `deduce`: fill in the initial Maybe values. -/
def fillMaybe (state : SudokuState) (m : MaybeTable) : MaybeTable :=
  (List.range 9).foldl
    (fun m x => (List.range 9).foldl (fun m y => fillCell state x y m) m) m

/-- Second part of a pass of `deduce`, for one cell: a filled cell is skipped; in an
empty cell every entry that is set is replaced by the result of `boxCheck`, which
reads the table as it is at that moment. -/
def eliminateCell (state : SudokuState) (x y : Nat) (m : MaybeTable) : MaybeTable :=
  if getNum state x y > 0 then m
  else digits.foldl
    (fun m z => if m x y z then setMaybe m x y z (boxCheck m x y z) else m) m

/-- Second part of a pass of `deduce`: eliminate incompatible Maybe values. -/
def eliminate (state : SudokuState) (m : MaybeTable) : MaybeTable :=
  (List.range 9).foldl
    (fun m x => (List.range 9).foldl (fun m y => eliminateCell state x y m) m) m

/-- The loop `for (z = 1, c = i = 0; z < 10; z++)` of `deduce`: the number `c` of
entries set for the cell and the last such `z`, as the pair `(c, i)`. -/
def loneCount (m : MaybeTable) (x y : Nat) : Nat × Nat :=
  digits.foldl (fun ci z => if m x y z then (ci.1 + 1, z) else ci) (0, 0)

/-- Third part of a pass of `deduce`, for one cell; the pair is the state and the
flag `done`. Both loops have the condition `&& done`, so nothing happens any more
once `done` is false. -/
def loneCell (m : MaybeTable) (x y : Nat) (sd : SudokuState × Bool) : SudokuState × Bool :=
  if sd.2 = false then sd
  else if getNum sd.1 x y > 0 then sd
  else if (loneCount m x y).1 = 1 then (setNum sd.1 x y (loneCount m x y).2, false)
  else sd

/-- Third part of a pass of `deduce`: lone Maybe values become new grid values. -/
def lone (state : SudokuState) (m : MaybeTable) : SudokuState × Bool :=
  (List.range 9).foldl
    (fun sd x => (List.range 9).foldl (fun sd y => loneCell m x y sd) sd) (state, true)

/-- One iteration of the `while (!done)` loop of `deduce`: the state, the table and
`done` at the end of the iteration. -/
def deducePass (state : SudokuState) (m : MaybeTable) : SudokuState × MaybeTable × Bool :=
  let m := eliminate state (fillMaybe state m)
  let sd := lone state m
  (sd.1, m, sd.2)

/-- The `while (!done)` loop of `deduce`, with a bound on the number of iterations. -/
def deduceLoop : Nat → SudokuState → MaybeTable → Option (SudokuState × MaybeTable)
  | 0, _, _ => none
  | n + 1, state, m =>
    let r := deducePass state m
    if r.2.2 then some (r.1, r.2.1) else deduceLoop n r.1 r.2.1

/-- `deduce(state)`: the loop is left after at most 82 iterations
(`deduceLoop_eq_some`), so the default is never used. -/
def deduce (state : SudokuState) (m : MaybeTable) : SudokuState × MaybeTable :=
  (deduceLoop 82 state m).getD (state, m)

/-- `merge(state)` for `case BEST`: insert before the first element whose value is
not above the new state's value, or at the back. -/
def mergeBest : List SudokuState → SudokuState → List SudokuState
  | [], state => [state]
  | t :: rest, state =>
    if getValue state ≥ getValue t then state :: t :: rest
    else t :: mergeBest rest state

/-- `merge(state)`: merge the state into the open list. -/
def merge (strategy : Strategy) (openList : List SudokuState) (state : SudokuState) :
    List SudokuState :=
  match strategy with
  | Strategy.DEPTH => state :: openList
  | Strategy.BREADTH => openList ++ [state]
  | Strategy.BEST => mergeBest openList state

/-- `repeat(state)`: is the state on the closed list? Always false when
`RepeatCheck` is off. (`repeat` is a reserved word, hence the name.) -/
def isRepeat (repeatCheck : Bool) (closedList : List SudokuState) (state : SudokuState) :
    Bool :=
  if repeatCheck = false then false
  else closedList.any fun c => isDuplicate state c

/-- The globals that `search` reads and writes. -/
structure Globals where
  OpenList : List SudokuState
  ClosedList : List SudokuState
  ExpandCount : Nat
  Maybe : MaybeTable

/-- How the expansion of a state ends: `search` returned a child from inside the
loops, or the loops ran to their end. -/
inductive Expansion where
  | found (child : SudokuState) (g : Globals)
  | finished (g : Globals)

/-- The loop `for (i = 1; i <= 9; i++)` that generates the children of `state` for
the cell `(x, y)`; `c` is the number of choices counted just before. -/
def expandDigits (strategy : Strategy) (repeatCheck : Bool) (state : SudokuState)
    (x y c : Nat) : List Nat → Globals → Expansion
  | [], g => Expansion.finished g
  | i :: rest, g =>
    if placeOK state x y i then
      let r := deduce (setNum (clone state) x y i) g.Maybe
      let g1 : Globals := { g with Maybe := r.2 }
      if gridCount r.1 = 81 then Expansion.found r.1 g1
      else
        let child := setValue r.1 (((gridCount r.1 : Nat) : Int) * 10 + (9 - (c : Int)))
        if isRepeat repeatCheck g1.ClosedList child then
          expandDigits strategy repeatCheck state x y c rest g1
        else
          expandDigits strategy repeatCheck state x y c rest
            { g1 with OpenList := merge strategy g1.OpenList child }
    else expandDigits strategy repeatCheck state x y c rest g

/-- The number `c` of possible choices for the cell `(x, y)`. -/
def choiceCount (state : SudokuState) (x y : Nat) : Nat :=
  digits.foldl (fun c i => if placeOK state x y i then c + 1 else c) 0

/-- The cells in the order of the loops `for (y ...) for (x ...)` of `search`, as
pairs `(x, y)`. -/
def cells : List (Nat × Nat) :=
  (List.range 9).flatMap fun y => (List.range 9).map fun x => (x, y)

/-- The loops over `y` and `x` that expand `state`. -/
def expandCells (strategy : Strategy) (repeatCheck : Bool) (state : SudokuState) :
    List (Nat × Nat) → Globals → Expansion
  | [], g => Expansion.finished g
  | xy :: rest, g =>
    match expandDigits strategy repeatCheck state xy.1 xy.2 (choiceCount state xy.1 xy.2)
        digits g with
    | Expansion.found child g1 => Expansion.found child g1
    | Expansion.finished g1 => expandCells strategy repeatCheck state rest g1

/-- The body of `while (true)` up to the end of the expansion of `state`. -/
def expand (strategy : Strategy) (repeatCheck : Bool) (state : SudokuState) (g : Globals) :
    Expansion :=
  expandCells strategy repeatCheck state cells
    { g with ExpandCount := g.ExpandCount + 1, ClosedList := g.ClosedList ++ [state] }

/-- The `while (true)` loop of `search`, with a bound on the number of iterations.
The result is the returned pointer (`none` for `NULL`) and the globals. -/
def searchLoop (strategy : Strategy) (repeatCheck : Bool) :
    Nat → SudokuState → Globals → Option (Option SudokuState × Globals)
  | 0, _, _ => none
  | n + 1, state, g =>
    match expand strategy repeatCheck state g with
    | Expansion.found child g1 => some (some child, g1)
    | Expansion.finished g1 =>
      match g1.OpenList with
      | [] => some (none, g1)
      | next :: rest => searchLoop strategy repeatCheck n next { g1 with OpenList := rest }

/-- `search()`. -/
def search (strategy : Strategy) (repeatCheck : Bool) (fuel : Nat) (g : Globals) :
    Option (Option SudokuState × Globals) :=
  let g0 : Globals := { g with ExpandCount := 0 }
  match g0.OpenList with
  | [] => some (none, g0)
  | first :: rest =>
    let r := deduce first g0.Maybe
    let g1 : Globals := { g0 with OpenList := rest, Maybe := r.2 }
    if gridCount r.1 = 81 then some (some r.1, g1)
    else searchLoop strategy repeatCheck fuel r.1 g1

/-- The globals when `main` calls `search`: the loaded state alone on the open
list, the closed list empty. -/
def initialGlobals (state : SudokuState) (m : MaybeTable) : Globals :=
  { OpenList := [state], ClosedList := [], ExpandCount := 0, Maybe := m }

/-- The cells `(x, y)` with `x` from `xs` and `y` from `ys`, `y` outermost: the order
in which two nested loops, `y` outside, visit them. -/
def grid2 (xs ys : List Nat) : List (Nat × Nat) :=
  ys.flatMap fun y => xs.map fun x => (x, y)

/-- The three coordinates `c - 1, c, c + 1` around the centre `c = (x / 3) * 3 + 1` of
the box that contains the coordinate `x`. -/
def boxSpan (x : Nat) : List Nat :=
  [(x / 3) * 3 + 1 - 1, (x / 3) * 3 + 1, (x / 3) * 3 + 1 + 1]

/-- Every cell holds a value in `[0, 9]`. -/
def InRange (s : SudokuState) : Prop :=
  ∀ x y, x < 9 → y < 9 → 0 ≤ getNum s x y ∧ getNum s x y ≤ 9

/-- No two different cells of one row, one column or one box hold the same number
`≥ 1`. -/
def NoClash (s : SudokuState) : Prop :=
  ∀ x1 y1 x2 y2, x1 < 9 → y1 < 9 → x2 < 9 → y2 < 9 →
    1 ≤ getNum s x1 y1 → getNum s x1 y1 = getNum s x2 y2 →
    (y1 = y2 ∨ x1 = x2 ∨ (x1 / 3 = x2 / 3 ∧ y1 / 3 = y2 / 3)) → x1 = x2 ∧ y1 = y2

/-- The constructor `SudokuState(char *grid)`: the 81 cells are copied from the
array, here a list read as 0 beyond its end, and the value is 0. -/
def SudokuState.ofList (l : List Int) : SudokuState :=
  { grid := fun i => l.getD i 0, value := 0 }

/-- The puzzle printed in the header comment of `sudoku.cpp`. -/
def headerPuzzle : SudokuState :=
  SudokuState.ofList [
    6, 9, 0, 3, 0, 4, 0, 1, 5,
    0, 0, 0, 9, 0, 1, 0, 0, 0,
    1, 7, 4, 5, 8, 2, 9, 3, 6,
    0, 0, 6, 8, 0, 7, 3, 0, 0,
    0, 5, 0, 4, 0, 9, 0, 8, 0,
    0, 0, 7, 6, 0, 5, 2, 0, 0,
    4, 3, 9, 7, 5, 6, 1, 2, 8,
    0, 0, 0, 1, 0, 3, 0, 0, 0,
    5, 6, 0, 2, 0, 8, 0, 9, 3]

/-- The value that the first part of a pass of `deduce` stores in `Maybe[x][y][z]`. -/
def cand (s : SudokuState) (x y z : Nat) : Bool :=
  decide (1 ≤ z) && (decide ((z : Int) = getNum s x y) || placeOK s x y z)

/-- Two tables agree on the entries of `bool Maybe[9][9][10]`. -/
def TableEq (m1 m2 : MaybeTable) : Prop :=
  ∀ x y z, x < 9 → y < 9 → z < 10 → m1 x y z = m2 x y z

/-- The cells `(x, y)` with `x` from `xs` and `y` from `ys`, `x` outermost: the order
in which the loops of `deduce` visit them. -/
def colMajor (xs ys : List Nat) : List (Nat × Nat) :=
  xs.flatMap fun x => ys.map fun y => (x, y)

/-- The test that the third part of a pass of `deduce` makes on a cell: it is empty
and exactly one entry of the table is set for it. -/
def loneTest (s : SudokuState) (m : MaybeTable) (q : Nat × Nat) : Bool :=
  decide (getNum s q.1 q.2 ≤ 0) && decide ((loneCount m q.1 q.2).1 = 1)

/-- Two states hold the same numbers in the 81 cells. -/
def SameCells (s t : SudokuState) : Prop :=
  ∀ x y, x < 9 → y < 9 → getNum s x y = getNum t x y

/-- The open list is sorted by non-increasing value. -/
def SortedDesc (l : List SudokuState) : Prop :=
  l.Pairwise fun a b => getValue b ≤ getValue a

/-- The state `t` is a child that the expansion of `state` puts on the open list: the
clone with a digit `1 .. 9` written where `placeOK` allows it, after `deduce`, not
complete, with its value set. -/
def Child (state t : SudokuState) : Prop :=
  ∃ (x y i : Nat) (m : MaybeTable) (v : Int), x < 9 ∧ y < 9 ∧ 1 ≤ i ∧ i ≤ 9 ∧
    placeOK state x y i = true ∧
    gridCount (deduce (setNum (clone state) x y i) m).1 ≠ 81 ∧
    t = setValue (deduce (setNum (clone state) x y i) m).1 v

/-- The state `c` is a child with which `search` returns from the expansion of
`state`: as `Child`, but complete and without a value. -/
def FoundChild (state c : SudokuState) : Prop :=
  ∃ (x y i : Nat) (m : MaybeTable), x < 9 ∧ y < 9 ∧ 1 ≤ i ∧ i ≤ 9 ∧
    placeOK state x y i = true ∧ gridCount c = 81 ∧
    c = (deduce (setNum (clone state) x y i) m).1

/-- The states at the head of the `while (true)` loop of `search`, started with the
globals `g`: the state that is about to be expanded, and the globals at that moment.
The first is the propagated front of the open list, when it is not complete; the next
is the front of the open list after an expansion that ran to its end. -/
inductive Reached (strategy : Strategy) (repeatCheck : Bool) (g : Globals) :
    SudokuState → Globals → Prop where
  | start (first : SudokuState) (rest : List SudokuState) :
      g.OpenList = first :: rest →
      gridCount (deduce first g.Maybe).1 ≠ 81 →
      Reached strategy repeatCheck g (deduce first g.Maybe).1
        { g with ExpandCount := 0, OpenList := rest, Maybe := (deduce first g.Maybe).2 }
  | next (state : SudokuState) (g1 g2 : Globals) (nxt : SudokuState)
      (rest : List SudokuState) :
      Reached strategy repeatCheck g state g1 →
      expand strategy repeatCheck state g1 = Expansion.finished g2 →
      g2.OpenList = nxt :: rest →
      Reached strategy repeatCheck g nxt { g2 with OpenList := rest }

/-- A complete valid grid, used as an example. -/
def solvedGrid : SudokuState :=
  SudokuState.ofList [
    5, 3, 4, 6, 7, 8, 9, 1, 2,
    6, 7, 2, 1, 9, 5, 3, 4, 8,
    1, 9, 8, 3, 4, 2, 5, 6, 7,
    8, 5, 9, 7, 6, 1, 4, 2, 3,
    4, 2, 6, 8, 5, 3, 7, 9, 1,
    7, 1, 3, 9, 2, 4, 8, 5, 6,
    9, 6, 1, 5, 3, 7, 2, 8, 4,
    2, 8, 7, 4, 1, 9, 6, 3, 5,
    3, 4, 5, 2, 8, 6, 1, 7, 9]

/-- The state `t` is valid and holds the number of `root` in every cell where `root`
is not empty. -/
def Extends (root t : SudokuState) : Prop :=
  isValid t = true ∧
  ∀ x y, x < 9 → y < 9 → getNum root x y ≠ 0 → getNum t x y = getNum root x y

/-- Does some cell of the box with box coordinates `(bx, bz)` pass the test `f`? -/
def boxAny (bx bz : Nat) (f : Nat → Nat → Bool) : Bool :=
  [3 * bx, 3 * bx + 1, 3 * bx + 2].any fun a =>
    [3 * bz, 3 * bz + 1, 3 * bz + 2].any fun b => f a b

/-- Checker: the candidate `z` of the cell `(x, y)` has, in every other box of the
stack, a cell in another column for which `z` is a candidate in the sense of `cand`,
and in every other box of the band such a cell in another row. -/
def supportOK (s : SudokuState) (x y z : Nat) : Bool :=
  (List.range 3).all fun k =>
    (decide (k = y / 3) || boxAny (x / 3) k fun a b => decide (a ≠ x) && cand s a b z) &&
    (decide (k = x / 3) || boxAny k (y / 3) fun a b => decide (b ≠ y) && cand s a b z)

/-- Checker: every candidate of every empty cell passes `supportOK`. When this holds,
the second part of a pass of `deduce` clears no entry (`eliminate_of_supported`). -/
def supported (s : SudokuState) : Bool :=
  (List.range 9).all fun x =>
    (List.range 9).all fun y =>
      decide (getNum s x y > 0) ||
        digits.all fun z => !(cand s x y z) || supportOK s x y z

/-- The cells of the grid in the order of the loops of `deduce`. -/
def cells9 : List (Nat × Nat) :=
  colMajor (List.range 9) (List.range 9)

/-- The placements of a list written into a state, one after the other. -/
def placeAll (s : SudokuState) (cert : List (Nat × Nat × Nat)) : SudokuState :=
  cert.foldl (fun s p => setNum s p.1 p.2.1 p.2.2) s

/-- Checker: `cert` lists the placements that the passes of `deduce` make on `s`, in
order, every state on the way passes `supported`, and the last pass finds no lone
value (`deduceCert_sound`). -/
def deduceCert (s : SudokuState) : List (Nat × Nat × Nat) → Bool
  | [] => supported s && (cells9.find? (loneTest s (cand s))).isNone
  | p :: rest =>
    supported s && decide (cells9.find? (loneTest s (cand s)) = some (p.1, p.2.1)) &&
      decide (loneCount (cand s) p.1 p.2.1 = (1, p.2.2)) &&
      deduceCert (setNum s p.1 p.2.1 p.2.2) rest

/-- The grid with all 81 cells empty. -/
def emptyGrid : SudokuState :=
  SudokuState.new

/-- The table `Maybe` as the program starts: a global, so all entries are false. -/
def noMaybe : MaybeTable :=
  fun _ _ _ => false

/-- A state that may stand on the open or on the closed list: valid and not
complete. -/
def Pending (t : SudokuState) : Prop :=
  isValid t = true ∧ gridCount t < 81

/-- The index pairs `(x, y)` at which `columnCheck` and `rowCheck` read `Maybe` for
the centre `(cx, cy)`, in the order of their loops. -/
def checkReads (cx cy : Int) : List (Int × Int) :=
  [cy - 1, cy, cy + 1].flatMap fun y => [cx - 1, cx, cx + 1].map fun x => (x, y)

/-- The index pairs at which `boxCheck(x, y, num)` can read `Maybe`: those of the
calls of `columnCheck` and `rowCheck` whose bounds test passes. -/
def boxCheckReads (x y : Nat) : List (Int × Int) :=
  let cx : Int := (((x / 3) * 3) + 1 : Nat)
  let cy : Int := (((y / 3) * 3) + 1 : Nat)
  (if cy - 6 ≥ 0 then checkReads cx (cy - 6) else []) ++
  (if cy - 3 ≥ 0 then checkReads cx (cy - 3) else []) ++
  (if cy + 6 < 9 then checkReads cx (cy + 6) else []) ++
  (if cy + 3 < 9 then checkReads cx (cy + 3) else []) ++
  (if cx - 6 ≥ 0 then checkReads (cx - 6) cy else []) ++
  (if cx - 3 ≥ 0 then checkReads (cx - 3) cy else []) ++
  (if cx + 6 < 9 then checkReads (cx + 6) cy else []) ++
  (if cx + 3 < 9 then checkReads (cx + 3) cy else [])

/-- The complete valid grid `s` is a solution of `t`: it holds the number of `t` in
every cell where `t` is not empty. -/
def Solves (s t : SudokuState) : Prop :=
  isValid s = true ∧ gridCount s = 81 ∧
  ∀ x y, x < 9 → y < 9 → getNum t x y ≠ 0 → getNum s x y = getNum t x y

/-- The example grid with the cells `(0, 0)` and `(4, 4)` emptied. -/
def twoEmptied : SudokuState :=
  setNum (setNum solvedGrid 0 0 0) 4 4 0

/-- The weight of a state in the termination measure of `search`: 730 to the number
of cells that are not filled. A state has at most 729 children, each with more cells
filled, so the children of a state weigh less than the state. -/
def weight (t : SudokuState) : Nat :=
  730 ^ (81 - gridCount t)

/-- The termination measure of `search`: the sum of the weights of the open list. -/
def openWeight (l : List SudokuState) : Nat :=
  (l.map weight).sum

/-- The invariant of the loop of `search` behind its completeness: a state that the
solution `s` solves is the current state or on the open list, and it has more cells
filled than every state of the closed list that `s` solves. -/
def Ahead (s state : SudokuState) (g : Globals) : Prop :=
  ∃ t, t ∈ state :: g.OpenList ∧ Solves s t ∧
    ∀ u, u ∈ g.ClosedList → Solves s u → gridCount u < gridCount t

/-- The entries of `cand` without those of the list `ex`. -/
def candX (s : SudokuState) (ex : List (Nat × Nat × Nat)) (x y z : Nat) : Bool :=
  cand s x y z && !(decide ((x, y, z) ∈ ex))

/-- Checker: as `supportOK`, with `candX` in the place of `cand`. -/
def supportOKX (s : SudokuState) (ex : List (Nat × Nat × Nat)) (x y z : Nat) : Bool :=
  (List.range 3).all fun k =>
    (decide (k = y / 3) ||
      boxAny (x / 3) k fun a b => decide (a ≠ x) && candX s ex a b z) &&
    (decide (k = x / 3) ||
      boxAny k (y / 3) fun a b => decide (b ≠ y) && candX s ex a b z)

/-- Checker: as `supported`, with `candX` in the place of `cand`. When this holds, the
second part of a pass of `deduce` clears no entry of `candX`. -/
def supportedX (s : SudokuState) (ex : List (Nat × Nat × Nat)) : Bool :=
  (List.range 9).all fun x =>
    (List.range 9).all fun y =>
      decide (getNum s x y > 0) ||
        digits.all fun z => !(candX s ex x y z) || supportOKX s ex x y z

/-- Checker: a pass of `deduce` on `s` writes `z` to the cell `(x, y)`. The cell is the
first in the order of the pass with a lone value in `cand`, the entries `ex`, which
the second part of the pass may clear, are in later cells, and the other entries of
`cand` pass `supportedX` (`stepCert_sound`). -/
def stepCert (s : SudokuState) (ex : List (Nat × Nat × Nat)) (x y z : Nat) : Bool :=
  decide (x < 9) && decide (y < 9) && supportedX s ex &&
    loneTest s (cand s) (x, y) && decide ((loneCount (cand s) x y).2 = z) &&
    (cells9.all fun q =>
      !(decide (q.1 < x ∨ (q.1 = x ∧ q.2 < y))) || !(loneTest s (cand s) q)) &&
    ex.all fun e => decide (x < e.1 ∨ (x = e.1 ∧ y < e.2.1))

/-- A valid grid without completion: the cells `(0, 0)` and `(1, 3)` admit no digit.
The cells `(3, 0)`, `(4, 0)`, `(3, 3)` and `(4, 3)` each admit 6 and 7. -/
def deadGrid : SudokuState :=
  SudokuState.ofList [
    0, 5, 4, 0, 0, 8, 9, 1, 2,
    6, 7, 2, 1, 9, 5, 3, 4, 8,
    1, 9, 8, 3, 4, 2, 5, 6, 7,
    8, 0, 9, 0, 0, 1, 4, 2, 3,
    4, 2, 6, 8, 5, 3, 7, 9, 1,
    7, 1, 3, 9, 2, 4, 8, 5, 6,
    9, 6, 1, 5, 3, 7, 2, 8, 4,
    2, 8, 7, 4, 1, 9, 6, 3, 5,
    3, 4, 5, 2, 8, 6, 1, 7, 9]

/-- The grid `deadGrid` with 6, 7, 7, 6 in the cells `(3, 0)`, `(4, 0)`, `(3, 3)`,
`(4, 3)`. -/
def deadChild : SudokuState :=
  SudokuState.ofList [
    0, 5, 4, 6, 7, 8, 9, 1, 2,
    6, 7, 2, 1, 9, 5, 3, 4, 8,
    1, 9, 8, 3, 4, 2, 5, 6, 7,
    8, 0, 9, 7, 6, 1, 4, 2, 3,
    4, 2, 6, 8, 5, 3, 7, 9, 1,
    7, 1, 3, 9, 2, 4, 8, 5, 6,
    9, 6, 1, 5, 3, 7, 2, 8, 4,
    2, 8, 7, 4, 1, 9, 6, 3, 5,
    3, 4, 5, 2, 8, 6, 1, 7, 9]

/-! ## Counting loops -/
theorem foldl_count {α : Type} (p : α → Prop) [DecidablePred p] (l : List α) (c : Nat) :
    l.foldl (fun c a => if p a then c + 1 else c) c = c + l.countP (fun a => decide (p a)) := by
  induction l generalizing c with
  | nil => simp
  | cons a l ih =>
    simp only [List.foldl_cons, List.countP_cons, ih]
    by_cases h : p a
    · simp [h]; omega
    · simp [h]

theorem foldl2_count (p : Nat → Nat → Prop) [∀ x y, Decidable (p x y)] (xs ys : List Nat)
    (c : Nat) :
    ys.foldl (fun c y => xs.foldl (fun c x => if p x y then c + 1 else c) c) c
      = c + (grid2 xs ys).countP (fun q => decide (p q.1 q.2)) := by
  induction ys generalizing c with
  | nil => simp [grid2]
  | cons y ys ih =>
    simp only [List.foldl_cons, ih, grid2, List.flatMap_cons, List.countP_append]
    rw [foldl_count (fun x => p x y) xs c, List.countP_map]
    simp only [grid2, Function.comp_def, Nat.add_assoc]

theorem mem_grid2 (xs ys : List Nat) (a b : Nat) :
    (a, b) ∈ grid2 xs ys ↔ a ∈ xs ∧ b ∈ ys := by
  simp only [grid2, List.mem_flatMap, List.mem_map, Prod.mk.injEq]
  constructor
  · rintro ⟨y, hy, x, hx, rfl, rfl⟩
    exact ⟨hx, hy⟩
  · rintro ⟨hx, hy⟩
    exact ⟨b, hy, a, hx, rfl, rfl⟩

theorem nodup_grid2 (xs ys : List Nat) (hx : xs.Nodup) (hy : ys.Nodup) :
    (grid2 xs ys).Nodup := by
  induction ys with
  | nil => simp [grid2]
  | cons y ys ih =>
    have hy2 := List.nodup_cons.mp hy
    have : grid2 xs (y :: ys) = (xs.map fun x => (x, y)) ++ grid2 xs ys := by
      simp [grid2]
    rw [this, List.nodup_append]
    refine ⟨?_, ih hy2.2, ?_⟩
    · exact hx.map (fun a b h => by simpa using h)
    · intro q hq1 hq2
      obtain ⟨a, b⟩ := q
      rw [mem_grid2] at hq2
      simp only [List.mem_map, Prod.mk.injEq] at hq1
      obtain ⟨x, _, _, rfl⟩ := hq1
      exact hy2.1 hq2.2

theorem countP_le_one_iff {α : Type} (p : α → Bool) (l : List α) (hl : l.Nodup) :
    l.countP p ≤ 1 ↔ ∀ a ∈ l, ∀ b ∈ l, p a = true → p b = true → a = b := by
  induction l with
  | nil => simp
  | cons c l ih =>
    have hc := List.nodup_cons.mp hl
    rw [List.countP_cons]
    by_cases h : p c = true
    · simp only [h, if_true]
      constructor
      · intro h1
        have h0 : l.countP p = 0 := by omega
        rw [List.countP_eq_zero] at h0
        intro a ha b hb pa pb
        rcases List.mem_cons.mp ha with rfl | ha
        · rcases List.mem_cons.mp hb with rfl | hb
          · rfl
          · exact absurd pb (h0 b hb)
        · exact absurd pa (h0 a ha)
      · intro h1
        have h0 : l.countP p = 0 := by
          rw [List.countP_eq_zero]
          intro a ha pa
          have := h1 a (List.mem_cons_of_mem _ ha) c (List.mem_cons_self _ _) pa h
          subst this
          exact hc.1 ha
        omega
    · simp only [h, if_false, Nat.add_zero, Bool.false_eq_true]
      rw [ih hc.2]
      constructor
      · intro h1 a ha b hb pa pb
        rcases List.mem_cons.mp ha with rfl | ha
        · exact absurd pa h
        · rcases List.mem_cons.mp hb with rfl | hb
          · exact absurd pb h
          · exact h1 a ha b hb pa pb
      · intro h1 a ha b hb pa pb
        exact h1 a (List.mem_cons_of_mem _ ha) b (List.mem_cons_of_mem _ hb) pa pb

theorem numInRow_eq (s : SudokuState) (y : Nat) (num : Int) :
    numInRow s y num = (List.range 9).countP (fun x => decide (getNum s x y = num)) := by
  simp [numInRow, foldl_count]

theorem numInCol_eq (s : SudokuState) (x : Nat) (num : Int) :
    numInCol s x num = (List.range 9).countP (fun y => decide (getNum s x y = num)) := by
  simp [numInCol, foldl_count]


theorem mem_boxSpan (x a : Nat) : a ∈ boxSpan x ↔ a / 3 = x / 3 := by
  simp only [boxSpan, List.mem_cons, List.mem_singleton, List.not_mem_nil, or_false]
  omega

theorem nodup_boxSpan (x : Nat) : (boxSpan x).Nodup := by
  simp only [boxSpan, List.nodup_cons, List.mem_cons, List.mem_singleton, List.not_mem_nil,
    List.nodup_nil, and_true, not_false_eq_true, or_false, not_or]
  omega

theorem numInBox_eq (s : SudokuState) (x y : Nat) (num : Int) :
    numInBox s x y num
      = (grid2 (boxSpan x) (boxSpan y)).countP (fun q => decide (getNum s q.1 q.2 = num)) := by
  have h := foldl2_count (fun a b => getNum s a b = num) (boxSpan x) (boxSpan y) 0
  simp only [Nat.zero_add] at h
  rw [← h]
  rfl

theorem gridCount_eq (s : SudokuState) :
    gridCount s = (grid2 (List.range 9) (List.range 9)).countP
      (fun q => decide (getNum s q.1 q.2 > 0)) := by
  have h := foldl2_count (fun a b => getNum s a b > 0) (List.range 9) (List.range 9) 0
  simp only [Nat.zero_add] at h
  rw [← h]
  rfl

theorem numInRow_pos (s : SudokuState) (y : Nat) (num : Int) :
    0 < numInRow s y num ↔ ∃ x, x < 9 ∧ getNum s x y = num := by
  simp [numInRow_eq, List.countP_pos_iff]

theorem numInCol_pos (s : SudokuState) (x : Nat) (num : Int) :
    0 < numInCol s x num ↔ ∃ y, y < 9 ∧ getNum s x y = num := by
  simp [numInCol_eq, List.countP_pos_iff]

theorem numInBox_pos (s : SudokuState) (x y : Nat) (num : Int) :
    0 < numInBox s x y num ↔ ∃ a b, a / 3 = x / 3 ∧ b / 3 = y / 3 ∧ getNum s a b = num := by
  rw [numInBox_eq, List.countP_pos_iff]
  constructor
  · rintro ⟨⟨a, b⟩, hm, hp⟩
    rw [mem_grid2, mem_boxSpan, mem_boxSpan] at hm
    exact ⟨a, b, hm.1, hm.2, by simpa using hp⟩
  · rintro ⟨a, b, ha, hb, hp⟩
    exact ⟨(a, b), by rw [mem_grid2, mem_boxSpan, mem_boxSpan]; exact ⟨ha, hb⟩, by simpa using hp⟩

theorem numInRow_le_one (s : SudokuState) (y : Nat) (num : Int) :
    numInRow s y num ≤ 1 ↔
      ∀ x1 x2, x1 < 9 → x2 < 9 → getNum s x1 y = num → getNum s x2 y = num → x1 = x2 := by
  rw [numInRow_eq, countP_le_one_iff _ _ (List.nodup_range 9)]
  simp only [List.mem_range, decide_eq_true_eq]
  constructor
  · intro h x1 x2 h1 h2 e1 e2
    exact h x1 h1 x2 h2 e1 e2
  · intro h x1 h1 x2 h2 e1 e2
    exact h x1 x2 h1 h2 e1 e2

theorem numInCol_le_one (s : SudokuState) (x : Nat) (num : Int) :
    numInCol s x num ≤ 1 ↔
      ∀ y1 y2, y1 < 9 → y2 < 9 → getNum s x y1 = num → getNum s x y2 = num → y1 = y2 := by
  rw [numInCol_eq, countP_le_one_iff _ _ (List.nodup_range 9)]
  simp only [List.mem_range, decide_eq_true_eq]
  constructor
  · intro h x1 x2 h1 h2 e1 e2
    exact h x1 h1 x2 h2 e1 e2
  · intro h x1 h1 x2 h2 e1 e2
    exact h x1 x2 h1 h2 e1 e2

theorem numInBox_le_one (s : SudokuState) (x y : Nat) (num : Int) :
    numInBox s x y num ≤ 1 ↔
      ∀ a1 b1 a2 b2, a1 / 3 = x / 3 → b1 / 3 = y / 3 → a2 / 3 = x / 3 → b2 / 3 = y / 3 →
        getNum s a1 b1 = num → getNum s a2 b2 = num → a1 = a2 ∧ b1 = b2 := by
  rw [numInBox_eq,
    countP_le_one_iff _ _ (nodup_grid2 _ _ (nodup_boxSpan x) (nodup_boxSpan y))]
  constructor
  · intro h a1 b1 a2 b2 h1 h2 h3 h4 e1 e2
    have := h (a1, b1) (by rw [mem_grid2, mem_boxSpan, mem_boxSpan]; exact ⟨h1, h2⟩)
      (a2, b2) (by rw [mem_grid2, mem_boxSpan, mem_boxSpan]; exact ⟨h3, h4⟩)
      (by simpa using e1) (by simpa using e2)
    simpa using this
  · rintro h ⟨a1, b1⟩ m1 ⟨a2, b2⟩ m2 e1 e2
    rw [mem_grid2, mem_boxSpan, mem_boxSpan] at m1 m2
    have := h a1 b1 a2 b2 m1.1 m1.2 m2.1 m2.2 (by simpa using e1) (by simpa using e2)
    simp [this.1, this.2]

theorem placeOK_iff (s : SudokuState) (x y : Nat) (num : Int) :
    placeOK s x y num = true ↔
      getNum s x y ≤ 0 ∧ (∀ a, a < 9 → getNum s a y ≠ num) ∧
      (∀ b, b < 9 → getNum s x b ≠ num) ∧
      (∀ a b, a / 3 = x / 3 → b / 3 = y / 3 → getNum s a b ≠ num) := by
  have hr := numInRow_pos s y num
  have hc := numInCol_pos s x num
  have hb := numInBox_pos s x y num
  unfold placeOK
  constructor
  · intro h
    split_ifs at h with h1 h2 h3 h4
    refine ⟨by omega, ?_, ?_, ?_⟩
    · intro a ha e
      exact h2 (hr.mpr ⟨a, ha, e⟩)
    · intro b hb2 e
      exact h3 (hc.mpr ⟨b, hb2, e⟩)
    · intro a b ha hb2 e
      exact h4 (hb.mpr ⟨a, b, ha, hb2, e⟩)
  · rintro ⟨h1, h2, h3, h4⟩
    rw [if_neg (by omega), if_neg, if_neg, if_neg]
    · intro h
      obtain ⟨a, b, ha, hb2, e⟩ := hb.mp h
      exact h4 a b ha hb2 e
    · intro h
      obtain ⟨b, hb2, e⟩ := hc.mp h
      exact h3 b hb2 e
    · intro h
      obtain ⟨a, ha, e⟩ := hr.mp h
      exact h2 a ha e

/-! ## Cells, `setNum`, `clone`, `isDuplicate` -/

theorem getNum_setNum (s : SudokuState) (x y a b : Nat) (n : Int) (hx : x < 9) (ha : a < 9) :
    getNum (setNum s x y n) a b = if a = x ∧ b = y then n else getNum s a b := by
  unfold getNum setNum
  simp only [Function.update_apply]
  by_cases h : a = x ∧ b = y
  · rw [if_pos h, if_pos (by omega)]
  · rw [if_neg h, if_neg (by omega)]

theorem getNum_setNum_self (s : SudokuState) (x y : Nat) (n : Int) :
    getNum (setNum s x y n) x y = n := by
  simp [getNum, setNum]

theorem setNum_value (s : SudokuState) (x y : Nat) (n : Int) :
    (setNum s x y n).value = s.value := rfl

theorem getNum_setValue (s : SudokuState) (v : Int) (x y : Nat) :
    getNum (setValue s v) x y = getNum s x y := rfl

theorem cell_index (i : Nat) (hi : i < 81) : i % 9 + (i / 9) * 9 = i ∧ i % 9 < 9 ∧ i / 9 < 9 := by
  omega

theorem clone_fold (s : SudokuState) (n : Nat) :
    ((List.range n).foldl
      (fun state i => { state with grid := Function.update state.grid i (s.grid i) })
      SudokuState.new).grid = (fun i => if i < n then s.grid i else 0) ∧
    ((List.range n).foldl
      (fun state i => { state with grid := Function.update state.grid i (s.grid i) })
      SudokuState.new).value = 0 := by
  induction n with
  | zero => exact ⟨by funext i; simp [SudokuState.new], rfl⟩
  | succ n ih =>
    rw [List.range_succ, List.foldl_append]
    simp only [List.foldl_cons, List.foldl_nil]
    refine ⟨?_, ih.2⟩
    rw [ih.1]
    funext i
    simp only [Function.update_apply]
    by_cases h : i = n
    · subst h; simp
    · rw [if_neg h]
      by_cases h2 : i < n
      · rw [if_pos h2, if_pos (by omega)]
      · rw [if_neg h2, if_neg (by omega)]

theorem clone_grid (s : SudokuState) (i : Nat) :
    (clone s).grid i = if i < 81 then s.grid i else 0 := by
  unfold clone
  rw [(clone_fold s 81).1]

theorem clone_value (s : SudokuState) : (clone s).value = 0 :=
  (clone_fold s 81).2

theorem getNum_clone (s : SudokuState) (x y : Nat) (hx : x < 9) (hy : y < 9) :
    getNum (clone s) x y = getNum s x y := by
  unfold getNum
  rw [clone_grid, if_pos (by omega)]

theorem isDuplicate_iff (a b : SudokuState) :
    isDuplicate a b = true ↔ ∀ i, i < 81 → a.grid i = b.grid i := by
  unfold isDuplicate
  simp only [List.all_eq_true, List.mem_range]
  constructor
  · intro h i hi
    have := h i hi
    by_contra hne
    rw [if_pos (fun e => hne e.symm)] at this
    exact Bool.false_ne_true this
  · intro h i hi
    rw [if_neg (by rw [h i hi]; exact fun hn => hn rfl)]

theorem isDuplicate_iff_getNum (a b : SudokuState) :
    isDuplicate a b = true ↔ ∀ x y, x < 9 → y < 9 → getNum a x y = getNum b x y := by
  rw [isDuplicate_iff]
  constructor
  · intro h x y hx hy
    exact h (x + y * 9) (by omega)
  · intro h i hi
    have := h (i % 9) (i / 9) (by omega) (by omega)
    unfold getNum at this
    rwa [(cell_index i hi).1] at this

/-! ## `isValid` -/

theorem mem_digits (i : Nat) : i ∈ digits ↔ 1 ≤ i ∧ i ≤ 9 := by
  unfold digits
  rw [List.mem_range']
  constructor
  · rintro ⟨k, hk, rfl⟩; omega
  · intro h; exact ⟨i - 1, by omega, by omega⟩

theorem isValid_counts (s : SudokuState) :
    isValid s = true ↔ ∀ y, y < 9 → ∀ x, x < 9 →
      (0 ≤ getNum s x y ∧ getNum s x y ≤ 9) ∧
      ∀ i : Nat, 1 ≤ i → i ≤ 9 →
        numInRow s y i ≤ 1 ∧ numInCol s x i ≤ 1 ∧ numInBox s x y i ≤ 1 := by
  unfold isValid
  simp only [List.all_eq_true, List.mem_range]
  constructor
  · intro h y hy x hx
    have h1 := h y hy x hx
    by_cases hr : getNum s x y < 0 ∨ getNum s x y > 9
    · rw [if_pos hr] at h1
      exact absurd h1 Bool.false_ne_true
    · rw [if_neg hr] at h1
      refine ⟨by omega, ?_⟩
      intro i hi1 hi9
      have h2 := List.all_eq_true.mp h1 i ((mem_digits i).mpr ⟨hi1, hi9⟩)
      by_cases a : numInRow s y i > 1
      · rw [if_pos a] at h2; exact absurd h2 Bool.false_ne_true
      · rw [if_neg a] at h2
        by_cases b : numInCol s x i > 1
        · rw [if_pos b] at h2; exact absurd h2 Bool.false_ne_true
        · rw [if_neg b] at h2
          by_cases c : numInBox s x y i > 1
          · rw [if_pos c] at h2; exact absurd h2 Bool.false_ne_true
          · omega
  · intro h y hy x hx
    obtain ⟨h1, h2⟩ := h y hy x hx
    rw [if_neg (by omega)]
    apply List.all_eq_true.mpr
    intro i hi
    obtain ⟨a, b, c⟩ := h2 i ((mem_digits i).mp hi).1 ((mem_digits i).mp hi).2
    rw [if_neg (by omega), if_neg (by omega), if_neg (by omega)]

theorem isValid_iff (s : SudokuState) : isValid s = true ↔ InRange s ∧ NoClash s := by
  rw [isValid_counts]
  constructor
  · intro h
    have hr : InRange s := fun x y hx hy => (h y hy x hx).1
    refine ⟨hr, ?_⟩
    intro x1 y1 x2 y2 hx1 hy1 hx2 hy2 h1 he hu
    have h9 := (hr x1 y1 hx1 hy1).2
    obtain ⟨i, hi⟩ : ∃ i : Nat, getNum s x1 y1 = i := ⟨(getNum s x1 y1).toNat, by omega⟩
    have hc := (h y1 hy1 x1 hx1).2 i (by omega) (by omega)
    rcases hu with rfl | rfl | ⟨hbx, hby⟩
    · exact ⟨(numInRow_le_one s y1 i).mp hc.1 x1 x2 hx1 hx2 hi (by rw [← he, hi]), rfl⟩
    · exact ⟨rfl, (numInCol_le_one s x1 i).mp hc.2.1 y1 y2 hy1 hy2 hi (by rw [← he, hi])⟩
    · exact (numInBox_le_one s x1 y1 i).mp hc.2.2 x1 y1 x2 y2 rfl rfl hbx.symm hby.symm hi
        (by rw [← he, hi])
  · rintro ⟨hr, hn⟩ y hy x hx
    refine ⟨hr x y hx hy, ?_⟩
    intro i hi1 hi9
    refine ⟨?_, ?_, ?_⟩
    · rw [numInRow_le_one]
      intro x1 x2 hx1 hx2 e1 e2
      exact (hn x1 y x2 y hx1 hy hx2 hy (by omega) (by rw [e1, e2]) (Or.inl rfl)).1
    · rw [numInCol_le_one]
      intro y1 y2 hy1 hy2 e1 e2
      exact (hn x y1 x y2 hx hy1 hx hy2 (by omega) (by rw [e1, e2]) (Or.inr (Or.inl rfl))).2
    · rw [numInBox_le_one]
      intro a1 b1 a2 b2 ha1 hb1 ha2 hb2 e1 e2
      exact hn a1 b1 a2 b2 (by omega) (by omega) (by omega) (by omega) (by omega)
        (by rw [e1, e2]) (Or.inr (Or.inr ⟨by omega, by omega⟩))

/-- Writing a number `1 .. 9` into a cell where `placeOK` allows it keeps the grid
valid. -/
theorem valid_setNum (s : SudokuState) (x y : Nat) (d : Int) (hx : x < 9) (hy : y < 9)
    (hd1 : 1 ≤ d) (hd9 : d ≤ 9) (hp : placeOK s x y d = true)
    (hv : InRange s ∧ NoClash s) :
    InRange (setNum s x y d) ∧ NoClash (setNum s x y d) := by
  obtain ⟨hr, hn⟩ := hv
  obtain ⟨_, prow, pcol, pbox⟩ := (placeOK_iff s x y d).mp hp
  constructor
  · intro a b ha hb
    rw [getNum_setNum s x y a b d hx ha]
    by_cases h : a = x ∧ b = y
    · rw [if_pos h]; omega
    · rw [if_neg h]; exact hr a b ha hb
  · intro x1 y1 x2 y2 hx1 hy1 hx2 hy2 h1 he hu
    rw [getNum_setNum s x y x1 y1 d hx hx1] at h1 he
    rw [getNum_setNum s x y x2 y2 d hx hx2] at he
    by_cases c1 : x1 = x ∧ y1 = y
    · by_cases c2 : x2 = x ∧ y2 = y
      · omega
      · rw [if_pos c1, if_neg c2] at he
        exfalso
        obtain ⟨rfl, rfl⟩ := c1
        rcases hu with rfl | rfl | ⟨hbx, hby⟩
        · exact prow x2 hx2 he.symm
        · exact pcol y2 hy2 he.symm
        · exact pbox x2 y2 hbx.symm hby.symm he.symm
    · rw [if_neg c1] at h1 he
      by_cases c2 : x2 = x ∧ y2 = y
      · rw [if_pos c2] at he
        exfalso
        obtain ⟨rfl, rfl⟩ := c2
        rcases hu with rfl | rfl | ⟨hbx, hby⟩
        · exact prow x1 hx1 he
        · exact pcol y1 hy1 he
        · exact pbox x1 y1 hbx hby he
      · rw [if_neg c2] at he
        exact hn x1 y1 x2 y2 hx1 hy1 hx2 hy2 h1 he hu

/-! ## First part of a pass: `fillMaybe` -/

theorem clear_fold (m : MaybeTable) (x y n a b c : Nat) :
    ((List.range n).foldl (fun m z => setMaybe m x y z false) m) a b c
      = if a = x ∧ b = y ∧ c < n then false else m a b c := by
  induction n with
  | zero => simp
  | succ n ih =>
    rw [List.range_succ, List.foldl_append]
    simp only [List.foldl_cons, List.foldl_nil, setMaybe, ih]
    by_cases h : a = x ∧ b = y ∧ c = n
    · rw [if_pos h, if_pos ⟨h.1, h.2.1, by omega⟩]
    · rw [if_neg h]
      by_cases h2 : a = x ∧ b = y ∧ c < n
      · rw [if_pos h2, if_pos ⟨h2.1, h2.2.1, by omega⟩]
      · rw [if_neg h2, if_neg]
        rintro ⟨h3, h4, h5⟩
        by_cases h6 : c = n
        · exact h ⟨h3, h4, h6⟩
        · exact h2 ⟨h3, h4, by omega⟩

theorem mark_fold (s : SudokuState) (x y : Nat) (l : List Nat) (m : MaybeTable) (a b c : Nat) :
    (l.foldl
      (fun m (z : Nat) =>
        if (z : Int) = getNum s x y then setMaybe m x y z true
        else if placeOK s x y z then setMaybe m x y z true
        else m) m) a b c
      = if a = x ∧ b = y ∧ c ∈ l ∧ ((c : Int) = getNum s x y ∨ placeOK s x y c = true)
        then true else m a b c := by
  induction l generalizing m with
  | nil => simp
  | cons z l ih =>
    rw [List.foldl_cons, ih]
    by_cases h : a = x ∧ b = y ∧ c ∈ l ∧ ((c : Int) = getNum s x y ∨ placeOK s x y c = true)
    · rw [if_pos h, if_pos ⟨h.1, h.2.1, List.mem_cons_of_mem _ h.2.2.1, h.2.2.2⟩]
    · rw [if_neg h]
      by_cases hz : a = x ∧ b = y ∧ c = z
      · obtain ⟨rfl, rfl, rfl⟩ := hz
        by_cases h1 : (c : Int) = getNum s a b
        · rw [if_pos h1, if_pos ⟨rfl, rfl, List.mem_cons_self _ _, Or.inl h1⟩]
          simp [setMaybe]
        · rw [if_neg h1]
          by_cases h2 : placeOK s a b c = true
          · rw [if_pos h2, if_pos ⟨rfl, rfl, List.mem_cons_self _ _, Or.inr h2⟩]
            simp [setMaybe]
          · rw [if_neg h2, if_neg]
            rintro ⟨_, _, hm, hp⟩
            rcases hp with hp | hp
            · exact h1 hp
            · exact h2 hp
      · have e : (if (z : Int) = getNum s x y then setMaybe m x y z true
            else if placeOK s x y z then setMaybe m x y z true else m) a b c = m a b c := by
          split_ifs <;> simp [setMaybe, hz]
        rw [e]
        by_cases h3 : a = x ∧ b = y ∧ c ∈ z :: l ∧
            ((c : Int) = getNum s x y ∨ placeOK s x y c = true)
        · exfalso
          obtain ⟨h4, h5, h6, h7⟩ := h3
          rcases List.mem_cons.mp h6 with h8 | h8
          · exact hz ⟨h4, h5, h8⟩
          · exact h ⟨h4, h5, h8, h7⟩
        · rw [if_neg h3]

theorem fillCell_apply (s : SudokuState) (x y : Nat) (m : MaybeTable) (a b c : Nat) :
    fillCell s x y m a b c = if a = x ∧ b = y ∧ c < 10 then cand s x y c else m a b c := by
  unfold fillCell
  rw [mark_fold, clear_fold]
  by_cases h : a = x ∧ b = y ∧ c < 10
  · rw [if_pos h, if_pos h]
    unfold cand
    by_cases h2 : c ∈ digits ∧ ((c : Int) = getNum s x y ∨ placeOK s x y c = true)
    · rw [if_pos ⟨h.1, h.2.1, h2⟩]
      have := (mem_digits c).mp h2.1
      rcases h2.2 with h3 | h3
      · simp [this.1, h3]
      · simp [this.1, h3]
    · rw [if_neg (fun hh => h2 hh.2.2)]
      by_cases h1 : 1 ≤ c
      · have hm : c ∈ digits := (mem_digits c).mpr ⟨h1, by omega⟩
        have h4 : ¬ ((c : Int) = getNum s x y ∨ placeOK s x y c = true) := fun hh => h2 ⟨hm, hh⟩
        rw [not_or] at h4
        simp [h4.1, h4.2]
      · simp [h1]
  · rw [if_neg h, if_neg h, if_neg]
    rintro ⟨h1, h2, h3, _⟩
    exact h ⟨h1, h2, by have := (mem_digits c).mp h3; omega⟩

theorem fillCol_apply (s : SudokuState) (x : Nat) (ys : List Nat) (m : MaybeTable)
    (a b c : Nat) :
    (ys.foldl (fun m y => fillCell s x y m) m) a b c
      = if a = x ∧ b ∈ ys ∧ c < 10 then cand s a b c else m a b c := by
  induction ys generalizing m with
  | nil => simp
  | cons y ys ih =>
    rw [List.foldl_cons, ih, fillCell_apply]
    by_cases h : a = x ∧ b ∈ ys ∧ c < 10
    · rw [if_pos h, if_pos ⟨h.1, List.mem_cons_of_mem _ h.2.1, h.2.2⟩]
    · rw [if_neg h]
      by_cases h2 : a = x ∧ b = y ∧ c < 10
      · rw [if_pos h2, if_pos ⟨h2.1, by rw [h2.2.1]; exact List.mem_cons_self _ _, h2.2.2⟩,
          h2.1, h2.2.1]
      · rw [if_neg h2, if_neg]
        rintro ⟨h3, h4, h5⟩
        rcases List.mem_cons.mp h4 with h6 | h6
        · exact h2 ⟨h3, h6, h5⟩
        · exact h ⟨h3, h6, h5⟩

theorem fillRows_apply (s : SudokuState) (xs ys : List Nat) (m : MaybeTable) (a b c : Nat) :
    (xs.foldl (fun m x => ys.foldl (fun m y => fillCell s x y m) m) m) a b c
      = if a ∈ xs ∧ b ∈ ys ∧ c < 10 then cand s a b c else m a b c := by
  induction xs generalizing m with
  | nil => simp
  | cons x xs ih =>
    rw [List.foldl_cons, ih, fillCol_apply]
    by_cases h : a ∈ xs ∧ b ∈ ys ∧ c < 10
    · rw [if_pos h, if_pos ⟨List.mem_cons_of_mem _ h.1, h.2⟩]
    · rw [if_neg h]
      by_cases h2 : a = x ∧ b ∈ ys ∧ c < 10
      · rw [if_pos h2, if_pos ⟨by rw [h2.1]; exact List.mem_cons_self _ _, h2.2⟩]
      · rw [if_neg h2, if_neg]
        rintro ⟨h3, h4, h5⟩
        rcases List.mem_cons.mp h3 with h6 | h6
        · exact h2 ⟨h6, h4, h5⟩
        · exact h ⟨h6, h4, h5⟩

/-- After the first part of a pass every entry of the table has the value `cand`,
whatever the table held before. -/
theorem fillMaybe_apply (s : SudokuState) (m : MaybeTable) (a b c : Nat) :
    fillMaybe s m a b c = if a < 9 ∧ b < 9 ∧ c < 10 then cand s a b c else m a b c := by
  unfold fillMaybe
  rw [fillRows_apply]
  simp only [List.mem_range]

/-! ## `boxCheck`, `columnCheck`, `rowCheck` -/

theorem any_three (f : Int → Bool) (n : Nat) (hn : 1 ≤ n) :
    [(n : Int) - 1, (n : Int), (n : Int) + 1].any f = true ↔
      ∃ a : Nat, n - 1 ≤ a ∧ a ≤ n + 1 ∧ f a = true := by
  have c1 : (n : Int) - 1 = ((n - 1 : Nat) : Int) := by omega
  have c2 : (n : Int) + 1 = ((n + 1 : Nat) : Int) := by omega
  simp only [List.any_cons, List.any_nil, Bool.or_false, Bool.or_eq_true, c1, c2]
  constructor
  · intro h
    rcases h with h | h | h
    · exact ⟨n - 1, by omega, by omega, h⟩
    · exact ⟨n, by omega, by omega, h⟩
    · exact ⟨n + 1, by omega, by omega, h⟩
  · rintro ⟨a, h1, h2, h3⟩
    have ea : a = n - 1 ∨ a = n ∨ a = n + 1 := by omega
    rcases ea with rfl | rfl | rfl
    · exact Or.inl h3
    · exact Or.inr (Or.inl h3)
    · exact Or.inr (Or.inr h3)

theorem columnCheck_iff (m : MaybeTable) (col : Int) (n k num : Nat) (hn : 1 ≤ n)
    (hk : 1 ≤ k) :
    columnCheck m col n k num = true ↔
      ∃ a b : Nat, n - 1 ≤ a ∧ a ≤ n + 1 ∧ k - 1 ≤ b ∧ b ≤ k + 1 ∧
        (a : Int) ≠ col ∧ m a b num = true := by
  unfold columnCheck
  rw [any_three _ k hk]
  constructor
  · rintro ⟨b, h1, h2, h3⟩
    rw [any_three _ n hn] at h3
    obtain ⟨a, h4, h5, h6⟩ := h3
    simp only [Bool.and_eq_true, decide_eq_true_eq, Int.toNat_ofNat] at h6
    exact ⟨a, b, h4, h5, h1, h2, h6.1, h6.2⟩
  · rintro ⟨a, b, h1, h2, h3, h4, h5, h6⟩
    refine ⟨b, h3, h4, ?_⟩
    rw [any_three _ n hn]
    refine ⟨a, h1, h2, ?_⟩
    simp only [Bool.and_eq_true, decide_eq_true_eq, Int.toNat_ofNat]
    exact ⟨h5, h6⟩

theorem rowCheck_iff (m : MaybeTable) (row : Int) (n k num : Nat) (hn : 1 ≤ n)
    (hk : 1 ≤ k) :
    rowCheck m row n k num = true ↔
      ∃ a b : Nat, n - 1 ≤ a ∧ a ≤ n + 1 ∧ k - 1 ≤ b ∧ b ≤ k + 1 ∧
        (b : Int) ≠ row ∧ m a b num = true := by
  unfold rowCheck
  rw [any_three _ k hk]
  constructor
  · rintro ⟨b, h1, h2, h3⟩
    rw [any_three _ n hn] at h3
    obtain ⟨a, h4, h5, h6⟩ := h3
    simp only [Bool.and_eq_true, decide_eq_true_eq, Int.toNat_ofNat] at h6
    exact ⟨a, b, h4, h5, h1, h2, h6.1, h6.2⟩
  · rintro ⟨a, b, h1, h2, h3, h4, h5, h6⟩
    refine ⟨b, h3, h4, ?_⟩
    rw [any_three _ n hn]
    refine ⟨a, h1, h2, ?_⟩
    simp only [Bool.and_eq_true, decide_eq_true_eq, Int.toNat_ofNat]
    exact ⟨h5, h6⟩

theorem ite_false_eq_true (c : Prop) [Decidable c] (e : Bool) :
    (if c then false else e) = true ↔ ¬ c ∧ e = true := by
  by_cases h : c <;> simp [h]

/-- The stack part of `boxCheck`: what the four tests on the boxes above and below
amount to. -/
theorem boxCheck_eq_true (m : MaybeTable) (x y num : Nat) :
    boxCheck m x y num = true ↔
      ((((y / 3) * 3 + 1 : Nat) : Int) - 6 ≥ 0 →
        columnCheck m x ((x / 3) * 3 + 1 : Nat) ((((y / 3) * 3 + 1 : Nat) : Int) - 6) num = true) ∧
      ((((y / 3) * 3 + 1 : Nat) : Int) - 3 ≥ 0 →
        columnCheck m x ((x / 3) * 3 + 1 : Nat) ((((y / 3) * 3 + 1 : Nat) : Int) - 3) num = true) ∧
      ((((y / 3) * 3 + 1 : Nat) : Int) + 6 < 9 →
        columnCheck m x ((x / 3) * 3 + 1 : Nat) ((((y / 3) * 3 + 1 : Nat) : Int) + 6) num = true) ∧
      ((((y / 3) * 3 + 1 : Nat) : Int) + 3 < 9 →
        columnCheck m x ((x / 3) * 3 + 1 : Nat) ((((y / 3) * 3 + 1 : Nat) : Int) + 3) num = true) ∧
      ((((x / 3) * 3 + 1 : Nat) : Int) - 6 ≥ 0 →
        rowCheck m y ((((x / 3) * 3 + 1 : Nat) : Int) - 6) ((y / 3) * 3 + 1 : Nat) num = true) ∧
      ((((x / 3) * 3 + 1 : Nat) : Int) - 3 ≥ 0 →
        rowCheck m y ((((x / 3) * 3 + 1 : Nat) : Int) - 3) ((y / 3) * 3 + 1 : Nat) num = true) ∧
      ((((x / 3) * 3 + 1 : Nat) : Int) + 6 < 9 →
        rowCheck m y ((((x / 3) * 3 + 1 : Nat) : Int) + 6) ((y / 3) * 3 + 1 : Nat) num = true) ∧
      ((((x / 3) * 3 + 1 : Nat) : Int) + 3 < 9 →
        rowCheck m y ((((x / 3) * 3 + 1 : Nat) : Int) + 3) ((y / 3) * 3 + 1 : Nat) num = true) := by
  unfold boxCheck
  simp only [ite_false_eq_true, not_and, Bool.not_eq_false, and_true]

theorem columnCheck_iff_int (m : MaybeTable) (col cx cy : Int) (num : Nat) (hx : 1 ≤ cx)
    (hy : 1 ≤ cy) :
    columnCheck m col cx cy num = true ↔
      ∃ a b : Nat, cx - 1 ≤ a ∧ (a : Int) ≤ cx + 1 ∧ cy - 1 ≤ b ∧ (b : Int) ≤ cy + 1 ∧
        (a : Int) ≠ col ∧ m a b num = true := by
  obtain ⟨n, rfl⟩ : ∃ n : Nat, cx = n := ⟨cx.toNat, by omega⟩
  obtain ⟨k, rfl⟩ : ∃ k : Nat, cy = k := ⟨cy.toNat, by omega⟩
  rw [columnCheck_iff m col n k num (by omega) (by omega)]
  constructor
  · rintro ⟨a, b, h1, h2, h3, h4, h5, h6⟩
    exact ⟨a, b, by omega, by omega, by omega, by omega, h5, h6⟩
  · rintro ⟨a, b, h1, h2, h3, h4, h5, h6⟩
    exact ⟨a, b, by omega, by omega, by omega, by omega, h5, h6⟩

theorem rowCheck_iff_int (m : MaybeTable) (row cx cy : Int) (num : Nat) (hx : 1 ≤ cx)
    (hy : 1 ≤ cy) :
    rowCheck m row cx cy num = true ↔
      ∃ a b : Nat, cx - 1 ≤ a ∧ (a : Int) ≤ cx + 1 ∧ cy - 1 ≤ b ∧ (b : Int) ≤ cy + 1 ∧
        (b : Int) ≠ row ∧ m a b num = true := by
  obtain ⟨n, rfl⟩ : ∃ n : Nat, cx = n := ⟨cx.toNat, by omega⟩
  obtain ⟨k, rfl⟩ : ∃ k : Nat, cy = k := ⟨cy.toNat, by omega⟩
  rw [rowCheck_iff m row n k num (by omega) (by omega)]
  constructor
  · rintro ⟨a, b, h1, h2, h3, h4, h5, h6⟩
    exact ⟨a, b, by omega, by omega, by omega, by omega, h5, h6⟩
  · rintro ⟨a, b, h1, h2, h3, h4, h5, h6⟩
    exact ⟨a, b, by omega, by omega, by omega, by omega, h5, h6⟩

/-- What `boxCheck` tests, in terms of boxes: every other box of the same stack has
the number as a candidate in a column other than `x`, and every other box of the same
band has it as a candidate in a row other than `y`. -/
theorem boxCheck_iff (m : MaybeTable) (x y num : Nat) (hx : x < 9) (hy : y < 9) :
    boxCheck m x y num = true ↔
      (∀ k, k < 3 → k ≠ y / 3 →
        ∃ a b, a / 3 = x / 3 ∧ b / 3 = k ∧ a ≠ x ∧ m a b num = true) ∧
      (∀ k, k < 3 → k ≠ x / 3 →
        ∃ a b, a / 3 = k ∧ b / 3 = y / 3 ∧ b ≠ y ∧ m a b num = true) := by
  rw [boxCheck_eq_true]
  constructor
  · rintro ⟨h1, h2, h3, h4, h5, h6, h7, h8⟩
    constructor
    · intro k hk hne
      have hc : k + 2 = y / 3 ∨ k + 1 = y / 3 ∨ k = y / 3 + 2 ∨ k = y / 3 + 1 := by omega
      rcases hc with hc | hc | hc | hc
      · obtain ⟨a, b, b1, b2, b3, b4, b5, b6⟩ :=
          (columnCheck_iff_int m _ _ _ num (by omega) (by omega)).mp (h1 (by omega))
        exact ⟨a, b, by omega, by omega, by omega, b6⟩
      · obtain ⟨a, b, b1, b2, b3, b4, b5, b6⟩ :=
          (columnCheck_iff_int m _ _ _ num (by omega) (by omega)).mp (h2 (by omega))
        exact ⟨a, b, by omega, by omega, by omega, b6⟩
      · obtain ⟨a, b, b1, b2, b3, b4, b5, b6⟩ :=
          (columnCheck_iff_int m _ _ _ num (by omega) (by omega)).mp (h3 (by omega))
        exact ⟨a, b, by omega, by omega, by omega, b6⟩
      · obtain ⟨a, b, b1, b2, b3, b4, b5, b6⟩ :=
          (columnCheck_iff_int m _ _ _ num (by omega) (by omega)).mp (h4 (by omega))
        exact ⟨a, b, by omega, by omega, by omega, b6⟩
    · intro k hk hne
      have hc : k + 2 = x / 3 ∨ k + 1 = x / 3 ∨ k = x / 3 + 2 ∨ k = x / 3 + 1 := by omega
      rcases hc with hc | hc | hc | hc
      · obtain ⟨a, b, b1, b2, b3, b4, b5, b6⟩ :=
          (rowCheck_iff_int m _ _ _ num (by omega) (by omega)).mp (h5 (by omega))
        exact ⟨a, b, by omega, by omega, by omega, b6⟩
      · obtain ⟨a, b, b1, b2, b3, b4, b5, b6⟩ :=
          (rowCheck_iff_int m _ _ _ num (by omega) (by omega)).mp (h6 (by omega))
        exact ⟨a, b, by omega, by omega, by omega, b6⟩
      · obtain ⟨a, b, b1, b2, b3, b4, b5, b6⟩ :=
          (rowCheck_iff_int m _ _ _ num (by omega) (by omega)).mp (h7 (by omega))
        exact ⟨a, b, by omega, by omega, by omega, b6⟩
      · obtain ⟨a, b, b1, b2, b3, b4, b5, b6⟩ :=
          (rowCheck_iff_int m _ _ _ num (by omega) (by omega)).mp (h8 (by omega))
        exact ⟨a, b, by omega, by omega, by omega, b6⟩
  · rintro ⟨hs, hb⟩
    refine ⟨?_, ?_, ?_, ?_, ?_, ?_, ?_, ?_⟩
    · intro hc
      obtain ⟨a, b, b1, b2, b3, b4⟩ := hs (y / 3 - 2) (by omega) (by omega)
      exact (columnCheck_iff_int m _ _ _ num (by omega) (by omega)).mpr
        ⟨a, b, by omega, by omega, by omega, by omega, by omega, b4⟩
    · intro hc
      obtain ⟨a, b, b1, b2, b3, b4⟩ := hs (y / 3 - 1) (by omega) (by omega)
      exact (columnCheck_iff_int m _ _ _ num (by omega) (by omega)).mpr
        ⟨a, b, by omega, by omega, by omega, by omega, by omega, b4⟩
    · intro hc
      obtain ⟨a, b, b1, b2, b3, b4⟩ := hs (y / 3 + 2) (by omega) (by omega)
      exact (columnCheck_iff_int m _ _ _ num (by omega) (by omega)).mpr
        ⟨a, b, by omega, by omega, by omega, by omega, by omega, b4⟩
    · intro hc
      obtain ⟨a, b, b1, b2, b3, b4⟩ := hs (y / 3 + 1) (by omega) (by omega)
      exact (columnCheck_iff_int m _ _ _ num (by omega) (by omega)).mpr
        ⟨a, b, by omega, by omega, by omega, by omega, by omega, b4⟩
    · intro hc
      obtain ⟨a, b, b1, b2, b3, b4⟩ := hb (x / 3 - 2) (by omega) (by omega)
      exact (rowCheck_iff_int m _ _ _ num (by omega) (by omega)).mpr
        ⟨a, b, by omega, by omega, by omega, by omega, by omega, b4⟩
    · intro hc
      obtain ⟨a, b, b1, b2, b3, b4⟩ := hb (x / 3 - 1) (by omega) (by omega)
      exact (rowCheck_iff_int m _ _ _ num (by omega) (by omega)).mpr
        ⟨a, b, by omega, by omega, by omega, by omega, by omega, b4⟩
    · intro hc
      obtain ⟨a, b, b1, b2, b3, b4⟩ := hb (x / 3 + 2) (by omega) (by omega)
      exact (rowCheck_iff_int m _ _ _ num (by omega) (by omega)).mpr
        ⟨a, b, by omega, by omega, by omega, by omega, by omega, b4⟩
    · intro hc
      obtain ⟨a, b, b1, b2, b3, b4⟩ := hb (x / 3 + 1) (by omega) (by omega)
      exact (rowCheck_iff_int m _ _ _ num (by omega) (by omega)).mpr
        ⟨a, b, by omega, by omega, by omega, by omega, by omega, b4⟩

/-! ## The indices that `boxCheck` reads -/

theorem columnCheck_reads (m : MaybeTable) (col cx cy : Int) (num : Nat) :
    columnCheck m col cx cy num
      = (checkReads cx cy).any fun p => decide (p.1 ≠ col) && m p.1.toNat p.2.toNat num := by
  simp [columnCheck, checkReads, Bool.or_assoc]

theorem rowCheck_reads (m : MaybeTable) (row cx cy : Int) (num : Nat) :
    rowCheck m row cx cy num
      = (checkReads cx cy).any fun p => decide (p.2 ≠ row) && m p.1.toNat p.2.toNat num := by
  simp [rowCheck, checkReads, Bool.or_assoc]

theorem boxCheckReads_bounds (x y : Nat) (hx : x < 9) (hy : y < 9) (p : Int × Int)
    (hp : p ∈ boxCheckReads x y) : 0 ≤ p.1 ∧ p.1 ≤ 8 ∧ 0 ≤ p.2 ∧ p.2 ≤ 8 := by
  have key : ∀ bx bz : Nat, bx < 3 → bz < 3 → ∀ q : Int × Int,
      q ∈ boxCheckReads (3 * bx) (3 * bz) → 0 ≤ q.1 ∧ q.1 ≤ 8 ∧ 0 ≤ q.2 ∧ q.2 ≤ 8 := by
    intro bx bz hbx hbz
    interval_cases bx <;> interval_cases bz <;> decide
  have e : boxCheckReads x y = boxCheckReads (3 * (x / 3)) (3 * (y / 3)) := by
    unfold boxCheckReads
    have e1 : 3 * (x / 3) / 3 = x / 3 := by omega
    have e2 : 3 * (y / 3) / 3 = y / 3 := by omega
    rw [e1, e2]
  rw [e] at hp
  exact key (x / 3) (y / 3) (by omega) (by omega) p hp

theorem two_other_boxes (x : Nat) (hx : x < 9) :
    ((List.range 3).filter fun k => decide (k ≠ x / 3)).length = 2 := by
  have h : x / 3 = 0 ∨ x / 3 = 1 ∨ x / 3 = 2 := by omega
  rcases h with h | h | h <;> rw [h] <;> decide

theorem any_congr_mem {α : Type} (l : List α) (f g : α → Bool) (h : ∀ a, a ∈ l → f a = g a) :
    l.any f = l.any g := by
  induction l with
  | nil => rfl
  | cons a l ih =>
    rw [List.any_cons, List.any_cons, h a (List.mem_cons_self _ _),
      ih (fun b hb => h b (List.mem_cons_of_mem _ hb))]

/-- `boxCheck` reads `Maybe` at the index pairs of `boxCheckReads` only. -/
theorem boxCheck_reads_only (m1 m2 : MaybeTable) (x y num : Nat)
    (h : ∀ p, p ∈ boxCheckReads x y →
      m1 p.1.toNat p.2.toNat num = m2 p.1.toNat p.2.toNat num) :
    boxCheck m1 x y num = boxCheck m2 x y num := by
  have hc : ∀ (cx cy : Int), (∀ p, p ∈ checkReads cx cy → p ∈ boxCheckReads x y) →
      columnCheck m1 x cx cy num = columnCheck m2 x cx cy num := by
    intro cx cy hsub
    rw [columnCheck_reads, columnCheck_reads]
    apply any_congr_mem
    intro p hp
    rw [h p (hsub p hp)]
  have hr : ∀ (cx cy : Int), (∀ p, p ∈ checkReads cx cy → p ∈ boxCheckReads x y) →
      rowCheck m1 y cx cy num = rowCheck m2 y cx cy num := by
    intro cx cy hsub
    rw [rowCheck_reads, rowCheck_reads]
    apply any_congr_mem
    intro p hp
    rw [h p (hsub p hp)]
  have key : ∀ m1 m2 : MaybeTable,
      (∀ (cx cy : Int), (∀ p, p ∈ checkReads cx cy → p ∈ boxCheckReads x y) →
        columnCheck m1 x cx cy num = columnCheck m2 x cx cy num) →
      (∀ (cx cy : Int), (∀ p, p ∈ checkReads cx cy → p ∈ boxCheckReads x y) →
        rowCheck m1 y cx cy num = rowCheck m2 y cx cy num) →
      boxCheck m1 x y num = true → boxCheck m2 x y num = true := by
    intro m1 m2 hc hr hb
    rw [boxCheck_eq_true] at hb ⊢
    obtain ⟨h1, h2, h3, h4, h5, h6, h7, h8⟩ := hb
    refine ⟨?_, ?_, ?_, ?_, ?_, ?_, ?_, ?_⟩
    · intro hg
      rw [← hc _ _ (fun p hp => by
        unfold boxCheckReads
        simp only [List.mem_append, if_pos hg, hp, true_or, or_true])]
      exact h1 hg
    · intro hg
      rw [← hc _ _ (fun p hp => by
        unfold boxCheckReads
        simp only [List.mem_append, if_pos hg, hp, true_or, or_true])]
      exact h2 hg
    · intro hg
      rw [← hc _ _ (fun p hp => by
        unfold boxCheckReads
        simp only [List.mem_append, if_pos hg, hp, true_or, or_true])]
      exact h3 hg
    · intro hg
      rw [← hc _ _ (fun p hp => by
        unfold boxCheckReads
        simp only [List.mem_append, if_pos hg, hp, true_or, or_true])]
      exact h4 hg
    · intro hg
      rw [← hr _ _ (fun p hp => by
        unfold boxCheckReads
        simp only [List.mem_append, if_pos hg, hp, true_or, or_true])]
      exact h5 hg
    · intro hg
      rw [← hr _ _ (fun p hp => by
        unfold boxCheckReads
        simp only [List.mem_append, if_pos hg, hp, true_or, or_true])]
      exact h6 hg
    · intro hg
      rw [← hr _ _ (fun p hp => by
        unfold boxCheckReads
        simp only [List.mem_append, if_pos hg, hp, true_or, or_true])]
      exact h7 hg
    · intro hg
      rw [← hr _ _ (fun p hp => by
        unfold boxCheckReads
        simp only [List.mem_append, if_pos hg, hp, true_or, or_true])]
      exact h8 hg
  cases h1 : boxCheck m1 x y num
  · cases h2 : boxCheck m2 x y num
    · rfl
    · rw [key m2 m1 (fun cx cy hs => (hc cx cy hs).symm) (fun cx cy hs => (hr cx cy hs).symm)
        h2] at h1
      exact absurd h1 (by simp)
  · exact (key m1 m2 hc hr h1).symm

/-! ## Second part of a pass: `eliminate` -/

theorem foldl_nested {β : Type} (f : Nat → Nat → β → β) (xs ys : List Nat) (m : β) :
    xs.foldl (fun m x => ys.foldl (fun m y => f x y m) m) m
      = (colMajor xs ys).foldl (fun m q => f q.1 q.2 m) m := by
  induction xs generalizing m with
  | nil => rfl
  | cons x xs ih =>
    simp only [List.foldl_cons, colMajor, List.flatMap_cons, List.foldl_append, List.foldl_map]
    exact ih _

theorem mem_colMajor (xs ys : List Nat) (a b : Nat) :
    (a, b) ∈ colMajor xs ys ↔ a ∈ xs ∧ b ∈ ys := by
  simp only [colMajor, List.mem_flatMap, List.mem_map, Prod.mk.injEq]
  constructor
  · rintro ⟨x, hx, y, hy, rfl, rfl⟩
    exact ⟨hx, hy⟩
  · rintro ⟨hx, hy⟩
    exact ⟨a, hx, b, hy, rfl, rfl⟩

/-- `boxCheck` only reads the entries of the number in the other boxes of the stack
and of the band. -/
theorem boxCheck_congr (m1 m2 : MaybeTable) (x y num : Nat) (hx : x < 9) (hy : y < 9)
    (h : ∀ a b, a < 9 → b < 9 →
      (a / 3 = x / 3 ∧ b / 3 ≠ y / 3) ∨ (a / 3 ≠ x / 3 ∧ b / 3 = y / 3) →
      m1 a b num = m2 a b num) :
    boxCheck m1 x y num = boxCheck m2 x y num := by
  have key : ∀ m1 m2 : MaybeTable, (∀ a b, a < 9 → b < 9 →
      (a / 3 = x / 3 ∧ b / 3 ≠ y / 3) ∨ (a / 3 ≠ x / 3 ∧ b / 3 = y / 3) →
      m1 a b num = m2 a b num) → boxCheck m1 x y num = true → boxCheck m2 x y num = true := by
    intro m1 m2 h h1
    rw [boxCheck_iff _ x y num hx hy] at h1 ⊢
    constructor
    · intro k hk hne
      obtain ⟨a, b, h2, h3, h4, h5⟩ := h1.1 k hk hne
      exact ⟨a, b, h2, h3, h4, by
        rw [← h a b (by omega) (by omega) (Or.inl ⟨h2, by omega⟩)]; exact h5⟩
    · intro k hk hne
      obtain ⟨a, b, h2, h3, h4, h5⟩ := h1.2 k hk hne
      exact ⟨a, b, h2, h3, h4, by
        rw [← h a b (by omega) (by omega) (Or.inr ⟨by omega, h3⟩)]; exact h5⟩
  cases h1 : boxCheck m1 x y num
  · cases h2 : boxCheck m2 x y num
    · rfl
    · rw [key m2 m1 (fun a b ha hb hc => (h a b ha hb hc).symm) h2] at h1
      exact absurd h1 (by simp)
  · exact (key m1 m2 h h1).symm

/-- The digits loop of `eliminateCell`, entry by entry. -/
theorem elimDigits_apply (x y : Nat) (hx : x < 9) (hy : y < 9) (l : List Nat) (hl : l.Nodup)
    (m : MaybeTable) (a b c : Nat) :
    (l.foldl (fun m z => if m x y z then setMaybe m x y z (boxCheck m x y z) else m) m) a b c
      = if a = x ∧ b = y ∧ c ∈ l then (m x y c && boxCheck m x y c) else m a b c := by
  induction l generalizing m with
  | nil => simp
  | cons z l ih =>
    have hn := List.nodup_cons.mp hl
    rw [List.foldl_cons, ih hn.2]
    have step_other : ∀ a b c, ¬ (a = x ∧ b = y ∧ c = z) →
        (if m x y z = true then setMaybe m x y z (boxCheck m x y z) else m) a b c = m a b c := by
      intro a b c hne
      split_ifs
      · simp only [setMaybe, if_neg hne]
      · rfl
    have step_self :
        (if m x y z = true then setMaybe m x y z (boxCheck m x y z) else m) x y z
          = (m x y z && boxCheck m x y z) := by
      by_cases h3 : m x y z = true
      · rw [if_pos h3]
        simp [setMaybe, h3]
      · rw [if_neg h3]
        simp only [Bool.not_eq_true] at h3
        simp [h3]
    have step_box : ∀ c, boxCheck
        (if m x y z = true then setMaybe m x y z (boxCheck m x y z) else m) x y c
          = boxCheck m x y c := by
      intro c
      apply boxCheck_congr _ _ x y c hx hy
      intro a b _ _ hc
      apply step_other
      rintro ⟨h1, h2, _⟩
      subst h1 h2
      omega
    generalize (if m x y z = true then setMaybe m x y z (boxCheck m x y z) else m) = m1 at *
    by_cases h : a = x ∧ b = y ∧ c ∈ l
    · have hcz : c ≠ z := fun e => hn.1 (e ▸ h.2.2)
      have h' : a = x ∧ b = y ∧ c ∈ z :: l := ⟨h.1, h.2.1, List.mem_cons_of_mem _ h.2.2⟩
      rw [if_pos h, if_pos h', step_box, step_other x y c (fun hh => hcz hh.2.2)]
    · rw [if_neg h]
      by_cases h2 : a = x ∧ b = y ∧ c = z
      · obtain ⟨rfl, rfl, rfl⟩ := h2
        have h' : a = a ∧ b = b ∧ c ∈ c :: l := ⟨rfl, rfl, List.mem_cons_self _ _⟩
        rw [if_pos h', step_self]
      · have h' : ¬ (a = x ∧ b = y ∧ c ∈ z :: l) := by
          rintro ⟨h3, h4, h5⟩
          rcases List.mem_cons.mp h5 with h6 | h6
          · exact h2 ⟨h3, h4, h6⟩
          · exact h ⟨h3, h4, h6⟩
        rw [step_other a b c h2, if_neg h']

theorem nodup_digits : digits.Nodup := by
  unfold digits
  exact List.nodup_range' 1 9

/-- `eliminateCell`, entry by entry: only the entries of the digits of an empty cell
change, each to its conjunction with `boxCheck` on the table before the cell. -/
theorem eliminateCell_apply (s : SudokuState) (x y : Nat) (hx : x < 9) (hy : y < 9)
    (m : MaybeTable) (a b c : Nat) :
    eliminateCell s x y m a b c
      = if a = x ∧ b = y ∧ c ∈ digits ∧ getNum s x y ≤ 0
        then (m x y c && boxCheck m x y c) else m a b c := by
  unfold eliminateCell
  by_cases h : getNum s x y > 0
  · have h' : ¬ (a = x ∧ b = y ∧ c ∈ digits ∧ getNum s x y ≤ 0) := by
      rintro ⟨_, _, _, h2⟩
      omega
    rw [if_pos h, if_neg h']
  · rw [if_neg h, elimDigits_apply x y hx hy digits nodup_digits]
    by_cases h2 : a = x ∧ b = y ∧ c ∈ digits
    · have h' : a = x ∧ b = y ∧ c ∈ digits ∧ getNum s x y ≤ 0 :=
        ⟨h2.1, h2.2.1, h2.2.2, by omega⟩
      rw [if_pos h2, if_pos h']
    · have h' : ¬ (a = x ∧ b = y ∧ c ∈ digits ∧ getNum s x y ≤ 0) :=
        fun hh => h2 ⟨hh.1, hh.2.1, hh.2.2.1⟩
      rw [if_neg h2, if_neg h']

theorem eliminate_eq (s : SudokuState) (m : MaybeTable) :
    eliminate s m = (colMajor (List.range 9) (List.range 9)).foldl
      (fun m q => eliminateCell s q.1 q.2 m) m := by
  unfold eliminate
  exact foldl_nested (fun x y m => eliminateCell s x y m) _ _ m

theorem mem_cells9 (q : Nat × Nat) :
    q ∈ colMajor (List.range 9) (List.range 9) ↔ q.1 < 9 ∧ q.2 < 9 := by
  obtain ⟨a, b⟩ := q
  rw [mem_colMajor]
  simp only [List.mem_range]

/-- The second part of a pass only clears entries. -/
theorem elimList_mono (s : SudokuState) (l : List (Nat × Nat))
    (hl : ∀ q ∈ l, q.1 < 9 ∧ q.2 < 9) (m : MaybeTable) (a b c : Nat)
    (h : (l.foldl (fun m q => eliminateCell s q.1 q.2 m) m) a b c = true) :
    m a b c = true := by
  induction l generalizing m with
  | nil => exact h
  | cons q l ih =>
    rw [List.foldl_cons] at h
    have h1 := ih (fun q hq => hl q (List.mem_cons_of_mem _ hq)) _ h
    have hq := hl q (List.mem_cons_self _ _)
    rw [eliminateCell_apply s q.1 q.2 hq.1 hq.2] at h1
    split_ifs at h1 with h2
    · simp only [Bool.and_eq_true] at h1
      rw [h2.1, h2.2.1]
      exact h1.1
    · exact h1

/-- The second part of a pass leaves the entries of filled cells alone. -/
theorem elimList_filled (s : SudokuState) (l : List (Nat × Nat))
    (hl : ∀ q ∈ l, q.1 < 9 ∧ q.2 < 9) (m : MaybeTable) (a b c : Nat)
    (h : getNum s a b > 0) :
    (l.foldl (fun m q => eliminateCell s q.1 q.2 m) m) a b c = m a b c := by
  induction l generalizing m with
  | nil => rfl
  | cons q l ih =>
    rw [List.foldl_cons, ih (fun q hq => hl q (List.mem_cons_of_mem _ hq))]
    have hq := hl q (List.mem_cons_self _ _)
    rw [eliminateCell_apply s q.1 q.2 hq.1 hq.2, if_neg]
    rintro ⟨h1, h2, _, h3⟩
    rw [h1, h2] at h
    omega

theorem eliminateCell_tableEq (s : SudokuState) (x y : Nat) (hx : x < 9) (hy : y < 9)
    (m1 m2 : MaybeTable) (h : TableEq m1 m2) :
    TableEq (eliminateCell s x y m1) (eliminateCell s x y m2) := by
  intro a b c ha hb hc
  rw [eliminateCell_apply s x y hx hy, eliminateCell_apply s x y hx hy]
  by_cases h1 : a = x ∧ b = y ∧ c ∈ digits ∧ getNum s x y ≤ 0
  · rw [if_pos h1, if_pos h1, h x y c hx hy hc,
      boxCheck_congr m1 m2 x y c hx hy (fun a b ha hb _ => h a b c ha hb hc)]
  · rw [if_neg h1, if_neg h1]
    exact h a b c ha hb hc

/-- The second part of a pass only depends on the entries of the table. -/
theorem elimList_tableEq (s : SudokuState) (l : List (Nat × Nat))
    (hl : ∀ q ∈ l, q.1 < 9 ∧ q.2 < 9) (m1 m2 : MaybeTable) (h : TableEq m1 m2) :
    TableEq (l.foldl (fun m q => eliminateCell s q.1 q.2 m) m1)
      (l.foldl (fun m q => eliminateCell s q.1 q.2 m) m2) := by
  induction l generalizing m1 m2 with
  | nil => exact h
  | cons q l ih =>
    rw [List.foldl_cons, List.foldl_cons]
    have hq := hl q (List.mem_cons_self _ _)
    exact ih (fun q hq => hl q (List.mem_cons_of_mem _ hq)) _ _
      (eliminateCell_tableEq s q.1 q.2 hq.1 hq.2 m1 m2 h)

/-- A candidate of an empty cell survives the second part of a pass when every other
box of the stack has a filled cell, in another column, whose entry for the number is
set, and every other box of the band has such a cell in another row. -/
theorem elimList_sure (s : SudokuState) (l : List (Nat × Nat))
    (hl : ∀ q ∈ l, q.1 < 9 ∧ q.2 < 9) (m : MaybeTable) (x y z : Nat) (hx : x < 9) (hy : y < 9)
    (hs : ∀ k, k < 3 → k ≠ y / 3 →
      ∃ a b, a / 3 = x / 3 ∧ b / 3 = k ∧ a ≠ x ∧ getNum s a b > 0 ∧ m a b z = true)
    (hb : ∀ k, k < 3 → k ≠ x / 3 →
      ∃ a b, a / 3 = k ∧ b / 3 = y / 3 ∧ b ≠ y ∧ getNum s a b > 0 ∧ m a b z = true) :
    (l.foldl (fun m q => eliminateCell s q.1 q.2 m) m) x y z = m x y z := by
  induction l generalizing m with
  | nil => rfl
  | cons q l ih =>
    have hq := hl q (List.mem_cons_self _ _)
    have filled : ∀ a b, getNum s a b > 0 →
        eliminateCell s q.1 q.2 m a b z = m a b z := by
      intro a b hab
      rw [eliminateCell_apply s q.1 q.2 hq.1 hq.2, if_neg]
      rintro ⟨h1, h2, _, h3⟩
      rw [h1, h2] at hab
      omega
    rw [List.foldl_cons, ih (fun q hq => hl q (List.mem_cons_of_mem _ hq))]
    · rw [eliminateCell_apply s q.1 q.2 hq.1 hq.2]
      by_cases h1 : x = q.1 ∧ y = q.2 ∧ z ∈ digits ∧ getNum s q.1 q.2 ≤ 0
      · rw [if_pos h1, ← h1.1, ← h1.2.1]
        have hbox : boxCheck m x y z = true := by
          rw [boxCheck_iff m x y z hx hy]
          constructor
          · intro k hk hne
            obtain ⟨a, b, h2, h3, h4, _, h5⟩ := hs k hk hne
            exact ⟨a, b, h2, h3, h4, h5⟩
          · intro k hk hne
            obtain ⟨a, b, h2, h3, h4, _, h5⟩ := hb k hk hne
            exact ⟨a, b, h2, h3, h4, h5⟩
        rw [hbox, Bool.and_true]
      · rw [if_neg h1]
    · intro k hk hne
      obtain ⟨a, b, h2, h3, h4, h5, h6⟩ := hs k hk hne
      exact ⟨a, b, h2, h3, h4, h5, by rw [filled a b h5]; exact h6⟩
    · intro k hk hne
      obtain ⟨a, b, h2, h3, h4, h5, h6⟩ := hb k hk hne
      exact ⟨a, b, h2, h3, h4, h5, by rw [filled a b h5]; exact h6⟩

/-! ## Third part of a pass: `lone` -/

theorem loneFold (f : Nat → Bool) (l : List Nat) (c0 i0 : Nat) :
    (l.foldl (fun (ci : Nat × Nat) z => if f z then (ci.1 + 1, z) else ci) (c0, i0)).1
        = c0 + l.countP f ∧
    ((l.foldl (fun (ci : Nat × Nat) z => if f z then (ci.1 + 1, z) else ci) (c0, i0)).2 = i0 ∨
      ((l.foldl (fun (ci : Nat × Nat) z => if f z then (ci.1 + 1, z) else ci) (c0, i0)).2 ∈ l ∧
        f (l.foldl (fun (ci : Nat × Nat) z => if f z then (ci.1 + 1, z) else ci) (c0, i0)).2
          = true)) := by
  induction l generalizing c0 i0 with
  | nil => simp
  | cons z l ih =>
    rw [List.foldl_cons, List.countP_cons]
    by_cases h : f z = true
    · simp only [h, if_true]
      obtain ⟨h1, h2⟩ := ih (c0 + 1) z
      refine ⟨by rw [h1]; omega, ?_⟩
      rcases h2 with h2 | h2
      · right
        rw [h2]
        exact ⟨List.mem_cons_self _ _, h⟩
      · right
        exact ⟨List.mem_cons_of_mem _ h2.1, h2.2⟩
    · simp only [h, if_false, Bool.false_eq_true]
      obtain ⟨h1, h2⟩ := ih c0 i0
      refine ⟨by rw [h1]; omega, ?_⟩
      rcases h2 with h2 | h2
      · left; exact h2
      · right
        exact ⟨List.mem_cons_of_mem _ h2.1, h2.2⟩

theorem loneCount_fst (m : MaybeTable) (x y : Nat) :
    (loneCount m x y).1 = digits.countP (fun z => m x y z) := by
  unfold loneCount
  rw [(loneFold (fun z => m x y z) digits 0 0).1, Nat.zero_add]

/-- When the count is not 0, the second component is a digit whose entry is set. -/
theorem loneCount_snd (m : MaybeTable) (x y : Nat) (h : 1 ≤ (loneCount m x y).1) :
    (loneCount m x y).2 ∈ digits ∧ m x y (loneCount m x y).2 = true := by
  have h1 := loneCount_fst m x y
  have h2 := (loneFold (fun z => m x y z) digits 0 0).2
  rcases h2 with h2 | h2
  · -- the second component is still 0, so no entry was set
    exfalso
    have h3 : 0 < digits.countP (fun z => m x y z) := by omega
    rw [List.countP_pos_iff] at h3
    obtain ⟨z, hz, hm⟩ := h3
    have h4 := loneFold (fun z => m x y z) digits 0 0
    -- an entry that is set makes the second component a digit, which is not 0
    have key : ∀ (l : List Nat) (c0 i0 : Nat), (∃ z ∈ l, m x y z = true) →
        (l.foldl (fun (ci : Nat × Nat) z => if m x y z then (ci.1 + 1, z) else ci)
          (c0, i0)).2 ∈ l := by
      intro l
      induction l with
      | nil => intro c0 i0 h; obtain ⟨z, hz, _⟩ := h; exact absurd hz (List.not_mem_nil _)
      | cons w l ih =>
        intro c0 i0 hex
        rw [List.foldl_cons]
        by_cases hw : m x y w = true
        · simp only [hw, if_true]
          rcases (loneFold (fun z => m x y z) l (c0 + 1) w).2 with h5 | h5
          · rw [h5]; exact List.mem_cons_self _ _
          · exact List.mem_cons_of_mem _ h5.1
        · simp only [hw, if_false, Bool.false_eq_true]
          obtain ⟨z, hz, hm⟩ := hex
          rcases List.mem_cons.mp hz with rfl | hz
          · exact absurd hm hw
          · exact List.mem_cons_of_mem _ (ih c0 i0 ⟨z, hz, hm⟩)
    have h5 := key digits 0 0 ⟨z, hz, hm⟩
    have h6 : (loneCount m x y).2 ∈ digits := h5
    unfold loneCount at h6
    rw [h2] at h6
    have := (mem_digits 0).mp h6
    omega
  · exact h2

theorem loneCount_congr (m1 m2 : MaybeTable) (x y : Nat)
    (h : ∀ z, z ∈ digits → m1 x y z = m2 x y z) : loneCount m1 x y = loneCount m2 x y := by
  unfold loneCount
  have key : ∀ (l : List Nat) (ci : Nat × Nat), (∀ z, z ∈ l → m1 x y z = m2 x y z) →
      l.foldl (fun (ci : Nat × Nat) z => if m1 x y z then (ci.1 + 1, z) else ci) ci
        = l.foldl (fun (ci : Nat × Nat) z => if m2 x y z then (ci.1 + 1, z) else ci) ci := by
    intro l
    induction l with
    | nil => intro ci _; rfl
    | cons w l ih =>
      intro ci hl
      rw [List.foldl_cons, List.foldl_cons, hl w (List.mem_cons_self _ _)]
      exact ih _ (fun z hz => hl z (List.mem_cons_of_mem _ hz))
  exact key digits (0, 0) h

/-- A cell with exactly one entry set has the count 1 and that digit. -/
theorem loneCount_unique (m : MaybeTable) (x y d : Nat) (hd : d ∈ digits)
    (hm : m x y d = true) (hu : ∀ z, z ∈ digits → m x y z = true → z = d) :
    loneCount m x y = (1, d) := by
  have h1 : (loneCount m x y).1 = 1 := by
    rw [loneCount_fst]
    have hle : digits.countP (fun z => m x y z) ≤ 1 := by
      rw [countP_le_one_iff _ _ nodup_digits]
      intro a ha b hb pa pb
      rw [hu a ha pa, hu b hb pb]
    have hpos : 0 < digits.countP (fun z => m x y z) := by
      rw [List.countP_pos_iff]
      exact ⟨d, hd, hm⟩
    omega
  have h2 := loneCount_snd m x y (by omega)
  have h3 := hu _ h2.1 h2.2
  exact Prod.ext h1 h3

theorem loneList_done (m : MaybeTable) (l : List (Nat × Nat)) (s : SudokuState) :
    l.foldl (fun sd q => loneCell m q.1 q.2 sd) (s, false) = (s, false) := by
  induction l with
  | nil => rfl
  | cons q l ih =>
    rw [List.foldl_cons]
    have : loneCell m q.1 q.2 (s, false) = (s, false) := by
      unfold loneCell
      simp
    rw [this, ih]

/-- The third part of a pass writes the lone value of the first cell, in the order of
the loops, that passes `loneTest`, and nothing else. -/
theorem loneList_eq (s : SudokuState) (m : MaybeTable) (l : List (Nat × Nat)) :
    l.foldl (fun sd q => loneCell m q.1 q.2 sd) (s, true)
      = match l.find? (loneTest s m) with
        | none => (s, true)
        | some q => (setNum s q.1 q.2 (loneCount m q.1 q.2).2, false) := by
  induction l with
  | nil => rfl
  | cons q l ih =>
    rw [List.foldl_cons, List.find?_cons]
    by_cases h : loneTest s m q = true
    · rw [h]
      have h2 := h
      unfold loneTest at h2
      simp only [Bool.and_eq_true, decide_eq_true_eq] at h2
      have : loneCell m q.1 q.2 (s, true)
          = (setNum s q.1 q.2 (loneCount m q.1 q.2).2, false) := by
        unfold loneCell
        simp only [Bool.true_eq_false, if_false]
        rw [if_neg (by omega), if_pos h2.2]
      rw [this, loneList_done]
    · have h3 : loneTest s m q = false := by simpa using h
      rw [h3]
      have h2 := h3
      unfold loneTest at h2
      simp only [Bool.and_eq_false_iff, decide_eq_false_iff_not] at h2
      have : loneCell m q.1 q.2 (s, true) = (s, true) := by
        unfold loneCell
        simp only [Bool.true_eq_false, if_false]
        by_cases h4 : getNum s q.1 q.2 > 0
        · rw [if_pos h4]
        · rw [if_neg h4, if_neg]
          rcases h2 with h2 | h2
          · omega
          · exact h2
      rw [this, ih]

theorem lone_eq (s : SudokuState) (m : MaybeTable) :
    lone s m = match (colMajor (List.range 9) (List.range 9)).find? (loneTest s m) with
      | none => (s, true)
      | some q => (setNum s q.1 q.2 (loneCount m q.1 q.2).2, false) := by
  unfold lone
  rw [foldl_nested (fun x y sd => loneCell m x y sd)]
  exact loneList_eq s m _

theorem loneList_congr (m1 m2 : MaybeTable) (h : TableEq m1 m2) (l : List (Nat × Nat))
    (hl : ∀ q ∈ l, q.1 < 9 ∧ q.2 < 9) (sd : SudokuState × Bool) :
    l.foldl (fun sd q => loneCell m1 q.1 q.2 sd) sd
      = l.foldl (fun sd q => loneCell m2 q.1 q.2 sd) sd := by
  induction l generalizing sd with
  | nil => rfl
  | cons q l ih =>
    rw [List.foldl_cons, List.foldl_cons]
    have hq := hl q (List.mem_cons_self _ _)
    have : loneCell m1 q.1 q.2 sd = loneCell m2 q.1 q.2 sd := by
      unfold loneCell
      rw [loneCount_congr m1 m2 q.1 q.2
        (fun z hz => h q.1 q.2 z hq.1 hq.2 (by have := (mem_digits z).mp hz; omega))]
    rw [this]
    exact ih (fun q hq => hl q (List.mem_cons_of_mem _ hq)) _

/-- The third part of a pass only depends on the entries of the table. -/
theorem lone_congr (s : SudokuState) (m1 m2 : MaybeTable) (h : TableEq m1 m2) :
    lone s m1 = lone s m2 := by
  unfold lone
  rw [foldl_nested (fun x y sd => loneCell m1 x y sd),
    foldl_nested (fun x y sd => loneCell m2 x y sd)]
  exact loneList_congr m1 m2 h _ (fun q hq => (mem_cells9 q).mp hq) _

/-! ## A pass of `deduce` -/

theorem fillMaybe_tableEq (s : SudokuState) (m1 m2 : MaybeTable) :
    TableEq (fillMaybe s m1) (fillMaybe s m2) := by
  intro x y z hx hy hz
  rw [fillMaybe_apply, fillMaybe_apply, if_pos ⟨hx, hy, hz⟩, if_pos ⟨hx, hy, hz⟩]

theorem eliminate_tableEq (s : SudokuState) (m1 m2 : MaybeTable) (h : TableEq m1 m2) :
    TableEq (eliminate s m1) (eliminate s m2) := by
  rw [eliminate_eq, eliminate_eq]
  exact elimList_tableEq s _ (fun q hq => (mem_cells9 q).mp hq) m1 m2 h

/-- The state and the flag `done` at the end of a pass do not depend on what the
table held when the pass began. -/
theorem deducePass_indep (s : SudokuState) (m1 m2 : MaybeTable) :
    (deducePass s m1).1 = (deducePass s m2).1 ∧
    (deducePass s m1).2.2 = (deducePass s m2).2.2 := by
  unfold deducePass
  simp only []
  rw [lone_congr s _ _ (eliminate_tableEq s _ _ (fillMaybe_tableEq s m1 m2))]
  exact ⟨rfl, rfl⟩

/-- An entry that is set after the first two parts of a pass, for an empty cell, is a
digit that `placeOK` allows there. -/
theorem refined_placeOK (s : SudokuState) (m : MaybeTable) (x y i : Nat) (hx : x < 9)
    (hy : y < 9) (hi : i ∈ digits) (he : getNum s x y ≤ 0)
    (h : eliminate s (fillMaybe s m) x y i = true) : placeOK s x y i = true := by
  rw [eliminate_eq] at h
  have h1 := elimList_mono s _ (fun q hq => (mem_cells9 q).mp hq) _ x y i h
  have hi2 := (mem_digits i).mp hi
  rw [fillMaybe_apply, if_pos ⟨hx, hy, by omega⟩] at h1
  unfold cand at h1
  simp only [Bool.and_eq_true, Bool.or_eq_true, decide_eq_true_eq] at h1
  rcases h1.2 with h2 | h2
  · omega
  · exact h2

/-- A pass of `deduce` either changes nothing and sets `done`, or writes one digit
`1 .. 9` into one cell where `placeOK` allows it and clears `done`. -/
theorem deducePass_cases (s : SudokuState) (m : MaybeTable) :
    ((deducePass s m).2.2 = true ∧ (deducePass s m).1 = s) ∨
    ((deducePass s m).2.2 = false ∧ ∃ x y i : Nat, x < 9 ∧ y < 9 ∧ 1 ≤ i ∧ i ≤ 9 ∧
      placeOK s x y i = true ∧ (deducePass s m).1 = setNum s x y i) := by
  unfold deducePass
  simp only []
  rw [lone_eq]
  cases hf : (colMajor (List.range 9) (List.range 9)).find?
      (loneTest s (eliminate s (fillMaybe s m))) with
  | none => left; exact ⟨rfl, rfl⟩
  | some q =>
    right
    refine ⟨rfl, ?_⟩
    have hq := (mem_cells9 q).mp (List.mem_of_find?_eq_some hf)
    have ht := List.find?_some hf
    unfold loneTest at ht
    simp only [Bool.and_eq_true, decide_eq_true_eq] at ht
    have hs := loneCount_snd (eliminate s (fillMaybe s m)) q.1 q.2 (by omega)
    have hi := (mem_digits _).mp hs.1
    exact ⟨q.1, q.2, _, hq.1, hq.2, hi.1, hi.2,
      refined_placeOK s m q.1 q.2 _ hq.1 hq.2 hs.1 ht.1 hs.2, rfl⟩

/-! ## The loop of `deduce` -/

theorem countP_flip {α : Type} (p q : α → Bool) (l : List α) (hl : l.Nodup) (a : α)
    (ha : a ∈ l) (hp : p a = false) (hq : q a = true)
    (h : ∀ b, b ∈ l → b ≠ a → q b = p b) : l.countP q = l.countP p + 1 := by
  induction l with
  | nil => exact absurd ha (List.not_mem_nil _)
  | cons c l ih =>
    have hc := List.nodup_cons.mp hl
    rw [List.countP_cons, List.countP_cons]
    by_cases hca : c = a
    · subst hca
      have hrest : l.countP q = l.countP p := by
        apply List.countP_congr
        intro b hb
        have hne : b ≠ c := fun e => hc.1 (e ▸ hb)
        rw [h b (List.mem_cons_of_mem _ hb) hne]
      simp [hp, hq, hrest]
    · have hal : a ∈ l := by
        rcases List.mem_cons.mp ha with h1 | h1
        · exact absurd h1.symm hca
        · exact h1
      have := ih hc.2 hal (fun b hb hne => h b (List.mem_cons_of_mem _ hb) hne)
      rw [this, h c (List.mem_cons_self _ _) hca]
      omega

theorem gridCount_congr (s t : SudokuState)
    (h : ∀ x y, x < 9 → y < 9 → getNum s x y = getNum t x y) : gridCount s = gridCount t := by
  rw [gridCount_eq, gridCount_eq]
  apply List.countP_congr
  rintro ⟨a, b⟩ hq
  rw [mem_grid2] at hq
  simp only [List.mem_range] at hq
  simp only [h a b hq.1 hq.2]

theorem gridCount_le (s : SudokuState) : gridCount s ≤ 81 := by
  rw [gridCount_eq]
  exact le_trans (List.countP_le_length _) (by decide)

/-- Writing a number `≥ 1` into an empty cell adds one to `gridCount`. -/
theorem gridCount_setNum (s : SudokuState) (x y : Nat) (n : Int) (hx : x < 9) (hy : y < 9)
    (he : getNum s x y ≤ 0) (hn : 1 ≤ n) : gridCount (setNum s x y n) = gridCount s + 1 := by
  rw [gridCount_eq, gridCount_eq]
  apply countP_flip _ _ _ (nodup_grid2 _ _ (List.nodup_range 9) (List.nodup_range 9)) (x, y)
  · rw [mem_grid2]
    simp only [List.mem_range]
    exact ⟨hx, hy⟩
  · simp only [decide_eq_false_iff_not]
    omega
  · simp only [decide_eq_true_eq, getNum_setNum_self]
    omega
  · rintro ⟨a, b⟩ hq hne
    rw [mem_grid2] at hq
    simp only [List.mem_range] at hq
    simp only []
    rw [getNum_setNum s x y a b n hx hq.1, if_neg]
    rintro ⟨rfl, rfl⟩
    exact hne rfl

theorem gridCount_lt_of_empty (s : SudokuState) (x y : Nat) (hx : x < 9) (hy : y < 9)
    (he : getNum s x y ≤ 0) : gridCount s < 81 := by
  have h1 := gridCount_setNum s x y 1 hx hy he (by omega)
  have h2 := gridCount_le (setNum s x y 1)
  omega

theorem placeOK_empty (s : SudokuState) (x y : Nat) (d : Int) (h : placeOK s x y d = true) :
    getNum s x y ≤ 0 :=
  ((placeOK_iff s x y d).mp h).1

theorem deduceLoop_zero (s : SudokuState) (m : MaybeTable) : deduceLoop 0 s m = none := rfl

theorem deduceLoop_succ (n : Nat) (s : SudokuState) (m : MaybeTable) :
    deduceLoop (n + 1) s m =
      if (deducePass s m).2.2 = true then some ((deducePass s m).1, (deducePass s m).2.1)
      else deduceLoop n (deducePass s m).1 (deducePass s m).2.1 := rfl

/-- The loop of `deduce` is left within `82 - gridCount` passes. -/
theorem deduceLoop_some (n : Nat) (s : SudokuState) (m : MaybeTable)
    (h : 81 - gridCount s < n) : ∃ r, deduceLoop n s m = some r := by
  induction n generalizing s m with
  | zero => omega
  | succ n ih =>
    rw [deduceLoop_succ]
    rcases deducePass_cases s m with ⟨hd, _⟩ | ⟨hd, x, y, i, hx, hy, hi1, _, hp, hs⟩
    · rw [if_pos hd]
      exact ⟨_, rfl⟩
    · rw [if_neg (by rw [hd]; simp)]
      apply ih
      have he := placeOK_empty s x y i hp
      rw [hs, gridCount_setNum s x y i hx hy he (by omega)]
      have := gridCount_lt_of_empty s x y hx hy he
      omega

/-- More passes than needed change nothing. -/
theorem deduceLoop_mono (n k : Nat) (s : SudokuState) (m : MaybeTable)
    (r : SudokuState × MaybeTable) (h : deduceLoop n s m = some r) :
    deduceLoop (n + k) s m = some r := by
  induction n generalizing s m with
  | zero => rw [deduceLoop_zero] at h; exact absurd h (by simp)
  | succ n ih =>
    rw [Nat.add_right_comm]
    rw [deduceLoop_succ] at h ⊢
    by_cases hd : (deducePass s m).2.2 = true
    · rw [if_pos hd] at h ⊢
      exact h
    · rw [if_neg hd] at h ⊢
      exact ih _ _ h

/-- `deduce` is the result of the loop. -/
theorem deduceLoop_eq_some (s : SudokuState) (m : MaybeTable) :
    deduceLoop 82 s m = some (deduce s m) := by
  obtain ⟨r, hr⟩ := deduceLoop_some 82 s m (by omega)
  unfold deduce
  rw [hr]
  rfl

/-- Induction over the passes of `deduce`: what holds before and is kept by every
placement of a digit `1 .. 9` that `placeOK` allows, holds after; and a further pass
on the result changes nothing. -/
theorem deduceLoop_induct (P : SudokuState → Prop)
    (hstep : ∀ t x y (i : Nat), P t → x < 9 → y < 9 → 1 ≤ i → i ≤ 9 →
      placeOK t x y i = true → P (setNum t x y i))
    (n : Nat) (s : SudokuState) (m : MaybeTable) (r : SudokuState × MaybeTable)
    (hs : P s) (h : deduceLoop n s m = some r) :
    P r.1 ∧ ∀ m2, (deducePass r.1 m2).2.2 = true ∧ (deducePass r.1 m2).1 = r.1 := by
  induction n generalizing s m with
  | zero => rw [deduceLoop_zero] at h; exact absurd h (by simp)
  | succ n ih =>
    rw [deduceLoop_succ] at h
    rcases deducePass_cases s m with ⟨hd, he⟩ | ⟨hd, x, y, i, hx, hy, hi1, hi9, hp, he⟩
    · rw [if_pos hd] at h
      have hr : r = ((deducePass s m).1, (deducePass s m).2.1) := (Option.some.inj h).symm
      rw [hr]
      simp only []
      rw [he]
      refine ⟨hs, ?_⟩
      intro m2
      have hi := deducePass_indep s m2 m
      rw [hi.1, hi.2]
      exact ⟨hd, he⟩
    · rw [if_neg (by rw [hd]; simp)] at h
      apply ih _ _ _ h
      rw [he]
      exact hstep s x y i hs hx hy hi1 hi9 hp

theorem deduce_induct (P : SudokuState → Prop)
    (hstep : ∀ t x y (i : Nat), P t → x < 9 → y < 9 → 1 ≤ i → i ≤ 9 →
      placeOK t x y i = true → P (setNum t x y i))
    (s : SudokuState) (m : MaybeTable) (hs : P s) : P (deduce s m).1 :=
  (deduceLoop_induct P hstep 82 s m _ hs (deduceLoop_eq_some s m)).1

/-- The state that `deduce` leaves is one on which a pass changes nothing. -/
theorem deduce_done (s : SudokuState) (m m2 : MaybeTable) :
    (deducePass (deduce s m).1 m2).2.2 = true ∧
    (deducePass (deduce s m).1 m2).1 = (deduce s m).1 :=
  (deduceLoop_induct (fun _ => True) (fun _ _ _ _ _ _ _ _ _ _ => trivial) 82 s m _ trivial
    (deduceLoop_eq_some s m)).2 m2

/-- On a state on which a pass changes nothing, `deduce` changes nothing. -/
theorem deduce_of_done (s : SudokuState) (m : MaybeTable)
    (h : (deducePass s m).2.2 = true) : (deduce s m).1 = (deducePass s m).1 := by
  have : deduceLoop 82 s m = some ((deducePass s m).1, (deducePass s m).2.1) := by
    show deduceLoop (81 + 1) s m = _
    rw [deduceLoop_succ, if_pos h]
  rw [deduceLoop_eq_some] at this
  rw [Option.some.inj this]

theorem deduceLoop_indep (n : Nat) (s : SudokuState) (m1 m2 : MaybeTable) :
    (deduceLoop n s m1).map Prod.fst = (deduceLoop n s m2).map Prod.fst := by
  induction n generalizing s m1 m2 with
  | zero => rfl
  | succ n ih =>
    rw [deduceLoop_succ, deduceLoop_succ]
    have hi := deducePass_indep s m1 m2
    by_cases hd : (deducePass s m1).2.2 = true
    · have hd2 : (deducePass s m2).2.2 = true := by rw [← hi.2]; exact hd
      rw [if_pos hd, if_pos hd2]
      simp only [Option.map_some']
      rw [hi.1]
    · have hd2 : ¬ (deducePass s m2).2.2 = true := by rw [← hi.2]; exact hd
      rw [if_neg hd, if_neg hd2, hi.1]
      exact ih _ _ _

/-- The state that `deduce` leaves does not depend on what the table held before. -/
theorem deduce_indep (s : SudokuState) (m1 m2 : MaybeTable) :
    (deduce s m1).1 = (deduce s m2).1 := by
  have h := deduceLoop_indep 82 s m1 m2
  rw [deduceLoop_eq_some, deduceLoop_eq_some] at h
  simpa using h

/-! ## States with the same cells -/

theorem sameCells_refl (s : SudokuState) : SameCells s s := fun _ _ _ _ => rfl

theorem sameCells_symm {s t : SudokuState} (h : SameCells s t) : SameCells t s :=
  fun x y hx hy => (h x y hx hy).symm

theorem sameCells_trans {s t u : SudokuState} (h1 : SameCells s t) (h2 : SameCells t u) :
    SameCells s u :=
  fun x y hx hy => (h1 x y hx hy).trans (h2 x y hx hy)

theorem sameCells_clone (s : SudokuState) : SameCells (clone s) s :=
  fun x y hx hy => getNum_clone s x y hx hy

theorem sameCells_setValue (s : SudokuState) (v : Int) : SameCells (setValue s v) s :=
  fun _ _ _ _ => rfl

theorem sameCells_setNum {s t : SudokuState} (h : SameCells s t) (x y : Nat) (n : Int)
    (hx : x < 9) : SameCells (setNum s x y n) (setNum t x y n) := by
  intro a b ha hb
  rw [getNum_setNum s x y a b n hx ha, getNum_setNum t x y a b n hx ha, h a b ha hb]

theorem sameCells_placeOK {s t : SudokuState} (h : SameCells s t) (x y : Nat) (d : Int)
    (hx : x < 9) (hy : y < 9) : placeOK s x y d = placeOK t x y d := by
  have key : ∀ s t : SudokuState, SameCells s t → placeOK s x y d = true →
      placeOK t x y d = true := by
    intro s t h hp
    rw [placeOK_iff] at hp ⊢
    obtain ⟨h1, h2, h3, h4⟩ := hp
    refine ⟨by rw [← h x y hx hy]; exact h1, ?_, ?_, ?_⟩
    · intro a ha
      rw [← h a y ha hy]
      exact h2 a ha
    · intro b hb
      rw [← h x b hx hb]
      exact h3 b hb
    · intro a b ha hb
      rw [← h a b (by omega) (by omega)]
      exact h4 a b ha hb
  cases h1 : placeOK s x y d
  · cases h2 : placeOK t x y d
    · rfl
    · rw [key t s (sameCells_symm h) h2] at h1
      exact absurd h1 (by simp)
  · exact (key s t h h1).symm

theorem sameCells_isValid {s t : SudokuState} (h : SameCells s t) :
    isValid s = isValid t := by
  have key : ∀ s t : SudokuState, SameCells s t → isValid s = true → isValid t = true := by
    intro s t h hv
    rw [isValid_iff] at hv ⊢
    obtain ⟨hr, hn⟩ := hv
    constructor
    · intro x y hx hy
      rw [← h x y hx hy]
      exact hr x y hx hy
    · intro x1 y1 x2 y2 hx1 hy1 hx2 hy2 h1 he hu
      rw [← h x1 y1 hx1 hy1] at h1 he
      rw [← h x2 y2 hx2 hy2] at he
      exact hn x1 y1 x2 y2 hx1 hy1 hx2 hy2 h1 he hu
  cases h1 : isValid s
  · cases h2 : isValid t
    · rfl
    · rw [key t s (sameCells_symm h) h2] at h1
      exact absurd h1 (by simp)
  · exact (key s t h h1).symm

theorem sameCells_gridCount {s t : SudokuState} (h : SameCells s t) :
    gridCount s = gridCount t :=
  gridCount_congr s t h

/-! ## What `deduce` keeps -/

/-- `deduce` keeps a valid grid valid. -/
theorem deduce_isValid (s : SudokuState) (m : MaybeTable) (h : isValid s = true) :
    isValid (deduce s m).1 = true := by
  apply deduce_induct (fun t => isValid t = true) _ s m h
  intro t x y i ht hx hy hi1 hi9 hp
  rw [isValid_iff] at ht ⊢
  exact valid_setNum t x y i hx hy (by omega) (by omega) hp ht

/-- `deduce` only writes into empty cells. -/
theorem deduce_keeps (s : SudokuState) (m : MaybeTable) (x y : Nat) (hx : x < 9)
    (h : getNum s x y > 0) : getNum (deduce s m).1 x y = getNum s x y := by
  apply deduce_induct (fun t => getNum t x y = getNum s x y) _ s m rfl
  intro t a b i ht ha hb _ _ hp
  rw [getNum_setNum t a b x y i ha hx, if_neg, ht]
  rintro ⟨rfl, rfl⟩
  have := placeOK_empty t x y i hp
  omega

/-- `deduce` never lowers `gridCount`. -/
theorem deduce_gridCount (s : SudokuState) (m : MaybeTable) :
    gridCount s ≤ gridCount (deduce s m).1 := by
  apply deduce_induct (fun t => gridCount s ≤ gridCount t) _ s m (le_refl _)
  intro t x y i ht hx hy hi1 _ hp
  rw [gridCount_setNum t x y i hx hy (placeOK_empty t x y i hp) (by omega)]
  omega

/-- `deduce` does not touch the value. -/
theorem deduce_value (s : SudokuState) (m : MaybeTable) : (deduce s m).1.value = s.value := by
  apply deduce_induct (fun t => t.value = s.value) _ s m rfl
  intro t x y i ht _ _ _ _ _
  exact ht

/-! ## `merge` -/

theorem mem_mergeBest (l : List SudokuState) (s t : SudokuState) :
    t ∈ mergeBest l s ↔ t = s ∨ t ∈ l := by
  induction l with
  | nil => simp [mergeBest]
  | cons u l ih =>
    unfold mergeBest
    split_ifs
    · simp
    · rw [List.mem_cons, ih, List.mem_cons]
      tauto

theorem mem_merge (strategy : Strategy) (l : List SudokuState) (s t : SudokuState) :
    t ∈ merge strategy l s ↔ t = s ∨ t ∈ l := by
  cases strategy
  · simp [merge]
  · simp only [merge, List.mem_append, List.mem_singleton]
    tauto
  · exact mem_mergeBest l s t

/-- `mergeBest` splits the list after the elements whose value is above that of the
new state, and puts the new state there. -/
theorem mergeBest_split (l : List SudokuState) (s : SudokuState) :
    ∃ l1 l2, l = l1 ++ l2 ∧ mergeBest l s = l1 ++ s :: l2 ∧
      (∀ t, t ∈ l1 → getValue s < getValue t) ∧
      (∀ t, l2.head? = some t → getValue t ≤ getValue s) := by
  induction l with
  | nil => exact ⟨[], [], rfl, rfl, fun t ht => absurd ht (List.not_mem_nil _), fun t ht => by simp at ht⟩
  | cons u l ih =>
    unfold mergeBest
    by_cases h : getValue s ≥ getValue u
    · rw [if_pos h]
      refine ⟨[], u :: l, rfl, rfl, fun t ht => absurd ht (List.not_mem_nil _), ?_⟩
      intro t ht
      simp only [List.head?_cons, Option.some.injEq] at ht
      rw [← ht]
      exact h
    · rw [if_neg h]
      obtain ⟨l1, l2, e1, e2, h1, h2⟩ := ih
      refine ⟨u :: l1, l2, by rw [e1]; rfl, by rw [e2]; rfl, ?_, h2⟩
      intro t ht
      rcases List.mem_cons.mp ht with rfl | ht
      · omega
      · exact h1 t ht

theorem mergeBest_sorted (l : List SudokuState) (s : SudokuState) (h : SortedDesc l) :
    SortedDesc (mergeBest l s) := by
  induction l with
  | nil => simp [mergeBest, SortedDesc]
  | cons u l ih =>
    unfold SortedDesc at h ih ⊢
    rw [List.pairwise_cons] at h
    unfold mergeBest
    by_cases hc : getValue s ≥ getValue u
    · rw [if_pos hc, List.pairwise_cons]
      refine ⟨?_, List.pairwise_cons.mpr h⟩
      intro t ht
      rcases List.mem_cons.mp ht with rfl | ht
      · exact hc
      · exact le_trans (h.1 t ht) hc
    · rw [if_neg hc, List.pairwise_cons]
      refine ⟨?_, ih h.2⟩
      intro t ht
      rcases (mem_mergeBest l s t).mp ht with rfl | ht
      · omega
      · exact h.1 t ht

/-! ## The expansion of a state -/

theorem expandDigits_nil (strategy : Strategy) (rc : Bool) (state : SudokuState) (x y c : Nat)
    (g : Globals) : expandDigits strategy rc state x y c [] g = Expansion.finished g := rfl

set_option maxRecDepth 100000 in
theorem expandDigits_cons (strategy : Strategy) (rc : Bool) (state : SudokuState)
    (x y c i : Nat) (rest : List Nat) (g : Globals) :
    expandDigits strategy rc state x y c (i :: rest) g =
      if placeOK state x y i = true then
        if gridCount (deduce (setNum (clone state) x y i) g.Maybe).1 = 81 then
          Expansion.found (deduce (setNum (clone state) x y i) g.Maybe).1
            { g with Maybe := (deduce (setNum (clone state) x y i) g.Maybe).2 }
        else if isRepeat rc g.ClosedList
            (setValue (deduce (setNum (clone state) x y i) g.Maybe).1
              (((gridCount (deduce (setNum (clone state) x y i) g.Maybe).1 : Nat) : Int) * 10
                + (9 - (c : Int)))) = true then
          expandDigits strategy rc state x y c rest
            { g with Maybe := (deduce (setNum (clone state) x y i) g.Maybe).2 }
        else
          expandDigits strategy rc state x y c rest
            { g with
              Maybe := (deduce (setNum (clone state) x y i) g.Maybe).2,
              OpenList := merge strategy g.OpenList
                (setValue (deduce (setNum (clone state) x y i) g.Maybe).1
                  (((gridCount (deduce (setNum (clone state) x y i) g.Maybe).1 : Nat) : Int)
                    * 10 + (9 - (c : Int)))) }
      else expandDigits strategy rc state x y c rest g := rfl

theorem expandCells_nil (strategy : Strategy) (rc : Bool) (state : SudokuState) (g : Globals) :
    expandCells strategy rc state [] g = Expansion.finished g := rfl

theorem expandCells_cons (strategy : Strategy) (rc : Bool) (state : SudokuState)
    (xy : Nat × Nat) (rest : List (Nat × Nat)) (g : Globals) :
    expandCells strategy rc state (xy :: rest) g =
      match expandDigits strategy rc state xy.1 xy.2 (choiceCount state xy.1 xy.2)
          digits g with
      | Expansion.found child g1 => Expansion.found child g1
      | Expansion.finished g1 => expandCells strategy rc state rest g1 := rfl

/-- The children loop for one cell: a property of the open list that every merge of
a child keeps holds at the end; the closed list and the counter are not touched; a
returned state is a complete child. -/
theorem expandDigits_spec (strategy : Strategy) (rc : Bool) (state : SudokuState)
    (x y c : Nat) (hx : x < 9) (hy : y < 9) (J : List SudokuState → Prop)
    (hJ : ∀ l t, J l → Child state t → J (merge strategy l t))
    (l : List Nat) (hl : ∀ i, i ∈ l → 1 ≤ i ∧ i ≤ 9) (g : Globals) (h0 : J g.OpenList) :
    (∀ child g2, expandDigits strategy rc state x y c l g = Expansion.found child g2 →
      FoundChild state child ∧ g2.ClosedList = g.ClosedList ∧
        g2.ExpandCount = g.ExpandCount) ∧
    (∀ g2, expandDigits strategy rc state x y c l g = Expansion.finished g2 →
      J g2.OpenList ∧ g2.ClosedList = g.ClosedList ∧ g2.ExpandCount = g.ExpandCount) := by
  induction l generalizing g with
  | nil =>
    constructor
    · intro child g2 h
      rw [expandDigits_nil] at h
      exact absurd h (by simp)
    · intro g2 h
      rw [expandDigits_nil] at h
      rw [← Expansion.finished.inj h]
      exact ⟨h0, rfl, rfl⟩
  | cons i l ih =>
    have hi := hl i (List.mem_cons_self _ _)
    have hl2 : ∀ j, j ∈ l → 1 ≤ j ∧ j ≤ 9 := fun j hj => hl j (List.mem_cons_of_mem _ hj)
    rw [expandDigits_cons]
    by_cases hp : placeOK state x y i = true
    · rw [if_pos hp]
      by_cases hc : gridCount (deduce (setNum (clone state) x y i) g.Maybe).1 = 81
      · rw [if_pos hc]
        constructor
        · intro child g2 h
          have h1 := Expansion.found.inj h
          rw [← h1.1, ← h1.2]
          exact ⟨⟨x, y, i, g.Maybe, hx, hy, hi.1, hi.2, hp, hc, rfl⟩, rfl, rfl⟩
        · intro g2 h
          exact absurd h (by simp)
      · rw [if_neg hc]
        by_cases hr : isRepeat rc g.ClosedList
            (setValue (deduce (setNum (clone state) x y i) g.Maybe).1
              (((gridCount (deduce (setNum (clone state) x y i) g.Maybe).1 : Nat) : Int) * 10
                + (9 - (c : Int)))) = true
        · rw [if_pos hr]
          exact ih hl2 _ h0
        · rw [if_neg hr]
          exact ih hl2 _ (hJ _ _ h0 ⟨x, y, i, g.Maybe, _, hx, hy, hi.1, hi.2, hp, hc, rfl⟩)
    · rw [if_neg hp]
      exact ih hl2 g h0

theorem expandCells_spec (strategy : Strategy) (rc : Bool) (state : SudokuState)
    (J : List SudokuState → Prop)
    (hJ : ∀ l t, J l → Child state t → J (merge strategy l t))
    (l : List (Nat × Nat)) (hl : ∀ q, q ∈ l → q.1 < 9 ∧ q.2 < 9) (g : Globals)
    (h0 : J g.OpenList) :
    (∀ child g2, expandCells strategy rc state l g = Expansion.found child g2 →
      FoundChild state child ∧ g2.ClosedList = g.ClosedList ∧
        g2.ExpandCount = g.ExpandCount) ∧
    (∀ g2, expandCells strategy rc state l g = Expansion.finished g2 →
      J g2.OpenList ∧ g2.ClosedList = g.ClosedList ∧ g2.ExpandCount = g.ExpandCount) := by
  induction l generalizing g with
  | nil =>
    constructor
    · intro child g2 h
      rw [expandCells_nil] at h
      exact absurd h (by simp)
    · intro g2 h
      rw [expandCells_nil] at h
      rw [← Expansion.finished.inj h]
      exact ⟨h0, rfl, rfl⟩
  | cons q l ih =>
    have hq := hl q (List.mem_cons_self _ _)
    have hl2 : ∀ p, p ∈ l → p.1 < 9 ∧ p.2 < 9 := fun p hp => hl p (List.mem_cons_of_mem _ hp)
    have hd := expandDigits_spec strategy rc state q.1 q.2 (choiceCount state q.1 q.2)
      hq.1 hq.2 J hJ digits (fun i hi => (mem_digits i).mp hi) g h0
    rw [expandCells_cons]
    cases he : expandDigits strategy rc state q.1 q.2 (choiceCount state q.1 q.2) digits g with
    | found child g1 =>
      constructor
      · intro child2 g2 h
        have h1 := Expansion.found.inj h
        rw [← h1.1, ← h1.2]
        exact hd.1 child g1 he
      · intro g2 h
        exact absurd h (by simp)
    | finished g1 =>
      obtain ⟨j1, j2, j3⟩ := hd.2 g1 he
      have := ih hl2 g1 j1
      constructor
      · intro child g2 h
        obtain ⟨a, b, c⟩ := this.1 child g2 h
        exact ⟨a, by rw [b, j2], by rw [c, j3]⟩
      · intro g2 h
        obtain ⟨a, b, c⟩ := this.2 g2 h
        exact ⟨a, by rw [b, j2], by rw [c, j3]⟩

theorem mem_cells (q : Nat × Nat) : q ∈ cells ↔ q.1 < 9 ∧ q.2 < 9 := by
  obtain ⟨a, b⟩ := q
  have : cells = grid2 (List.range 9) (List.range 9) := rfl
  rw [this, mem_grid2]
  simp only [List.mem_range]

/-- The expansion of a state: see `expandDigits_spec`; the state is appended to the
closed list and the counter goes up by one. -/
theorem expand_spec (strategy : Strategy) (rc : Bool) (state : SudokuState)
    (J : List SudokuState → Prop)
    (hJ : ∀ l t, J l → Child state t → J (merge strategy l t)) (g : Globals)
    (h0 : J g.OpenList) :
    (∀ child g2, expand strategy rc state g = Expansion.found child g2 →
      FoundChild state child ∧ g2.ClosedList = g.ClosedList ++ [state] ∧
        g2.ExpandCount = g.ExpandCount + 1) ∧
    (∀ g2, expand strategy rc state g = Expansion.finished g2 →
      J g2.OpenList ∧ g2.ClosedList = g.ClosedList ++ [state] ∧
        g2.ExpandCount = g.ExpandCount + 1) := by
  unfold expand
  exact expandCells_spec strategy rc state J hJ cells (fun q hq => (mem_cells q).mp hq)
    { g with ExpandCount := g.ExpandCount + 1, ClosedList := g.ClosedList ++ [state] } h0

/-! ## The loop of `search` -/

theorem searchLoop_zero (strategy : Strategy) (rc : Bool) (state : SudokuState) (g : Globals) :
    searchLoop strategy rc 0 state g = none := rfl

theorem searchLoop_succ (strategy : Strategy) (rc : Bool) (n : Nat) (state : SudokuState)
    (g : Globals) :
    searchLoop strategy rc (n + 1) state g =
      match expand strategy rc state g with
      | Expansion.found child g1 => some (some child, g1)
      | Expansion.finished g1 =>
        match g1.OpenList with
        | [] => some (none, g1)
        | next :: rest => searchLoop strategy rc n next { g1 with OpenList := rest } := rfl

/-- What `searchLoop` returns comes from the expansion of a state at the head of the
loop: either that expansion returned a child, or it ran to its end and left the open
list empty. -/
theorem searchLoop_result (strategy : Strategy) (rc : Bool) (g0 : Globals) (n : Nat)
    (state : SudokuState) (g : Globals) (res : Option SudokuState × Globals)
    (hr : Reached strategy rc g0 state g) (h : searchLoop strategy rc n state g = some res) :
    ∃ state2 g2, Reached strategy rc g0 state2 g2 ∧
      ((∃ child, res.1 = some child ∧
          expand strategy rc state2 g2 = Expansion.found child res.2) ∨
        (res.1 = none ∧ expand strategy rc state2 g2 = Expansion.finished res.2 ∧
          res.2.OpenList = [])) := by
  induction n generalizing state g with
  | zero => rw [searchLoop_zero] at h; exact absurd h (by simp)
  | succ n ih =>
    rw [searchLoop_succ] at h
    cases he : expand strategy rc state g with
    | found child g1 =>
      rw [he] at h
      simp only [Option.some.injEq] at h
      subst h
      exact ⟨state, g, hr, Or.inl ⟨child, rfl, he⟩⟩
    | finished g1 =>
      rw [he] at h
      simp only [] at h
      cases ho : g1.OpenList with
      | nil =>
        rw [ho] at h
        simp only [Option.some.injEq] at h
        subst h
        exact ⟨state, g, hr, Or.inr ⟨rfl, he, ho⟩⟩
      | cons nxt rest =>
        rw [ho] at h
        simp only [] at h
        exact ih nxt _ (Reached.next state g g1 nxt rest hr he ho) h

/-! ## Complete valid grids -/

theorem pigeon9 (v : Fin 9 → Int) (hr : ∀ i, 1 ≤ v i ∧ v i ≤ 9)
    (hinj : ∀ i j, v i = v j → i = j) (d : Int) (hd1 : 1 ≤ d) (hd9 : d ≤ 9) :
    ∃ i, v i = d := by
  let f : Fin 9 → Fin 9 := fun i => ⟨(v i - 1).toNat, by have := hr i; omega⟩
  have finj : Function.Injective f := by
    intro i j hij
    apply hinj
    have h1 := hr i
    have h2 := hr j
    have h3 : (v i - 1).toNat = (v j - 1).toNat := congrArg Fin.val hij
    omega
  have fsurj : Function.Surjective f := Finite.injective_iff_surjective.mp finj
  obtain ⟨i, hi⟩ := fsurj ⟨(d - 1).toNat, by omega⟩
  refine ⟨i, ?_⟩
  have h1 := hr i
  have h3 : (v i - 1).toNat = (d - 1).toNat := congrArg Fin.val hi
  omega

/-- All cells of a grid with `gridCount` 81 hold a number above 0. -/
theorem gridCount_full (s : SudokuState) (h : gridCount s = 81) (x y : Nat) (hx : x < 9)
    (hy : y < 9) : 0 < getNum s x y := by
  rw [gridCount_eq] at h
  have hlen : (grid2 (List.range 9) (List.range 9)).length = 81 := by decide
  rw [← hlen, List.countP_eq_length] at h
  have := h (x, y) (by rw [mem_grid2]; simp only [List.mem_range]; exact ⟨hx, hy⟩)
  simpa using this

theorem gridCount_eq_81 (s : SudokuState)
    (h : ∀ x y, x < 9 → y < 9 → 0 < getNum s x y) : gridCount s = 81 := by
  rw [gridCount_eq]
  have hlen : (grid2 (List.range 9) (List.range 9)).length = 81 := by decide
  rw [← hlen, List.countP_eq_length]
  rintro ⟨a, b⟩ hq
  rw [mem_grid2] at hq
  simp only [List.mem_range] at hq
  simpa using h a b hq.1 hq.2

/-- In a complete valid grid every row holds every digit. -/
theorem row_complete (s : SudokuState) (hv : isValid s = true) (hc : gridCount s = 81)
    (y : Nat) (hy : y < 9) (d : Int) (hd1 : 1 ≤ d) (hd9 : d ≤ 9) :
    ∃ x, x < 9 ∧ getNum s x y = d := by
  obtain ⟨hr, hn⟩ := (isValid_iff s).mp hv
  have hrv : ∀ i : Fin 9, 1 ≤ getNum s i.val y ∧ getNum s i.val y ≤ 9 := fun i =>
    ⟨by have := gridCount_full s hc i.val y i.isLt hy; omega, (hr i.val y i.isLt hy).2⟩
  obtain ⟨i, hi⟩ := pigeon9 (fun i => getNum s i.val y) hrv
    (fun i j hij => Fin.ext (hn i.val y j.val y i.isLt hy j.isLt hy
      (by have := gridCount_full s hc i.val y i.isLt hy; omega) hij (Or.inl rfl)).1)
    d hd1 hd9
  exact ⟨i.val, i.isLt, hi⟩

/-- In a complete valid grid every column holds every digit. -/
theorem col_complete (s : SudokuState) (hv : isValid s = true) (hc : gridCount s = 81)
    (x : Nat) (hx : x < 9) (d : Int) (hd1 : 1 ≤ d) (hd9 : d ≤ 9) :
    ∃ y, y < 9 ∧ getNum s x y = d := by
  obtain ⟨hr, hn⟩ := (isValid_iff s).mp hv
  have hrv : ∀ i : Fin 9, 1 ≤ getNum s x i.val ∧ getNum s x i.val ≤ 9 := fun i =>
    ⟨by have := gridCount_full s hc x i.val hx i.isLt; omega, (hr x i.val hx i.isLt).2⟩
  obtain ⟨i, hi⟩ := pigeon9 (fun i => getNum s x i.val) hrv
    (fun i j hij => Fin.ext (hn x i.val x j.val hx i.isLt hx j.isLt
      (by have := gridCount_full s hc x i.val hx i.isLt; omega) hij
      (Or.inr (Or.inl rfl))).2)
    d hd1 hd9
  exact ⟨i.val, i.isLt, hi⟩

/-- In a complete valid grid every box holds every digit. -/
theorem box_complete (s : SudokuState) (hv : isValid s = true) (hc : gridCount s = 81)
    (bx bz : Nat) (hbx : bx < 3) (hbz : bz < 3) (d : Int) (hd1 : 1 ≤ d) (hd9 : d ≤ 9) :
    ∃ a b, a / 3 = bx ∧ b / 3 = bz ∧ getNum s a b = d := by
  obtain ⟨hr, hn⟩ := (isValid_iff s).mp hv
  have hlt : ∀ i : Fin 9, 3 * bx + i.val % 3 < 9 ∧ 3 * bz + i.val / 3 < 9 := by
    intro i
    have := i.isLt
    omega
  have hrv : ∀ i : Fin 9, 1 ≤ getNum s (3 * bx + i.val % 3) (3 * bz + i.val / 3) ∧
      getNum s (3 * bx + i.val % 3) (3 * bz + i.val / 3) ≤ 9 := fun i =>
    ⟨by have := gridCount_full s hc _ _ (hlt i).1 (hlt i).2; omega,
      (hr _ _ (hlt i).1 (hlt i).2).2⟩
  obtain ⟨i, hi⟩ := pigeon9 (fun i => getNum s (3 * bx + i.val % 3) (3 * bz + i.val / 3)) hrv
    (fun i j hij => by
      have h := hn _ _ _ _ (hlt i).1 (hlt i).2 (hlt j).1 (hlt j).2
        (by have := gridCount_full s hc _ _ (hlt i).1 (hlt i).2; omega) hij
        (Or.inr (Or.inr ⟨by have := i.isLt; have := j.isLt; omega,
          by have := i.isLt; have := j.isLt; omega⟩))
      apply Fin.ext
      have := i.isLt
      have := j.isLt
      omega)
    d hd1 hd9
  exact ⟨_, _, by have := i.isLt; omega, by have := i.isLt; omega, hi⟩

/-! ## A complete grid with one cell emptied -/

theorem find?_unique {α : Type} (p : α → Bool) (l : List α) (a : α) (ha : a ∈ l)
    (hp : p a = true) (hu : ∀ b, b ∈ l → p b = true → b = a) : l.find? p = some a := by
  induction l with
  | nil => exact absurd ha (List.not_mem_nil _)
  | cons c l ih =>
    rw [List.find?_cons]
    by_cases hc : p c = true
    · rw [hc, hu c (List.mem_cons_self _ _) hc]
    · have hc2 : p c = false := by simpa using hc
      rw [hc2]
      apply ih
      · rcases List.mem_cons.mp ha with h | h
        · rw [h] at hp; exact absurd hp hc
        · exact h
      · intro b hb hpb
        exact hu b (List.mem_cons_of_mem _ hb) hpb

theorem setNum_restore (s : SudokuState) (x y : Nat) (n : Int) :
    setNum (setNum s x y n) x y (getNum s x y) = s := by
  cases s with
  | mk grid value =>
    simp only [setNum, getNum, Function.update_idem, Function.update_eq_self]

/-- A pass on a grid without empty cell changes nothing. -/
theorem deducePass_full (s : SudokuState) (m : MaybeTable)
    (h : ∀ x y, x < 9 → y < 9 → 0 < getNum s x y) :
    (deducePass s m).2.2 = true ∧ (deducePass s m).1 = s := by
  unfold deducePass
  simp only []
  rw [lone_eq]
  have hn : (colMajor (List.range 9) (List.range 9)).find?
      (loneTest s (eliminate s (fillMaybe s m))) = none := by
    rw [List.find?_eq_none]
    intro q hq
    have hq2 := (mem_cells9 q).mp hq
    have := h q.1 q.2 hq2.1 hq2.2
    unfold loneTest
    simp only [Bool.and_eq_true, decide_eq_true_eq, not_and]
    intro h1
    omega
  rw [hn]
  exact ⟨rfl, rfl⟩

/-- In a complete valid grid with the cell `(x, y)` emptied, the only number that
`placeOK` allows in that cell is the one that was there. -/
theorem placeOK_emptied (s : SudokuState) (hv : isValid s = true) (hc : gridCount s = 81)
    (x y : Nat) (hx : x < 9) (hy : y < 9) (z : Int) (hz1 : 1 ≤ z) (hz9 : z ≤ 9) :
    placeOK (setNum s x y 0) x y z = true ↔ z = getNum s x y := by
  obtain ⟨hr, hn⟩ := (isValid_iff s).mp hv
  have hfull := gridCount_full s hc
  rw [placeOK_iff]
  constructor
  · rintro ⟨_, hrow, _, _⟩
    obtain ⟨a, ha, hza⟩ := row_complete s hv hc y hy z hz1 hz9
    by_cases hax : a = x
    · rw [← hza, hax]
    · exfalso
      apply hrow a ha
      rw [getNum_setNum s x y a y 0 hx ha, if_neg (fun h => hax h.1)]
      exact hza
  · intro hz
    subst hz
    refine ⟨by rw [getNum_setNum_self], ?_, ?_, ?_⟩
    · intro a ha
      rw [getNum_setNum s x y a y 0 hx ha]
      by_cases hax : a = x ∧ y = y
      · rw [if_pos hax]; omega
      · rw [if_neg hax]
        intro he
        exact hax ⟨(hn a y x y ha hy hx hy (by rw [he]; exact hz1) he (Or.inl rfl)).1, rfl⟩
    · intro b hb
      rw [getNum_setNum s x y x b 0 hx hx]
      by_cases hbx : x = x ∧ b = y
      · rw [if_pos hbx]; omega
      · rw [if_neg hbx]
        intro he
        exact hbx ⟨rfl, (hn x b x y hx hb hx hy (by rw [he]; exact hz1) he
          (Or.inr (Or.inl rfl))).2⟩
    · intro a b ha hb
      rw [getNum_setNum s x y a b 0 hx (by omega)]
      by_cases hab : a = x ∧ b = y
      · rw [if_pos hab]; omega
      · rw [if_neg hab]
        intro he
        exact hab (hn a b x y (by omega) (by omega) hx hy (by rw [he]; exact hz1) he
          (Or.inr (Or.inr ⟨ha, hb⟩)))

/-- In a complete valid grid with the cell `(x, y)` emptied, the first two parts of a
pass leave exactly one entry set for that cell: the digit that was there. -/
theorem loneCount_emptied (s : SudokuState) (hv : isValid s = true) (hc : gridCount s = 81)
    (x y : Nat) (hx : x < 9) (hy : y < 9) (m : MaybeTable) :
    loneCount (eliminate (setNum s x y 0) (fillMaybe (setNum s x y 0) m)) x y
      = (1, (getNum s x y).toNat) := by
  obtain ⟨hr, hn⟩ := (isValid_iff s).mp hv
  have hfull := gridCount_full s hc
  have hd1 := hfull x y hx hy
  have hd9 := (hr x y hx hy).2
  have hdn : (((getNum s x y).toNat : Nat) : Int) = getNum s x y := by omega
  have hmem : (getNum s x y).toNat ∈ digits := (mem_digits _).mpr ⟨by omega, by omega⟩
  have hg0 : getNum (setNum s x y 0) x y = 0 := getNum_setNum_self s x y 0
  have hother : ∀ a b, a < 9 → ¬ (a = x ∧ b = y) →
      getNum (setNum s x y 0) a b = getNum s a b := by
    intro a b ha hab
    rw [getNum_setNum s x y a b 0 hx ha, if_neg hab]
  apply loneCount_unique _ x y _ hmem
  · -- the digit survives
    rw [eliminate_eq, elimList_sure (setNum s x y 0) _ (fun q hq => (mem_cells9 q).mp hq) _
      x y _ hx hy]
    · rw [fillMaybe_apply, if_pos ⟨hx, hy, by omega⟩]
      unfold cand
      have hp := (placeOK_emptied s hv hc x y hx hy (getNum s x y) (by omega) hd9).mpr rfl
      rw [hdn, hp]
      simp
      omega
    · intro k hk hne
      obtain ⟨a, b, ha, hb, hab⟩ :=
        box_complete s hv hc (x / 3) k (by omega) hk (getNum s x y) (by omega) hd9
      have hane : a ≠ x := by
        intro hax
        have := (hn a b x y (by omega) (by omega) hx hy (by rw [hab]; omega) hab
          (Or.inr (Or.inl hax))).2
        omega
      have hgab : getNum (setNum s x y 0) a b = getNum s a b :=
        hother a b (by omega) (fun h => hane h.1)
      refine ⟨a, b, ha, hb, hane, by rw [hgab, hab]; omega, ?_⟩
      rw [fillMaybe_apply, if_pos ⟨by omega, by omega, by omega⟩]
      unfold cand
      rw [hdn, hgab, hab]
      simp
      omega
    · intro k hk hne
      obtain ⟨a, b, ha, hb, hab⟩ :=
        box_complete s hv hc k (y / 3) hk (by omega) (getNum s x y) (by omega) hd9
      have hbne : b ≠ y := by
        intro hby
        have := (hn a b x y (by omega) (by omega) hx hy (by rw [hab]; omega) hab
          (Or.inl hby)).1
        omega
      have hgab : getNum (setNum s x y 0) a b = getNum s a b :=
        hother a b (by omega) (fun h => hbne h.2)
      refine ⟨a, b, ha, hb, hbne, by rw [hgab, hab]; omega, ?_⟩
      rw [fillMaybe_apply, if_pos ⟨by omega, by omega, by omega⟩]
      unfold cand
      rw [hdn, hgab, hab]
      simp
      omega
  · -- no other digit is a candidate
    intro z hz hm
    have hz2 := (mem_digits z).mp hz
    have hp := refined_placeOK (setNum s x y 0) m x y z hx hy hz (by rw [hg0]) hm
    have := (placeOK_emptied s hv hc x y hx hy z (by omega) (by omega)).mp hp
    omega

/-- The first pass on a complete valid grid with one cell emptied writes the digit
back. -/
theorem deducePass_emptied (s : SudokuState) (hv : isValid s = true) (hc : gridCount s = 81)
    (x y : Nat) (hx : x < 9) (hy : y < 9) (m : MaybeTable) :
    (deducePass (setNum s x y 0) m).2.2 = false ∧ (deducePass (setNum s x y 0) m).1 = s := by
  obtain ⟨hr, hn⟩ := (isValid_iff s).mp hv
  have hfull := gridCount_full s hc
  have hd1 := hfull x y hx hy
  have hdn : (((getNum s x y).toNat : Nat) : Int) = getNum s x y := by omega
  have hl := loneCount_emptied s hv hc x y hx hy m
  unfold deducePass
  simp only []
  rw [lone_eq]
  have hf : (colMajor (List.range 9) (List.range 9)).find?
      (loneTest (setNum s x y 0) (eliminate (setNum s x y 0) (fillMaybe (setNum s x y 0) m)))
        = some (x, y) := by
    apply find?_unique
    · exact (mem_cells9 (x, y)).mpr ⟨hx, hy⟩
    · unfold loneTest
      simp only [getNum_setNum_self, hl]
      decide
    · rintro ⟨a, b⟩ hq ht
      have hq2 := (mem_cells9 (a, b)).mp hq
      unfold loneTest at ht
      simp only [Bool.and_eq_true, decide_eq_true_eq] at ht
      by_cases hab : a = x ∧ b = y
      · rw [hab.1, hab.2]
      · exfalso
        have h1 := ht.1
        rw [getNum_setNum s x y a b 0 hx hq2.1, if_neg hab] at h1
        have := hfull a b hq2.1 hq2.2
        omega
  rw [hf]
  simp only [hl, hdn]
  exact ⟨trivial, setNum_restore s x y 0⟩

/-- `deduce` solves a complete valid grid with one cell emptied. -/
theorem deduce_emptied (s : SudokuState) (hv : isValid s = true) (hc : gridCount s = 81)
    (x y : Nat) (hx : x < 9) (hy : y < 9) (m : MaybeTable) :
    (deduce (setNum s x y 0) m).1 = s := by
  have h1 := deducePass_emptied s hv hc x y hx hy m
  have h2 := deducePass_full s (deducePass (setNum s x y 0) m).2.1 (gridCount_full s hc)
  have h3 : deduceLoop 82 (setNum s x y 0) m
      = some (s, (deducePass s (deducePass (setNum s x y 0) m).2.1).2.1) := by
    show deduceLoop (80 + 1 + 1) (setNum s x y 0) m = _
    rw [deduceLoop_succ, if_neg (by rw [h1.1]; simp), h1.2, deduceLoop_succ, if_pos h2.1, h2.2]
  rw [deduceLoop_eq_some] at h3
  rw [Option.some.inj h3]

theorem search_emptied (s : SudokuState) (hv : isValid s = true) (hc : gridCount s = 81)
    (x y : Nat) (hx : x < 9) (hy : y < 9) (m : MaybeTable) (strategy : Strategy) (rc : Bool)
    (fuel : Nat) :
    ∃ g, search strategy rc fuel (initialGlobals (setNum s x y 0) m) = some (some s, g) ∧
      g.ExpandCount = 0 ∧ g.ClosedList = [] ∧ g.OpenList = [] := by
  have hd := deduce_emptied s hv hc x y hx hy m
  refine ⟨{ OpenList := [], ClosedList := [], ExpandCount := 0,
            Maybe := (deduce (setNum s x y 0) m).2 }, ?_, rfl, rfl, rfl⟩
  unfold search initialGlobals
  simp only []
  rw [hd, if_pos hc]

/-! ## `search` -/

theorem search_cases (strategy : Strategy) (rc : Bool) (fuel : Nat) (g : Globals)
    (res : Option SudokuState × Globals) (h : search strategy rc fuel g = some res) :
    (g.OpenList = [] ∧ res = (none, { g with ExpandCount := 0 })) ∨
    (∃ first rest, g.OpenList = first :: rest ∧ gridCount (deduce first g.Maybe).1 = 81 ∧
      res = (some (deduce first g.Maybe).1,
        { g with ExpandCount := 0, OpenList := rest, Maybe := (deduce first g.Maybe).2 })) ∨
    (∃ first rest, g.OpenList = first :: rest ∧ gridCount (deduce first g.Maybe).1 ≠ 81 ∧
      searchLoop strategy rc fuel (deduce first g.Maybe).1
        { g with ExpandCount := 0, OpenList := rest, Maybe := (deduce first g.Maybe).2 }
        = some res) := by
  unfold search at h
  simp only [] at h
  cases ho : g.OpenList with
  | nil =>
    rw [ho] at h
    simp only [Option.some.injEq] at h
    exact Or.inl ⟨rfl, h.symm⟩
  | cons first rest =>
    rw [ho] at h
    simp only [] at h
    by_cases hc : gridCount (deduce first g.Maybe).1 = 81
    · rw [if_pos hc] at h
      simp only [Option.some.injEq] at h
      exact Or.inr (Or.inl ⟨first, rest, rfl, hc, h.symm⟩)
    · rw [if_neg hc] at h
      exact Or.inr (Or.inr ⟨first, rest, rfl, hc, h⟩)

/-- What `search` returns, when it returns a state: the propagated front of the open
list, or a complete child of a state at the head of the loop. -/
theorem search_found (strategy : Strategy) (rc : Bool) (fuel : Nat) (g : Globals)
    (child : SudokuState) (g2 : Globals)
    (h : search strategy rc fuel g = some (some child, g2)) :
    (∃ first rest, g.OpenList = first :: rest ∧ child = (deduce first g.Maybe).1 ∧
      gridCount child = 81) ∨
    (∃ state g1, Reached strategy rc g state g1 ∧ FoundChild state child) := by
  rcases search_cases strategy rc fuel g _ h with ⟨_, h1⟩ | ⟨first, rest, ho, hc, h1⟩ |
      ⟨first, rest, ho, hc, h1⟩
  · simp at h1
  · left
    simp only [Prod.mk.injEq, Option.some.injEq] at h1
    exact ⟨first, rest, ho, h1.1, by rw [h1.1]; exact hc⟩
  · right
    obtain ⟨state2, g3, hr, hres⟩ := searchLoop_result strategy rc g _ _ _ _
      (Reached.start first rest ho hc) h1
    rcases hres with ⟨c, hc1, hc2⟩ | ⟨hn, _, _⟩
    · simp only [Option.some.injEq] at hc1
      subst hc1
      exact ⟨state2, g3, hr, ((expand_spec strategy rc state2 (fun _ => True)
        (fun _ _ _ _ => trivial) g3 trivial).1 _ _ hc2).1⟩
    · simp at hn

theorem extends_deduce (root t : SudokuState) (m : MaybeTable) (h : Extends root t) :
    Extends root (deduce t m).1 := by
  obtain ⟨hv, ha⟩ := h
  refine ⟨deduce_isValid t m hv, ?_⟩
  intro x y hx hy hne
  have h1 := ha x y hx hy hne
  have h2 := ((isValid_iff t).mp hv).1 x y hx hy
  rw [deduce_keeps t m x y hx (by rw [h1] at h2 ⊢; omega), h1]

theorem extends_child (root state : SudokuState) (m : MaybeTable) (x y i : Nat)
    (hx : x < 9) (hy : y < 9) (hi1 : 1 ≤ i) (hi9 : i ≤ 9)
    (hp : placeOK state x y i = true) (h : Extends root state) :
    Extends root (deduce (setNum (clone state) x y i) m).1 := by
  apply extends_deduce
  obtain ⟨hv, ha⟩ := h
  have hc : isValid (clone state) = true := by
    rw [sameCells_isValid (sameCells_clone state)]
    exact hv
  have hpc : placeOK (clone state) x y i = true := by
    rw [sameCells_placeOK (sameCells_clone state) x y i hx hy]
    exact hp
  constructor
  · rw [isValid_iff] at hc ⊢
    exact valid_setNum (clone state) x y i hx hy (by omega) (by omega) hpc hc
  · intro a b ha2 hb hne
    have h1 := ha a b ha2 hb hne
    have h2 := ((isValid_iff state).mp hv).1 a b ha2 hb
    have he := placeOK_empty state x y i hp
    rw [getNum_setNum (clone state) x y a b i hx ha2, if_neg, getNum_clone state a b ha2 hb, h1]
    rintro ⟨rfl, rfl⟩
    rw [h1] at h2 he
    omega

theorem extends_setValue (root t : SudokuState) (v : Int) (h : Extends root t) :
    Extends root (setValue t v) := by
  obtain ⟨hv, ha⟩ := h
  exact ⟨by rw [sameCells_isValid (sameCells_setValue t v)]; exact hv, ha⟩

/-- Every state at the head of the loop of `search`, and every state on the open list
then, is valid and agrees with the initial grid where that is not empty. -/
theorem reached_extends (strategy : Strategy) (rc : Bool) (root : SudokuState)
    (m : MaybeTable) (hv : isValid root = true) (state : SudokuState) (g : Globals)
    (h : Reached strategy rc (initialGlobals root m) state g) :
    Extends root state ∧ ∀ t, t ∈ g.OpenList → Extends root t := by
  induction h with
  | start first rest ho hc =>
    simp only [initialGlobals, List.cons.injEq] at ho
    rw [← ho.1, ← ho.2]
    refine ⟨extends_deduce root root _ ⟨hv, fun _ _ _ _ _ => rfl⟩, ?_⟩
    intro t ht
    exact absurd ht (List.not_mem_nil _)
  | next state g1 g2 nxt rest _ he ho ih =>
    have hs := (expand_spec strategy rc state (fun l => ∀ t, t ∈ l → Extends root t)
      (by
        intro l t hl hch u hu
        rcases (mem_merge strategy l t u).mp hu with rfl | hu
        · obtain ⟨x, y, i, m2, v, hx, hy, hi1, hi9, hp, _, rfl⟩ := hch
          exact extends_setValue root _ v (extends_child root state m2 x y i hx hy hi1 hi9 hp ih.1)
        · exact hl u hu)
      g1 ih.2).2 g2 he
    have hall := hs.1
    rw [ho] at hall
    exact ⟨hall nxt (List.mem_cons_self _ _), fun t ht => hall t (List.mem_cons_of_mem _ ht)⟩

/-- A state that `search` returns for a valid initial grid is complete, valid, and
agrees with the initial grid where that is not empty. -/
theorem search_found_extends (strategy : Strategy) (rc : Bool) (fuel : Nat)
    (root : SudokuState) (m : MaybeTable) (hv : isValid root = true) (child : SudokuState)
    (g2 : Globals)
    (h : search strategy rc fuel (initialGlobals root m) = some (some child, g2)) :
    gridCount child = 81 ∧ Extends root child := by
  rcases search_found strategy rc fuel _ child g2 h with ⟨first, rest, ho, hc, h81⟩ |
      ⟨state, g1, hr, hf⟩
  · simp only [initialGlobals, List.cons.injEq] at ho
    rw [← ho.1] at hc
    rw [hc]
    exact ⟨by rw [← hc]; exact h81, extends_deduce root root _ ⟨hv, fun _ _ _ _ _ => rfl⟩⟩
  · obtain ⟨x, y, i, m2, hx, hy, hi1, hi9, hp, h81, he⟩ := hf
    refine ⟨h81, ?_⟩
    rw [he]
    exact extends_child root state m2 x y i hx hy hi1 hi9 hp
      (reached_extends strategy rc root m hv state g1 hr).1

/-! ## Grids on which the second part of a pass clears nothing -/

theorem boxAny_iff (bx bz : Nat) (f : Nat → Nat → Bool) :
    boxAny bx bz f = true ↔ ∃ a b, a / 3 = bx ∧ b / 3 = bz ∧ f a b = true := by
  unfold boxAny
  simp only [List.any_cons, List.any_nil, Bool.or_false, Bool.or_eq_true]
  constructor
  · intro h
    rcases h with (h | h | h) | (h | h | h) | (h | h | h)
    all_goals exact ⟨_, _, by omega, by omega, h⟩
  · rintro ⟨a, b, ha, hb, h⟩
    have ea : a = 3 * bx ∨ a = 3 * bx + 1 ∨ a = 3 * bx + 2 := by omega
    have eb : b = 3 * bz ∨ b = 3 * bz + 1 ∨ b = 3 * bz + 2 := by omega
    rcases ea with rfl | rfl | rfl <;> rcases eb with rfl | rfl | rfl <;> simp [h]

/-- Entries that support one another survive the second part of a pass: if every
entry of `T` is set, and every entry of `T` that belongs to an empty cell has, in
every other box of the stack and of the band, an entry of `T` in another column, or
row, then every entry of `T` is still set afterwards. -/
theorem elimList_supported (s : SudokuState) (l : List (Nat × Nat))
    (hl : ∀ q ∈ l, q.1 < 9 ∧ q.2 < 9) (T : Nat → Nat → Nat → Prop)
    (hsup : ∀ x y z, T x y z → getNum s x y ≤ 0 →
      (∀ k, k < 3 → k ≠ y / 3 → ∃ a b, a / 3 = x / 3 ∧ b / 3 = k ∧ a ≠ x ∧ T a b z) ∧
      (∀ k, k < 3 → k ≠ x / 3 → ∃ a b, a / 3 = k ∧ b / 3 = y / 3 ∧ b ≠ y ∧ T a b z))
    (m : MaybeTable) (h0 : ∀ x y z, T x y z → m x y z = true) :
    ∀ x y z, T x y z → (l.foldl (fun m q => eliminateCell s q.1 q.2 m) m) x y z = true := by
  induction l generalizing m with
  | nil => exact h0
  | cons q l ih =>
    have hq := hl q (List.mem_cons_self _ _)
    rw [List.foldl_cons]
    apply ih (fun q hq => hl q (List.mem_cons_of_mem _ hq))
    intro x y z hT
    rw [eliminateCell_apply s q.1 q.2 hq.1 hq.2]
    by_cases h1 : x = q.1 ∧ y = q.2 ∧ z ∈ digits ∧ getNum s q.1 q.2 ≤ 0
    · rw [if_pos h1, ← h1.1, ← h1.2.1, h0 x y z hT, Bool.true_and,
        boxCheck_iff m x y z (by rw [h1.1]; exact hq.1) (by rw [h1.2.1]; exact hq.2)]
      obtain ⟨hs, hb⟩ := hsup x y z hT (by rw [h1.1, h1.2.1]; exact h1.2.2.2)
      constructor
      · intro k hk hne
        obtain ⟨a, b, h2, h3, h4, h5⟩ := hs k hk hne
        exact ⟨a, b, h2, h3, h4, h0 a b z h5⟩
      · intro k hk hne
        obtain ⟨a, b, h2, h3, h4, h5⟩ := hb k hk hne
        exact ⟨a, b, h2, h3, h4, h0 a b z h5⟩
    · rw [if_neg h1]
      exact h0 x y z hT

theorem cand_digit (s : SudokuState) (x y z : Nat) (h : cand s x y z = true) : 1 ≤ z := by
  unfold cand at h
  simp only [Bool.and_eq_true, decide_eq_true_eq] at h
  exact h.1

/-- On a grid that passes `supported`, the first two parts of a pass leave the table
with the values `cand`. -/
theorem eliminate_of_supported (s : SudokuState) (m : MaybeTable) (h : supported s = true) :
    TableEq (eliminate s (fillMaybe s m)) (cand s) := by
  have hsup : ∀ x y z, (x < 9 ∧ y < 9 ∧ z < 10 ∧ cand s x y z = true) → getNum s x y ≤ 0 →
      (∀ k, k < 3 → k ≠ y / 3 → ∃ a b, a / 3 = x / 3 ∧ b / 3 = k ∧ a ≠ x ∧
        (a < 9 ∧ b < 9 ∧ z < 10 ∧ cand s a b z = true)) ∧
      (∀ k, k < 3 → k ≠ x / 3 → ∃ a b, a / 3 = k ∧ b / 3 = y / 3 ∧ b ≠ y ∧
        (a < 9 ∧ b < 9 ∧ z < 10 ∧ cand s a b z = true)) := by
    rintro x y z ⟨hx, hy, hz, hc⟩ he
    unfold supported at h
    simp only [List.all_eq_true, List.mem_range, Bool.or_eq_true, decide_eq_true_eq] at h
    have h1 := h x hx y hy
    rcases h1 with h1 | h1
    · omega
    · have h2 := h1 z ((mem_digits z).mpr ⟨cand_digit s x y z hc, by omega⟩)
      rw [hc] at h2
      have h2 : supportOK s x y z = true := by simpa using h2
      unfold supportOK at h2
      simp only [List.all_eq_true, List.mem_range, Bool.and_eq_true, Bool.or_eq_true,
        decide_eq_true_eq, boxAny_iff] at h2
      constructor
      · intro k hk hne
        rcases (h2 k hk).1 with h3 | ⟨a, b, h3, h4, h5, h6⟩
        · exact absurd h3 hne
        · exact ⟨a, b, h3, h4, h5, by omega, by omega, hz, h6⟩
      · intro k hk hne
        rcases (h2 k hk).2 with h3 | ⟨a, b, h3, h4, h5, h6⟩
        · exact absurd h3 hne
        · exact ⟨a, b, h3, h4, h5, by omega, by omega, hz, h6⟩
  intro x y z hx hy hz
  cases hc : cand s x y z
  · -- an entry that the first part clears stays cleared
    by_contra hne
    have ht : eliminate s (fillMaybe s m) x y z = true := by simpa using hne
    rw [eliminate_eq] at ht
    have := elimList_mono s _ (fun q hq => (mem_cells9 q).mp hq) _ x y z ht
    rw [fillMaybe_apply, if_pos ⟨hx, hy, hz⟩, hc] at this
    exact absurd this (by simp)
  · rw [eliminate_eq]
    apply elimList_supported s _ (fun q hq => (mem_cells9 q).mp hq)
      (fun x y z => x < 9 ∧ y < 9 ∧ z < 10 ∧ cand s x y z = true) hsup
    · rintro a b c ⟨ha, hb, hc2, hcc⟩
      rw [fillMaybe_apply, if_pos ⟨ha, hb, hc2⟩]
      exact hcc
    · exact ⟨hx, hy, hz, hc⟩

/-- On a grid that passes `supported`, a pass of `deduce` is the third part run on
the values `cand`. -/
theorem deducePass_of_supported (s : SudokuState) (m : MaybeTable)
    (h : supported s = true) :
    (deducePass s m).1 = (lone s (cand s)).1 ∧ (deducePass s m).2.2 = (lone s (cand s)).2 := by
  unfold deducePass
  simp only []
  rw [lone_congr s _ _ (eliminate_of_supported s m h)]
  exact ⟨rfl, rfl⟩

theorem deduceLoop_unique (n k : Nat) (s : SudokuState) (m : MaybeTable)
    (r1 r2 : SudokuState × MaybeTable) (h1 : deduceLoop n s m = some r1)
    (h2 : deduceLoop k s m = some r2) : r1 = r2 := by
  have a := deduceLoop_mono n k s m r1 h1
  have b := deduceLoop_mono k n s m r2 h2
  rw [Nat.add_comm k n, a] at b
  exact Option.some.inj b

theorem deduceCert_loop (cert : List (Nat × Nat × Nat)) (s : SudokuState) (m : MaybeTable)
    (h : deduceCert s cert = true) :
    ∃ m2, deduceLoop (cert.length + 1) s m = some (placeAll s cert, m2) := by
  induction cert generalizing s m with
  | nil =>
    unfold deduceCert at h
    simp only [Bool.and_eq_true, Option.isNone_iff_eq_none] at h
    have hp := deducePass_of_supported s m h.1
    rw [lone_eq] at hp
    have hf : (colMajor (List.range 9) (List.range 9)).find? (loneTest s (cand s)) = none := h.2
    rw [hf] at hp
    refine ⟨(deducePass s m).2.1, ?_⟩
    show deduceLoop (0 + 1) s m = _
    rw [deduceLoop_succ, if_pos hp.2, hp.1]
    rfl
  | cons p rest ih =>
    unfold deduceCert at h
    simp only [Bool.and_eq_true, decide_eq_true_eq] at h
    obtain ⟨⟨⟨hs, hf⟩, hc⟩, hr⟩ := h
    have hp := deducePass_of_supported s m hs
    rw [lone_eq] at hp
    have hf2 : (colMajor (List.range 9) (List.range 9)).find? (loneTest s (cand s))
        = some (p.1, p.2.1) := hf
    rw [hf2] at hp
    simp only [hc] at hp
    obtain ⟨m2, hm2⟩ := ih (setNum s p.1 p.2.1 p.2.2) (deducePass s m).2.1 hr
    refine ⟨m2, ?_⟩
    show deduceLoop (rest.length + 1 + 1) s m = _
    rw [deduceLoop_succ, if_neg (by rw [hp.2]; simp), hp.1, hm2]
    rfl

/-- A certificate that passes `deduceCert` gives the state that `deduce` leaves. -/
theorem deduceCert_sound (cert : List (Nat × Nat × Nat)) (s : SudokuState) (m : MaybeTable)
    (h : deduceCert s cert = true) : (deduce s m).1 = placeAll s cert := by
  obtain ⟨m2, hm2⟩ := deduceCert_loop cert s m h
  have := deduceLoop_unique _ _ s m _ _ (deduceLoop_eq_some s m) hm2
  rw [this]

/-! ## What holds at the head of the loop of `search` -/

/-- Induction over the states at the head of the loop, for a property of the state
and of the three globals that `expand` changes: it holds at the start, and finishing
an expansion and taking the front of the open list keeps it. -/
theorem reached_induct (strategy : Strategy) (rc : Bool) (g0 : Globals)
    (P : SudokuState → Globals → Prop)
    (hstart : ∀ first rest, g0.OpenList = first :: rest →
      gridCount (deduce first g0.Maybe).1 ≠ 81 →
      P (deduce first g0.Maybe).1
        { g0 with ExpandCount := 0, OpenList := rest, Maybe := (deduce first g0.Maybe).2 })
    (hnext : ∀ state g1 g2 nxt rest, Reached strategy rc g0 state g1 → P state g1 →
      expand strategy rc state g1 = Expansion.finished g2 → g2.OpenList = nxt :: rest →
      P nxt { g2 with OpenList := rest })
    (state : SudokuState) (g : Globals) (h : Reached strategy rc g0 state g) : P state g := by
  induction h with
  | start first rest ho hc => exact hstart first rest ho hc
  | next state g1 g2 nxt rest hr he ho ih => exact hnext state g1 g2 nxt rest hr ih he ho

theorem gridCount_setValue (t : SudokuState) (v : Int) : gridCount (setValue t v) = gridCount t :=
  sameCells_gridCount (sameCells_setValue t v)

theorem isValid_setValue (t : SudokuState) (v : Int) : isValid (setValue t v) = isValid t :=
  sameCells_isValid (sameCells_setValue t v)

/-- Under best-first, the open list is sorted at the head of the loop. -/
theorem reached_sorted (rc : Bool) (root : SudokuState) (m : MaybeTable)
    (state : SudokuState) (g : Globals)
    (h : Reached Strategy.BEST rc (initialGlobals root m) state g) :
    SortedDesc g.OpenList := by
  apply reached_induct Strategy.BEST rc (initialGlobals root m)
    (fun _ g => SortedDesc g.OpenList) _ _ state g h
  · intro first rest ho _
    simp only [initialGlobals, List.cons.injEq] at ho
    rw [← ho.2]
    exact List.Pairwise.nil
  · intro state g1 g2 nxt rest _ ih he ho
    have hs := ((expand_spec Strategy.BEST rc state SortedDesc
      (fun l t hl _ => mergeBest_sorted l t hl) g1 ih).2 g2 he).1
    rw [ho] at hs
    exact (List.pairwise_cons.mp hs).2

/-- The closed list grows by one state, and the counter by one, per expansion. -/
theorem reached_count (strategy : Strategy) (rc : Bool) (g0 : Globals)
    (state : SudokuState) (g : Globals) (h : Reached strategy rc g0 state g) :
    ∃ added, g.ClosedList = g0.ClosedList ++ added ∧ added.length = g.ExpandCount := by
  apply reached_induct strategy rc g0
    (fun _ g => ∃ added, g.ClosedList = g0.ClosedList ++ added ∧ added.length = g.ExpandCount)
    _ _ state g h
  · intro first rest _ _
    exact ⟨[], by simp, rfl⟩
  · rintro state g1 g2 nxt rest _ ⟨added, h1, h2⟩ he _
    obtain ⟨_, h3, h4⟩ := (expand_spec strategy rc state (fun _ => True)
      (fun _ _ _ _ => trivial) g1 trivial).2 g2 he
    refine ⟨added ++ [state], ?_, ?_⟩
    · show g2.ClosedList = _
      rw [h3, h1, List.append_assoc]
    · show _ = g2.ExpandCount
      rw [h4, List.length_append, h2]
      rfl

theorem pending_child (state t : SudokuState) (hs : isValid state = true)
    (h : Child state t) : Pending t := by
  obtain ⟨x, y, i, m2, v, hx, hy, hi1, hi9, hp, hne, rfl⟩ := h
  have hc : isValid (clone state) = true := by
    rw [sameCells_isValid (sameCells_clone state)]
    exact hs
  have hpc : placeOK (clone state) x y i = true := by
    rw [sameCells_placeOK (sameCells_clone state) x y i hx hy]
    exact hp
  constructor
  · rw [isValid_setValue]
    apply deduce_isValid
    rw [isValid_iff] at hc ⊢
    exact valid_setNum (clone state) x y i hx hy (by omega) (by omega) hpc hc
  · rw [gridCount_setValue]
    have := gridCount_le (deduce (setNum (clone state) x y i) m2).1
    omega

/-- For a valid initial grid, the state at the head of the loop and every state on
the open and on the closed list are valid and not complete. -/
theorem reached_pending (strategy : Strategy) (rc : Bool) (root : SudokuState)
    (m : MaybeTable) (hv : isValid root = true) (state : SudokuState) (g : Globals)
    (h : Reached strategy rc (initialGlobals root m) state g) :
    Pending state ∧ (∀ t, t ∈ g.OpenList → Pending t) ∧
      (∀ t, t ∈ g.ClosedList → Pending t) := by
  apply reached_induct strategy rc (initialGlobals root m)
    (fun state g => Pending state ∧ (∀ t, t ∈ g.OpenList → Pending t) ∧
      (∀ t, t ∈ g.ClosedList → Pending t)) _ _ state g h
  · intro first rest ho hc
    simp only [initialGlobals, List.cons.injEq] at ho
    refine ⟨⟨?_, ?_⟩, ?_, ?_⟩
    · rw [← ho.1]
      exact deduce_isValid root _ hv
    · have := gridCount_le (deduce first (initialGlobals root m).Maybe).1
      omega
    · intro t ht
      rw [← ho.2] at ht
      exact absurd ht (List.not_mem_nil _)
    · intro t ht
      exact absurd ht (List.not_mem_nil _)
  · rintro state g1 g2 nxt rest _ ⟨hs, ho1, hc1⟩ he ho
    obtain ⟨h1, h3, _⟩ := (expand_spec strategy rc state (fun l => ∀ t, t ∈ l → Pending t)
      (by
        intro l t hl hch u hu
        rcases (mem_merge strategy l t u).mp hu with rfl | hu
        · exact pending_child state _ hs.1 hch
        · exact hl u hu)
      g1 ho1).2 g2 he
    rw [ho] at h1
    refine ⟨h1 nxt (List.mem_cons_self _ _), fun t ht => h1 t (List.mem_cons_of_mem _ ht), ?_⟩
    intro t ht
    have ht2 : t ∈ g2.ClosedList := ht
    rw [h3, List.mem_append, List.mem_singleton] at ht2
    rcases ht2 with ht2 | rfl
    · exact hc1 t ht2
    · exact hs

/-- `deduce` leaves the empty grid as it is. -/
theorem deduce_emptyGrid (m : MaybeTable) : (deduce emptyGrid m).1 = emptyGrid :=
  deduceCert_sound [] emptyGrid m (by decide!)

/-- The loop of `search` is entered for the empty grid. -/
theorem reached_emptyGrid (strategy : Strategy) (rc : Bool) :
    Reached strategy rc (initialGlobals emptyGrid noMaybe) (deduce emptyGrid noMaybe).1
      { initialGlobals emptyGrid noMaybe with
        ExpandCount := 0, OpenList := [], Maybe := (deduce emptyGrid noMaybe).2 } := by
  apply Reached.start emptyGrid [] rfl
  show gridCount (deduce emptyGrid noMaybe).1 ≠ 81
  rw [deduce_emptyGrid]
  decide

/-! ## Propagation and the solutions of a grid -/

theorem solves_digit (s t : SudokuState) (h : Solves s t) (x y : Nat) (hx : x < 9)
    (hy : y < 9) : 1 ≤ getNum s x y ∧ getNum s x y ≤ 9 := by
  obtain ⟨hv, hc, _⟩ := h
  have := gridCount_full s hc x y hx hy
  exact ⟨by omega, (((isValid_iff s).mp hv).1 x y hx hy).2⟩

/-- The digit of a solution can be placed in an empty cell. -/
theorem solves_placeOK (s t : SudokuState) (h : Solves s t) (x y : Nat) (hx : x < 9)
    (hy : y < 9) (he : getNum t x y ≤ 0) : placeOK t x y (getNum s x y) = true := by
  have hd := solves_digit s t h x y hx hy
  obtain ⟨hv, hc, ha⟩ := h
  obtain ⟨_, hn⟩ := (isValid_iff s).mp hv
  have key : ∀ a b, a < 9 → b < 9 → getNum t a b = getNum s x y →
      (b = y ∨ a = x ∨ (a / 3 = x / 3 ∧ b / 3 = y / 3)) → False := by
    intro a b ha2 hb2 he2 hu
    have h1 : getNum s a b = getNum t a b := ha a b ha2 hb2 (by omega)
    have h2 := hn a b x y ha2 hb2 hx hy (by omega) (by rw [h1, he2]) hu
    rw [h2.1, h2.2] at he2
    omega
  rw [placeOK_iff]
  refine ⟨he, ?_, ?_, ?_⟩
  · intro a ha2 he2
    exact key a y ha2 hy he2 (Or.inl rfl)
  · intro b hb2 he2
    exact key x b hx hb2 he2 (Or.inr (Or.inl rfl))
  · intro a b ha2 hb2 he2
    exact key a b (by omega) (by omega) he2 (Or.inr (Or.inr ⟨ha2, hb2⟩))

/-- The digit of a solution is a candidate after the first part of a pass. -/
theorem solves_cand (s t : SudokuState) (h : Solves s t) (x y : Nat) (hx : x < 9)
    (hy : y < 9) : cand t x y (getNum s x y).toNat = true := by
  have hd := solves_digit s t h x y hx hy
  have hz : (((getNum s x y).toNat : Nat) : Int) = getNum s x y := by omega
  unfold cand
  rw [hz]
  by_cases he : getNum t x y ≤ 0
  · rw [solves_placeOK s t h x y hx hy he]
    simp
    omega
  · have := h.2.2 x y hx hy (by omega)
    simp [this]
    omega

/-- The second part of a pass never clears the digit of a solution. -/
theorem solves_refined (s t : SudokuState) (h : Solves s t) (m : MaybeTable) (x y : Nat)
    (hx : x < 9) (hy : y < 9) :
    eliminate t (fillMaybe t m) x y (getNum s x y).toNat = true := by
  obtain ⟨hr, hn⟩ := (isValid_iff s).mp h.1
  rw [eliminate_eq]
  apply elimList_supported t _ (fun q hq => (mem_cells9 q).mp hq)
    (fun a b z => a < 9 ∧ b < 9 ∧ z = (getNum s a b).toNat)
  · rintro a b z ⟨ha, hb, hz⟩ _
    have hd := solves_digit s t h a b ha hb
    constructor
    · intro k hk hne
      obtain ⟨a2, b2, h1, h2, h3⟩ :=
        box_complete s h.1 h.2.1 (a / 3) k (by omega) hk (getNum s a b) hd.1 hd.2
      refine ⟨a2, b2, h1, h2, ?_, by omega, by omega, by rw [hz, h3]⟩
      intro hax
      have := (hn a2 b2 a b (by omega) (by omega) ha hb (by rw [h3]; exact hd.1) h3
        (Or.inr (Or.inl hax))).2
      omega
    · intro k hk hne
      obtain ⟨a2, b2, h1, h2, h3⟩ :=
        box_complete s h.1 h.2.1 k (b / 3) hk (by omega) (getNum s a b) hd.1 hd.2
      refine ⟨a2, b2, h1, h2, ?_, by omega, by omega, by rw [hz, h3]⟩
      intro hbx
      have := (hn a2 b2 a b (by omega) (by omega) ha hb (by rw [h3]; exact hd.1) h3
        (Or.inl hbx)).1
      omega
  · rintro a b z ⟨ha, hb, hz⟩
    have hd := solves_digit s t h a b ha hb
    rw [fillMaybe_apply, if_pos ⟨ha, hb, by omega⟩, hz]
    exact solves_cand s t h a b ha hb
  · exact ⟨hx, hy, rfl⟩

/-- A pass writes nothing but the digit of the solution. -/
theorem solves_pass (s t : SudokuState) (h : Solves s t) (m : MaybeTable) :
    Solves s (deducePass t m).1 := by
  unfold deducePass
  simp only []
  rw [lone_eq]
  cases hf : (colMajor (List.range 9) (List.range 9)).find?
      (loneTest t (eliminate t (fillMaybe t m))) with
  | none => exact h
  | some q =>
    simp only []
    have hq := (mem_cells9 q).mp (List.mem_of_find?_eq_some hf)
    have ht := List.find?_some hf
    unfold loneTest at ht
    simp only [Bool.and_eq_true, decide_eq_true_eq] at ht
    have hs := loneCount_snd (eliminate t (fillMaybe t m)) q.1 q.2 (by omega)
    have hd := solves_digit s t h q.1 q.2 hq.1 hq.2
    have hone : digits.countP (fun z => eliminate t (fillMaybe t m) q.1 q.2 z) ≤ 1 := by
      rw [← loneCount_fst]
      omega
    rw [countP_le_one_iff _ _ nodup_digits] at hone
    have heq := hone _ hs.1 _ ((mem_digits _).mpr ⟨by omega, by omega⟩) hs.2
      (solves_refined s t h m q.1 q.2 hq.1 hq.2)
    have hagree := h.2.2
    unfold Solves
    refine ⟨h.1, h.2.1, ?_⟩
    intro x y hx hy hne
    rw [getNum_setNum t q.1 q.2 x y _ hq.1 hx] at hne ⊢
    by_cases hxy : x = q.1 ∧ y = q.2
    · rw [if_pos hxy, heq, hxy.1, hxy.2]
      omega
    · rw [if_neg hxy] at hne ⊢
      exact hagree x y hx hy hne

theorem deduceLoop_induct_pass (P : SudokuState → Prop)
    (hpass : ∀ t m, P t → P (deducePass t m).1) (n : Nat) (s : SudokuState)
    (m : MaybeTable) (r : SudokuState × MaybeTable) (hs : P s)
    (h : deduceLoop n s m = some r) : P r.1 := by
  induction n generalizing s m with
  | zero => rw [deduceLoop_zero] at h; exact absurd h (by simp)
  | succ n ih =>
    rw [deduceLoop_succ] at h
    by_cases hd : (deducePass s m).2.2 = true
    · rw [if_pos hd] at h
      have hr := Option.some.inj h
      have h2 := hpass s m hs
      rw [← hr]
      simp only []
      exact h2
    · rw [if_neg hd] at h
      exact ih _ _ (hpass s m hs) h

/-- `deduce` keeps every solution of the grid. -/
theorem solves_deduce (s t : SudokuState) (h : Solves s t) (m : MaybeTable) :
    Solves s (deduce t m).1 :=
  deduceLoop_induct_pass (fun u => Solves s u) (fun u m2 hu => solves_pass s u hu m2) 82 t m _
    h (deduceLoop_eq_some t m)

/-! ## The order of the cells in a pass -/

theorem find?_first {α : Type} (lt : α → α → Prop) (p : α → Bool) (l : List α)
    (hl : l.Pairwise lt) (a : α) (ha : a ∈ l) (hp : p a = true)
    (hb : ∀ b, b ∈ l → lt b a → p b = false) : l.find? p = some a := by
  induction l with
  | nil => exact absurd ha (List.not_mem_nil _)
  | cons c l ih =>
    have hc := List.pairwise_cons.mp hl
    rw [List.find?_cons]
    rcases List.mem_cons.mp ha with h | h
    · rw [← h, hp]
    · rw [hb c (List.mem_cons_self _ _) (hc.1 a h)]
      exact ih hc.2 h (fun b hb2 hlt => hb b (List.mem_cons_of_mem _ hb2) hlt)

theorem cells9_sorted :
    (colMajor (List.range 9) (List.range 9)).Pairwise
      (fun p q : Nat × Nat => p.1 < q.1 ∨ (p.1 = q.1 ∧ p.2 < q.2)) := by
  decide!

/-! ## Termination of `search` -/

theorem openWeight_nil : openWeight [] = 0 := rfl

theorem openWeight_cons (t : SudokuState) (l : List SudokuState) :
    openWeight (t :: l) = weight t + openWeight l := by
  simp [openWeight]

theorem openWeight_mergeBest (l : List SudokuState) (t : SudokuState) :
    openWeight (mergeBest l t) = openWeight l + weight t := by
  induction l with
  | nil => simp [mergeBest, openWeight]
  | cons u l ih =>
    unfold mergeBest
    by_cases h : getValue t ≥ getValue u
    · rw [if_pos h, openWeight_cons, openWeight_cons]
      omega
    · rw [if_neg h, openWeight_cons, openWeight_cons, ih]
      omega

theorem openWeight_merge (strategy : Strategy) (l : List SudokuState) (t : SudokuState) :
    openWeight (merge strategy l t) = openWeight l + weight t := by
  cases strategy
  · show openWeight (t :: l) = _
    rw [openWeight_cons]
    omega
  · show openWeight (l ++ [t]) = _
    simp [openWeight]
  · exact openWeight_mergeBest l t

/-- The child has more cells filled than its parent. -/
theorem gridCount_child (p : SudokuState) (m : MaybeTable) (x y i : Nat) (hx : x < 9)
    (hy : y < 9) (hi : 1 ≤ i) (hok : placeOK p x y i = true) :
    gridCount p < gridCount (deduce (setNum (clone p) x y i) m).1 := by
  have he : getNum (clone p) x y ≤ 0 := by
    rw [getNum_clone p x y hx hy]
    exact placeOK_empty p x y i hok
  have h1 := gridCount_setNum (clone p) x y i hx hy he (by omega)
  have h2 := sameCells_gridCount (sameCells_clone p)
  have h3 := deduce_gridCount (setNum (clone p) x y i) m
  omega

theorem weight_child (state t : SudokuState) (h : Child state t) :
    weight t ≤ 730 ^ (80 - gridCount state) := by
  obtain ⟨x, y, i, m2, v, hx, hy, hi1, _, hp, _, rfl⟩ := h
  have h1 := gridCount_child state m2 x y i hx hy hi1 hp
  unfold weight
  rw [gridCount_setValue]
  exact Nat.pow_le_pow_right (by omega) (by omega)

/-- The children loop for one cell adds at most one child per digit. -/
theorem expandDigits_weight (strategy : Strategy) (rc : Bool) (state : SudokuState)
    (W : Nat) (hW : ∀ t, Child state t → weight t ≤ W)
    (x y c : Nat) (hx : x < 9) (hy : y < 9) (l : List Nat) (hl : ∀ i, i ∈ l → 1 ≤ i ∧ i ≤ 9)
    (g g2 : Globals)
    (h : expandDigits strategy rc state x y c l g = Expansion.finished g2) :
    openWeight g2.OpenList ≤ openWeight g.OpenList + l.length * W := by
  induction l generalizing g with
  | nil =>
    rw [expandDigits_nil] at h
    rw [← Expansion.finished.inj h]
    simp
  | cons i l ih =>
    have hi := hl i (List.mem_cons_self _ _)
    have hl2 : ∀ j, j ∈ l → 1 ≤ j ∧ j ≤ 9 := fun j hj => hl j (List.mem_cons_of_mem _ hj)
    rw [expandDigits_cons] at h
    rw [List.length_cons, Nat.add_mul, Nat.one_mul]
    by_cases hp : placeOK state x y i = true
    · rw [if_pos hp] at h
      by_cases hc : gridCount (deduce (setNum (clone state) x y i) g.Maybe).1 = 81
      · rw [if_pos hc] at h
        exact absurd h (by simp)
      · rw [if_neg hc] at h
        by_cases hr : isRepeat rc g.ClosedList
            (setValue (deduce (setNum (clone state) x y i) g.Maybe).1
              (((gridCount (deduce (setNum (clone state) x y i) g.Maybe).1 : Nat) : Int) * 10
                + (9 - (c : Int)))) = true
        · rw [if_pos hr] at h
          have := ih hl2 _ h
          simp only [] at this
          omega
        · rw [if_neg hr] at h
          have := ih hl2 _ h
          simp only [] at this
          rw [openWeight_merge] at this
          have hw := hW _ ⟨x, y, i, g.Maybe,
            (((gridCount (deduce (setNum (clone state) x y i) g.Maybe).1 : Nat) : Int) * 10
                + (9 - (c : Int))), hx, hy, hi.1, hi.2, hp, hc, rfl⟩
          omega
    · rw [if_neg hp] at h
      have := ih hl2 g h
      omega

theorem expandCells_weight (strategy : Strategy) (rc : Bool) (state : SudokuState)
    (W : Nat) (hW : ∀ t, Child state t → weight t ≤ W)
    (l : List (Nat × Nat)) (hl : ∀ q, q ∈ l → q.1 < 9 ∧ q.2 < 9) (g g2 : Globals)
    (h : expandCells strategy rc state l g = Expansion.finished g2) :
    openWeight g2.OpenList ≤ openWeight g.OpenList + l.length * (9 * W) := by
  induction l generalizing g with
  | nil =>
    rw [expandCells_nil] at h
    rw [← Expansion.finished.inj h]
    simp
  | cons q l ih =>
    have hq := hl q (List.mem_cons_self _ _)
    have hl2 : ∀ p, p ∈ l → p.1 < 9 ∧ p.2 < 9 := fun p hp => hl p (List.mem_cons_of_mem _ hp)
    rw [expandCells_cons] at h
    rw [List.length_cons, Nat.add_mul, Nat.one_mul]
    cases he : expandDigits strategy rc state q.1 q.2 (choiceCount state q.1 q.2) digits g with
    | found child g1 =>
      rw [he] at h
      exact absurd h (by simp)
    | finished g1 =>
      rw [he] at h
      simp only [] at h
      have h1 := expandDigits_weight strategy rc state W hW q.1 q.2 _ hq.1 hq.2 digits
        (fun i hi => (mem_digits i).mp hi) g g1 he
      have h2 := ih hl2 g1 h
      have h9 : digits.length = 9 := by decide
      rw [h9] at h1
      omega

/-- An expansion that runs to its end adds less weight to the open list than the
expanded state has. -/
theorem expand_weight (strategy : Strategy) (rc : Bool) (state : SudokuState)
    (g g2 : Globals) (h : expand strategy rc state g = Expansion.finished g2) :
    openWeight g2.OpenList < openWeight g.OpenList + weight state := by
  unfold expand at h
  have h81 : cells.length = 81 := by decide
  have hle := gridCount_le state
  by_cases h80 : gridCount state ≤ 80
  · have h1 := expandCells_weight strategy rc state (730 ^ (80 - gridCount state))
      (weight_child state) cells (fun q hq => (mem_cells q).mp hq) _ _ h
    rw [h81] at h1
    simp only [] at h1
    have hw : weight state = 730 * 730 ^ (80 - gridCount state) := by
      unfold weight
      have e : 81 - gridCount state = (80 - gridCount state) + 1 := by omega
      rw [e, Nat.pow_succ, Nat.mul_comm]
    have hpos : 0 < 730 ^ (80 - gridCount state) := by positivity
    rw [hw]
    generalize 730 ^ (80 - gridCount state) = W at *
    omega
  · have h1 := expandCells_weight strategy rc state 0
      (by
        rintro t ⟨x, y, i, m2, v, hx, hy, _, _, hp, _, _⟩
        have := gridCount_lt_of_empty state x y hx hy (placeOK_empty state x y i hp)
        omega)
      cells (fun q hq => (mem_cells q).mp hq) _ _ h
    simp only [Nat.mul_zero, Nat.add_zero] at h1
    have hpos : 0 < weight state := by
      unfold weight
      positivity
    omega

/-- The loop of `search` is left when its bound is above the weight of the state
and of the open list. -/
theorem searchLoop_some (strategy : Strategy) (rc : Bool) (n : Nat) (state : SudokuState)
    (g : Globals) (h : weight state + openWeight g.OpenList < n) :
    ∃ res, searchLoop strategy rc n state g = some res := by
  induction n generalizing state g with
  | zero => omega
  | succ n ih =>
    rw [searchLoop_succ]
    cases he : expand strategy rc state g with
    | found child g1 => exact ⟨_, rfl⟩
    | finished g1 =>
      simp only []
      cases ho : g1.OpenList with
      | nil => exact ⟨_, rfl⟩
      | cons nxt rest =>
        simp only []
        apply ih
        have h1 := expand_weight strategy rc state g g1 he
        rw [ho, openWeight_cons] at h1
        show weight nxt + openWeight rest < n
        omega

/-- `search` returns when its loop is given a large enough bound. -/
theorem search_some (strategy : Strategy) (rc : Bool) (g : Globals) :
    ∃ fuel res, search strategy rc fuel g = some res := by
  unfold search
  simp only []
  cases ho : g.OpenList with
  | nil => exact ⟨0, _, rfl⟩
  | cons first rest =>
    simp only []
    by_cases hc : gridCount (deduce first g.Maybe).1 = 81
    · exact ⟨0, _, by rw [if_pos hc]⟩
    · obtain ⟨res, hres⟩ := searchLoop_some strategy rc
        (weight (deduce first g.Maybe).1 + openWeight rest + 1) (deduce first g.Maybe).1
        { g with ExpandCount := 0, OpenList := rest, Maybe := (deduce first g.Maybe).2 }
        (by show _ + openWeight rest < _; omega)
      exact ⟨_, res, by rw [if_neg hc]; exact hres⟩

/-- A larger bound does not change the result of the loop of `search`. -/
theorem searchLoop_mono (strategy : Strategy) (rc : Bool) (n k : Nat) (state : SudokuState)
    (g : Globals) (res : Option SudokuState × Globals)
    (h : searchLoop strategy rc n state g = some res) :
    searchLoop strategy rc (n + k) state g = some res := by
  induction n generalizing state g with
  | zero => rw [searchLoop_zero] at h; exact absurd h (by simp)
  | succ n ih =>
    have e : n + 1 + k = (n + k) + 1 := by omega
    rw [e, searchLoop_succ]
    rw [searchLoop_succ] at h
    cases he : expand strategy rc state g with
    | found child g1 =>
      rw [he] at h
      exact h
    | finished g1 =>
      rw [he] at h
      simp only [] at h ⊢
      cases ho : g1.OpenList with
      | nil =>
        rw [ho] at h
        exact h
      | cons nxt rest =>
        rw [ho] at h
        simp only [] at h ⊢
        exact ih _ _ h

/-- A larger bound does not change the result of `search`. -/
theorem search_mono (strategy : Strategy) (rc : Bool) (n k : Nat) (g : Globals)
    (res : Option SudokuState × Globals) (h : search strategy rc n g = some res) :
    search strategy rc (n + k) g = some res := by
  unfold search at h ⊢
  simp only [] at h ⊢
  cases ho : g.OpenList with
  | nil =>
    rw [ho] at h
    exact h
  | cons first rest =>
    rw [ho] at h
    simp only [] at h ⊢
    by_cases hc : gridCount (deduce first g.Maybe).1 = 81
    · rw [if_pos hc] at h ⊢
      exact h
    · rw [if_neg hc] at h ⊢
      exact searchLoop_mono strategy rc n k _ _ res h

/-! ## Completeness of `search` -/

theorem isRepeat_true (rc : Bool) (l : List SudokuState) (t : SudokuState)
    (h : isRepeat rc l t = true) : rc = true ∧ ∃ u, u ∈ l ∧ SameCells t u := by
  unfold isRepeat at h
  by_cases hrc : rc = false
  · rw [if_pos hrc] at h
    exact absurd h (by simp)
  · rw [if_neg hrc] at h
    obtain ⟨u, hu, hd⟩ := List.any_eq_true.mp h
    refine ⟨by simpa using hrc, u, hu, ?_⟩
    exact (isDuplicate_iff_getNum t u).mp hd

/-- The children loop for one cell, when it runs to its end: the open list keeps its
states, and every child that `placeOK` allows is not complete and is a repeat or is on
the open list. -/
theorem expandDigits_covers (strategy : Strategy) (rc : Bool) (state : SudokuState)
    (x y c : Nat) (l : List Nat) (g g2 : Globals)
    (h : expandDigits strategy rc state x y c l g = Expansion.finished g2) :
    g2.ClosedList = g.ClosedList ∧
    (∀ t, t ∈ g.OpenList → t ∈ g2.OpenList) ∧
    ∀ i, i ∈ l → placeOK state x y i = true → ∀ m,
      gridCount (deduce (setNum (clone state) x y i) m).1 ≠ 81 ∧
      ((rc = true ∧ ∃ u, u ∈ g.ClosedList ∧
          SameCells (deduce (setNum (clone state) x y i) m).1 u) ∨
        ∃ v, setValue (deduce (setNum (clone state) x y i) m).1 v ∈ g2.OpenList) := by
  induction l generalizing g with
  | nil =>
    rw [expandDigits_nil] at h
    rw [← Expansion.finished.inj h]
    exact ⟨rfl, fun t ht => ht, fun i hi => absurd hi (List.not_mem_nil i)⟩
  | cons i l ih =>
    rw [expandDigits_cons] at h
    by_cases hp : placeOK state x y i = true
    · rw [if_pos hp] at h
      by_cases hc : gridCount (deduce (setNum (clone state) x y i) g.Maybe).1 = 81
      · rw [if_pos hc] at h
        exact absurd h (by simp)
      · rw [if_neg hc] at h
        by_cases hr : isRepeat rc g.ClosedList
            (setValue (deduce (setNum (clone state) x y i) g.Maybe).1
              (((gridCount (deduce (setNum (clone state) x y i) g.Maybe).1 : Nat) : Int) * 10
                + (9 - (c : Int)))) = true
        · rw [if_pos hr] at h
          obtain ⟨k0, k1, k2⟩ := ih _ h
          simp only [] at k0 k1 k2
          refine ⟨k0, k1, fun j hj hpj m => ?_⟩
          rcases List.mem_cons.mp hj with rfl | hj
          · rw [deduce_indep _ m g.Maybe]
            obtain ⟨r1, u, hu, hs⟩ := isRepeat_true _ _ _ hr
            exact ⟨hc, Or.inl ⟨r1, u, hu,
              sameCells_trans (sameCells_symm (sameCells_setValue _ _)) hs⟩⟩
          · exact k2 j hj hpj m
        · rw [if_neg hr] at h
          obtain ⟨k0, k1, k2⟩ := ih _ h
          simp only [] at k0 k1 k2
          refine ⟨k0, fun t ht => k1 t ((mem_merge _ _ _ _).mpr (Or.inr ht)),
            fun j hj hpj m => ?_⟩
          rcases List.mem_cons.mp hj with rfl | hj
          · rw [deduce_indep _ m g.Maybe]
            exact ⟨hc, Or.inr ⟨_, k1 _ ((mem_merge _ _ _ _).mpr (Or.inl rfl))⟩⟩
          · exact k2 j hj hpj m
    · rw [if_neg hp] at h
      obtain ⟨k0, k1, k2⟩ := ih _ h
      refine ⟨k0, k1, fun j hj hpj m => ?_⟩
      rcases List.mem_cons.mp hj with rfl | hj
      · exact absurd hpj hp
      · exact k2 j hj hpj m

/-- The expansion loops over the cells `l`, when they run to their end: see
`expandDigits_covers`. -/
theorem expandCells_covers (strategy : Strategy) (rc : Bool) (state : SudokuState)
    (l : List (Nat × Nat)) (g g2 : Globals)
    (h : expandCells strategy rc state l g = Expansion.finished g2) :
    g2.ClosedList = g.ClosedList ∧
    (∀ t, t ∈ g.OpenList → t ∈ g2.OpenList) ∧
    ∀ q, q ∈ l → ∀ i, i ∈ digits → placeOK state q.1 q.2 i = true → ∀ m,
      gridCount (deduce (setNum (clone state) q.1 q.2 i) m).1 ≠ 81 ∧
      ((rc = true ∧ ∃ u, u ∈ g.ClosedList ∧
          SameCells (deduce (setNum (clone state) q.1 q.2 i) m).1 u) ∨
        ∃ v, setValue (deduce (setNum (clone state) q.1 q.2 i) m).1 v ∈ g2.OpenList) := by
  induction l generalizing g with
  | nil =>
    rw [expandCells_nil] at h
    rw [← Expansion.finished.inj h]
    exact ⟨rfl, fun t ht => ht, fun q hq => absurd hq (List.not_mem_nil q)⟩
  | cons p l ih =>
    rw [expandCells_cons] at h
    cases he : expandDigits strategy rc state p.1 p.2 (choiceCount state p.1 p.2) digits g with
    | found child g1 =>
      rw [he] at h
      exact absurd h (by simp)
    | finished g1 =>
      rw [he] at h
      simp only [] at h
      obtain ⟨d0, d1, d2⟩ := expandDigits_covers strategy rc state _ _ _ _ g g1 he
      obtain ⟨c0, c1, c2⟩ := ih g1 h
      refine ⟨by rw [c0, d0], fun t ht => c1 t (d1 t ht), fun q hq i hi hpi m => ?_⟩
      rcases List.mem_cons.mp hq with rfl | hq
      · obtain ⟨e1, e2⟩ := d2 i hi hpi m
        refine ⟨e1, ?_⟩
        rcases e2 with e2 | ⟨v, hv⟩
        · exact Or.inl e2
        · exact Or.inr ⟨v, c1 _ hv⟩
      · have := c2 q hq i hi hpi m
        rw [d0] at this
        exact this

/-- The expansion of a state, when it runs to its end: the open list keeps its
states, and every child that `placeOK` allows is not complete and has the cells of a
state of the closed list (with the repeat check on) or is on the open list. -/
theorem expand_covers (strategy : Strategy) (rc : Bool) (state : SudokuState)
    (g g2 : Globals) (h : expand strategy rc state g = Expansion.finished g2) :
    g2.ClosedList = g.ClosedList ++ [state] ∧
    (∀ t, t ∈ g.OpenList → t ∈ g2.OpenList) ∧
    ∀ (x y i : Nat), x < 9 → y < 9 → 1 ≤ i → i ≤ 9 → placeOK state x y i = true → ∀ m,
      gridCount (deduce (setNum (clone state) x y i) m).1 ≠ 81 ∧
      ((rc = true ∧ ∃ u, u ∈ g.ClosedList ++ [state] ∧
          SameCells (deduce (setNum (clone state) x y i) m).1 u) ∨
        ∃ v, setValue (deduce (setNum (clone state) x y i) m).1 v ∈ g2.OpenList) := by
  unfold expand at h
  obtain ⟨c0, c1, c2⟩ := expandCells_covers strategy rc state cells _ g2 h
  refine ⟨c0, c1, fun x y i hx hy hi1 hi9 hp m => ?_⟩
  exact c2 (x, y) ((mem_cells (x, y)).mpr ⟨hx, hy⟩) i ((mem_digits i).mpr ⟨hi1, hi9⟩) hp m

theorem solves_sameCells (s t u : SudokuState) (h : Solves s t) (hs : SameCells t u) :
    Solves s u := by
  refine ⟨h.1, h.2.1, fun x y hx hy hne => ?_⟩
  rw [← hs x y hx hy] at hne ⊢
  exact h.2.2 x y hx hy hne

/-- The child for the digit of the solution in an empty cell has the same solution. -/
theorem solves_child (s t : SudokuState) (h : Solves s t) (x y : Nat) (hx : x < 9)
    (m : MaybeTable) :
    Solves s (deduce (setNum (clone t) x y (getNum s x y)) m).1 := by
  apply solves_deduce
  refine ⟨h.1, h.2.1, fun a b ha hb hne => ?_⟩
  rw [getNum_setNum _ _ _ _ _ _ hx ha] at hne ⊢
  by_cases hab : a = x ∧ b = y
  · rw [if_pos hab, hab.1, hab.2]
  · rw [if_neg hab] at hne ⊢
    rw [getNum_clone t a b ha hb] at hne ⊢
    exact h.2.2 a b ha hb hne

theorem exists_empty (t : SudokuState) (h : gridCount t < 81) :
    ∃ x y, x < 9 ∧ y < 9 ∧ getNum t x y ≤ 0 := by
  by_contra hn
  push_neg at hn
  have := gridCount_eq_81 t hn
  omega

/-- An expansion that runs to its end keeps the invariant `Ahead`: the open list is
not empty afterwards. -/
theorem ahead_step (strategy : Strategy) (rc : Bool) (s state : SudokuState)
    (g g2 : Globals) (hlt : gridCount state < 81) (ha : Ahead s state g)
    (he : expand strategy rc state g = Expansion.finished g2) :
    ∃ t, t ∈ g2.OpenList ∧ Solves s t ∧
      ∀ u, u ∈ g2.ClosedList → Solves s u → gridCount u < gridCount t := by
  obtain ⟨t, ht, hst, hcl⟩ := ha
  obtain ⟨c0, c1, c2⟩ := expand_covers strategy rc state g g2 he
  by_cases hk : Solves s state ∧ gridCount t ≤ gridCount state
  · obtain ⟨hss, hle⟩ := hk
    obtain ⟨x, y, hx, hy, hem⟩ := exists_empty state hlt
    have hd := solves_digit s state hss x y hx hy
    have hi : (((getNum s x y).toNat : Nat) : Int) = getNum s x y := Int.toNat_of_nonneg (by omega)
    have hp : placeOK state x y ((getNum s x y).toNat : Nat) = true := by
      rw [hi]
      exact solves_placeOK s state hss x y hx hy hem
    have hsc : Solves s (deduce (setNum (clone state) x y ((getNum s x y).toNat : Nat))
        g.Maybe).1 := by
      rw [hi]
      exact solves_child s state hss x y hx g.Maybe
    have hgc := gridCount_child state g.Maybe x y (getNum s x y).toNat hx hy (by omega) hp
    obtain ⟨_, hor⟩ := c2 x y (getNum s x y).toNat hx hy (by omega) (by omega) hp g.Maybe
    rcases hor with ⟨_, u, hu, hsame⟩ | ⟨v, hv⟩
    · exfalso
      have h1 := sameCells_gridCount hsame
      have h2 := solves_sameCells s _ u hsc hsame
      rcases List.mem_append.mp hu with hu | hu
      · have := hcl u hu h2
        omega
      · rw [List.mem_singleton] at hu
        rw [hu] at h1
        omega
    · refine ⟨_, hv, solves_sameCells s _ _ hsc (sameCells_symm (sameCells_setValue _ _)), ?_⟩
      intro u hu hsu
      rw [gridCount_setValue]
      rw [c0] at hu
      rcases List.mem_append.mp hu with hu | hu
      · have := hcl u hu hsu
        omega
      · rw [List.mem_singleton] at hu
        rw [hu]
        exact hgc
  · have hto : t ∈ g.OpenList := by
      rcases List.mem_cons.mp ht with h1 | h1
      · exact absurd ⟨by rw [← h1]; exact hst, by rw [h1]⟩ hk
      · exact h1
    refine ⟨t, c1 t hto, hst, ?_⟩
    intro u hu hsu
    rw [c0] at hu
    rcases List.mem_append.mp hu with hu | hu
    · exact hcl u hu hsu
    · rw [List.mem_singleton] at hu
      rw [hu] at hsu ⊢
      by_contra hn
      exact hk ⟨hsu, by omega⟩

/-- The invariant `Ahead` holds at every head of the loop of `search` for a valid
initial grid that `s` solves. -/
theorem reached_ahead (strategy : Strategy) (rc : Bool) (root s : SudokuState)
    (m : MaybeTable) (hv : isValid root = true) (hs : Solves s root) (state : SudokuState)
    (g : Globals) (h : Reached strategy rc (initialGlobals root m) state g) :
    Ahead s state g := by
  apply reached_induct strategy rc (initialGlobals root m) (fun state g => Ahead s state g)
    _ _ state g h
  · intro first rest ho hc
    simp only [initialGlobals, List.cons.injEq] at ho
    refine ⟨_, List.mem_cons_self _ _, ?_, ?_⟩
    · rw [← ho.1]
      exact solves_deduce s root hs _
    · intro u hu
      exact absurd hu (List.not_mem_nil u)
  · intro state g1 g2 nxt rest hr ha he ho
    have hlt := (reached_pending strategy rc root m hv state g1 hr).1.2
    obtain ⟨t, ht, hst, hcl⟩ := ahead_step strategy rc s state g1 g2 hlt ha he
    rw [ho] at ht
    exact ⟨t, ht, hst, hcl⟩

/-- For a valid initial grid with a solution, `search` does not return `NULL`. -/
theorem search_not_null (strategy : Strategy) (rc : Bool) (fuel : Nat)
    (root s : SudokuState) (m : MaybeTable) (hv : isValid root = true) (hs : Solves s root)
    (res : Option SudokuState × Globals)
    (h : search strategy rc fuel (initialGlobals root m) = some res) :
    ∃ child, res.1 = some child := by
  rcases search_cases strategy rc fuel _ _ h with ⟨h0, _⟩ | ⟨first, rest, _, _, h1⟩ |
      ⟨first, rest, ho, hc, h1⟩
  · simp [initialGlobals] at h0
  · rw [h1]
    exact ⟨_, rfl⟩
  · obtain ⟨state2, g3, hr, hres⟩ := searchLoop_result strategy rc _ _ _ _ _
      (Reached.start first rest ho hc) h1
    rcases hres with ⟨c, hc1, _⟩ | ⟨_, he, hnil⟩
    · exact ⟨c, hc1⟩
    · exfalso
      have hlt := (reached_pending strategy rc root m hv state2 g3 hr).1.2
      obtain ⟨t, ht, _⟩ := ahead_step strategy rc s state2 g3 _ hlt
        (reached_ahead strategy rc root s m hv hs state2 g3 hr) he
      rw [hnil] at ht
      exact absurd ht (List.not_mem_nil t)

/-- For a valid initial grid with a solution, `search` returns a complete valid grid
that agrees with the initial grid where that is not empty. -/
theorem search_solves (strategy : Strategy) (rc : Bool) (root s : SudokuState)
    (m : MaybeTable) (hv : isValid root = true) (hs : Solves s root) :
    ∃ fuel child g2,
      (∀ n, fuel ≤ n → search strategy rc n (initialGlobals root m) = some (some child, g2)) ∧
      gridCount child = 81 ∧ Extends root child := by
  obtain ⟨fuel, res, h⟩ := search_some strategy rc (initialGlobals root m)
  obtain ⟨child, hc⟩ := search_not_null strategy rc fuel root s m hv hs res h
  have hres : res = (some child, res.2) := by
    rw [← hc]
  rw [hres] at h
  refine ⟨fuel, child, res.2, fun n hn => ?_, search_found_extends strategy rc fuel root m hv
    child res.2 h⟩
  have e : n = fuel + (n - fuel) := by omega
  rw [e]
  exact search_mono strategy rc fuel (n - fuel) _ _ h

/-- A state that `search` returns is returned from an expansion, so the counter is
not 0, unless propagation alone completes the front of the open list. -/
theorem search_expandCount_pos (strategy : Strategy) (rc : Bool) (fuel : Nat) (g : Globals)
    (child : SudokuState) (g2 : Globals)
    (h : search strategy rc fuel g = some (some child, g2))
    (hne : ∀ first rest, g.OpenList = first :: rest →
      gridCount (deduce first g.Maybe).1 ≠ 81) : 0 < g2.ExpandCount := by
  rcases search_cases strategy rc fuel _ _ h with ⟨_, h1⟩ | ⟨first, rest, ho, hc, _⟩ |
      ⟨first, rest, ho, hc, h1⟩
  · simp at h1
  · exact absurd hc (hne first rest ho)
  · obtain ⟨state2, g3, hr, hres⟩ := searchLoop_result strategy rc _ _ _ _ _
      (Reached.start first rest ho hc) h1
    rcases hres with ⟨c, _, hc2⟩ | ⟨hn, _, _⟩
    · have := ((expand_spec strategy rc state2 (fun _ => True)
        (fun _ _ _ _ => trivial) g3 trivial).1 _ _ hc2).2.2
      simp only [] at this
      omega
    · simp at hn

/-! ## A pass of `deduce` with cleared entries -/

/-- The table after the second part of a pass has no entry outside `cand`. -/
theorem refined_le_cand (s : SudokuState) (m : MaybeTable) (a b c : Nat) (ha : a < 9)
    (hb : b < 9) (hc : c < 10) (h : eliminate s (fillMaybe s m) a b c = true) :
    cand s a b c = true := by
  rw [eliminate_eq] at h
  have := elimList_mono s _ (fun q hq => (mem_cells9 q).mp hq) _ a b c h
  rw [fillMaybe_apply, if_pos ⟨ha, hb, hc⟩] at this
  exact this

theorem candX_cand (s : SudokuState) (ex : List (Nat × Nat × Nat)) (a b c : Nat)
    (h : candX s ex a b c = true) : cand s a b c = true := by
  unfold candX at h
  simp only [Bool.and_eq_true] at h
  exact h.1

/-- On a grid that passes `supportedX`, the second part of a pass keeps the entries of
`candX`. -/
theorem refined_of_supportedX (s : SudokuState) (ex : List (Nat × Nat × Nat))
    (m : MaybeTable) (h : supportedX s ex = true) (x y z : Nat) (hx : x < 9) (hy : y < 9)
    (hz : z < 10) (hc : candX s ex x y z = true) :
    eliminate s (fillMaybe s m) x y z = true := by
  have hsup : ∀ x y z, (x < 9 ∧ y < 9 ∧ z < 10 ∧ candX s ex x y z = true) → getNum s x y ≤ 0 →
      (∀ k, k < 3 → k ≠ y / 3 → ∃ a b, a / 3 = x / 3 ∧ b / 3 = k ∧ a ≠ x ∧
        (a < 9 ∧ b < 9 ∧ z < 10 ∧ candX s ex a b z = true)) ∧
      (∀ k, k < 3 → k ≠ x / 3 → ∃ a b, a / 3 = k ∧ b / 3 = y / 3 ∧ b ≠ y ∧
        (a < 9 ∧ b < 9 ∧ z < 10 ∧ candX s ex a b z = true)) := by
    rintro x y z ⟨hx, hy, hz, hc⟩ he
    unfold supportedX at h
    simp only [List.all_eq_true, List.mem_range, Bool.or_eq_true, decide_eq_true_eq] at h
    have h1 := h x hx y hy
    rcases h1 with h1 | h1
    · omega
    · have h2 := h1 z ((mem_digits z).mpr ⟨cand_digit s x y z (candX_cand s ex x y z hc),
        by omega⟩)
      rw [hc] at h2
      have h2 : supportOKX s ex x y z = true := by simpa using h2
      unfold supportOKX at h2
      simp only [List.all_eq_true, List.mem_range, Bool.and_eq_true, Bool.or_eq_true,
        decide_eq_true_eq, boxAny_iff] at h2
      constructor
      · intro k hk hne
        rcases (h2 k hk).1 with h3 | ⟨a, b, h3, h4, h5, h6⟩
        · exact absurd h3 hne
        · exact ⟨a, b, h3, h4, h5, by omega, by omega, hz, h6⟩
      · intro k hk hne
        rcases (h2 k hk).2 with h3 | ⟨a, b, h3, h4, h5, h6⟩
        · exact absurd h3 hne
        · exact ⟨a, b, h3, h4, h5, by omega, by omega, hz, h6⟩
  rw [eliminate_eq]
  apply elimList_supported s _ (fun q hq => (mem_cells9 q).mp hq)
    (fun x y z => x < 9 ∧ y < 9 ∧ z < 10 ∧ candX s ex x y z = true) hsup
  · rintro a b c ⟨ha, hb, hc2, hcc⟩
    rw [fillMaybe_apply, if_pos ⟨ha, hb, hc2⟩]
    exact candX_cand s ex a b c hcc
  · exact ⟨hx, hy, hz, hc⟩

/-- A pass that `stepCert` certifies writes the digit to the cell and clears `done`. -/
theorem stepCert_sound (s : SudokuState) (ex : List (Nat × Nat × Nat)) (x y z : Nat)
    (m : MaybeTable) (h : stepCert s ex x y z = true) :
    (deducePass s m).1 = setNum s x y z ∧ (deducePass s m).2.2 = false := by
  unfold stepCert at h
  simp only [Bool.and_eq_true, decide_eq_true_eq, List.all_eq_true, Bool.or_eq_true,
    Bool.not_eq_true', decide_eq_false_iff_not] at h
  obtain ⟨⟨⟨⟨⟨⟨hx, hy⟩, hsup⟩, hlone⟩, hz⟩, hbefore⟩, hex⟩ := h
  -- up to the cell `(x, y)` the refined table has the entries of `cand`
  have hsame : ∀ a b, a < 9 → b < 9 → ¬ (x < a ∨ (x = a ∧ y < b)) →
      ∀ c, c ∈ digits → eliminate s (fillMaybe s m) a b c = cand s a b c := by
    intro a b ha hb hle c hc
    have hc9 := (mem_digits c).mp hc
    cases hcc : cand s a b c
    · by_contra hne
      have ht : eliminate s (fillMaybe s m) a b c = true := by simpa using hne
      have := refined_le_cand s m a b c ha hb (by omega) ht
      rw [hcc] at this
      exact absurd this (by simp)
    · apply refined_of_supportedX s ex m hsup a b c ha hb (by omega)
      unfold candX
      rw [hcc]
      simp only [Bool.true_and, Bool.not_eq_true', decide_eq_false_iff_not]
      intro hmem
      exact hle (hex (a, b, c) hmem)
  have htest : ∀ a b, a < 9 → b < 9 → ¬ (x < a ∨ (x = a ∧ y < b)) →
      loneCount (eliminate s (fillMaybe s m)) a b = loneCount (cand s) a b :=
    fun a b ha hb hle => loneCount_congr _ _ a b (hsame a b ha hb hle)
  have hxy := htest x y hx hy (by omega)
  have hfind : (colMajor (List.range 9) (List.range 9)).find?
      (loneTest s (eliminate s (fillMaybe s m))) = some (x, y) := by
    apply find?_first (fun p q : Nat × Nat => p.1 < q.1 ∨ (p.1 = q.1 ∧ p.2 < q.2)) _ _
      cells9_sorted (x, y) ((mem_cells9 (x, y)).mpr ⟨hx, hy⟩)
    · unfold loneTest at hlone ⊢
      simp only [] at hlone ⊢
      rw [hxy]
      exact hlone
    · intro q hq hlt
      have hq9 := (mem_cells9 q).mp hq
      have h1 := hbefore q hq
      rcases h1 with h1 | h1
      · exact absurd hlt h1
      · unfold loneTest at h1 ⊢
        rw [htest q.1 q.2 hq9.1 hq9.2 (by omega)]
        exact h1
  unfold deducePass
  simp only []
  rw [lone_eq, hfind]
  simp only []
  rw [hxy, hz]
  exact ⟨rfl, trivial⟩

/-- After a pass that does not end the loop, `deduce` goes on as on the state that
the pass left. -/
theorem deduce_step (s : SudokuState) (m m2 : MaybeTable)
    (h : (deducePass s m).2.2 = false) :
    (deduce s m).1 = (deduce (deducePass s m).1 m2).1 := by
  have h1 := deduceLoop_eq_some s m
  rw [deduceLoop_succ, if_neg (by rw [h]; simp)] at h1
  have h2 := deduceLoop_eq_some (deducePass s m).1 (deducePass s m).2.1
  have := deduceLoop_unique _ _ _ _ _ _ h1 h2
  rw [this]
  exact deduce_indep _ _ _

/-- What `deduce` leaves after a pass that `stepCert` certifies and passes that
`deduceCert` certifies. -/
theorem stepCert_deduce (s : SudokuState) (ex : List (Nat × Nat × Nat)) (x y z : Nat)
    (cert : List (Nat × Nat × Nat)) (m : MaybeTable) (h : stepCert s ex x y z = true)
    (hc : deduceCert (setNum s x y z) cert = true) :
    (deduce s m).1 = placeAll (setNum s x y z) cert := by
  obtain ⟨h1, h2⟩ := stepCert_sound s ex x y z m h
  rw [deduce_step s m m h2, h1]
  exact deduceCert_sound cert _ m hc

theorem deadGrid_valid : isValid deadGrid = true := by decide

theorem deadGrid_deduce (m : MaybeTable) : (deduce deadGrid m).1 = deadGrid :=
  deduceCert_sound [] deadGrid m (by decide!)

theorem deadGrid_child1 (m : MaybeTable) :
    (deduce (setNum deadGrid 3 0 6) m).1
      = placeAll (setNum (setNum deadGrid 3 0 6) 3 3 7) [(4, 0, 7), (4, 3, 6)] :=
  stepCert_deduce (setNum deadGrid 3 0 6) [(4, 3, 7)] 3 3 7 [(4, 0, 7), (4, 3, 6)] m
    (by decide!) (by decide!)

theorem deadGrid_child2 (m : MaybeTable) :
    (deduce (setNum deadGrid 3 3 7) m).1
      = placeAll (setNum (setNum deadGrid 3 3 7) 3 0 6) [(4, 0, 7), (4, 3, 6)] :=
  stepCert_deduce (setNum deadGrid 3 3 7) [(4, 0, 6)] 3 0 6 [(4, 0, 7), (4, 3, 6)] m
    (by decide!) (by decide!)

theorem deadGrid_dup1 :
    isDuplicate (placeAll (setNum (setNum deadGrid 3 0 6) 3 3 7) [(4, 0, 7), (4, 3, 6)])
      deadChild = true := by decide

theorem deadGrid_dup2 :
    isDuplicate (placeAll (setNum (setNum deadGrid 3 3 7) 3 0 6) [(4, 0, 7), (4, 3, 6)])
      deadChild = true := by decide

/-! ## States that are expanded twice -/

theorem countP_mergeBest (p : SudokuState → Bool) (l : List SudokuState) (t : SudokuState) :
    (mergeBest l t).countP p = l.countP p + (if p t = true then 1 else 0) := by
  induction l with
  | nil => simp [mergeBest, List.countP_cons]
  | cons u l ih =>
    unfold mergeBest
    by_cases h : getValue t ≥ getValue u
    · rw [if_pos h, List.countP_cons]
    · rw [if_neg h, List.countP_cons, List.countP_cons, ih]
      omega

theorem countP_merge (p : SudokuState → Bool) (strategy : Strategy) (l : List SudokuState)
    (t : SudokuState) :
    (merge strategy l t).countP p = l.countP p + (if p t = true then 1 else 0) := by
  cases strategy with
  | DEPTH =>
    show (t :: l).countP p = _
    rw [List.countP_cons]
  | BREADTH =>
    show (l ++ [t]).countP p = _
    rw [List.countP_append, List.countP_cons, List.countP_nil]
    omega
  | BEST => exact countP_mergeBest p l t

theorem expandDigits_countP_mono (strategy : Strategy) (rc : Bool) (state : SudokuState)
    (p : SudokuState → Bool) (x y c : Nat) (hx : x < 9) (hy : y < 9) (l : List Nat)
    (hl : ∀ i, i ∈ l → 1 ≤ i ∧ i ≤ 9) (g g2 : Globals)
    (h : expandDigits strategy rc state x y c l g = Expansion.finished g2) :
    g.OpenList.countP p ≤ g2.OpenList.countP p ∧ g2.ClosedList = g.ClosedList := by
  have := (expandDigits_spec strategy rc state x y c hx hy
    (fun l => g.OpenList.countP p ≤ l.countP p)
    (fun l t hl _ => by
      have hl2 : g.OpenList.countP p ≤ l.countP p := hl
      show g.OpenList.countP p ≤ (merge strategy l t).countP p
      rw [countP_merge]
      omega) l hl g (le_refl _)).2 g2 h
  exact ⟨this.1, this.2.1⟩

theorem expandCells_countP_mono (strategy : Strategy) (rc : Bool) (state : SudokuState)
    (p : SudokuState → Bool) (l : List (Nat × Nat)) (hl : ∀ q, q ∈ l → q.1 < 9 ∧ q.2 < 9)
    (g g2 : Globals) (h : expandCells strategy rc state l g = Expansion.finished g2) :
    g.OpenList.countP p ≤ g2.OpenList.countP p ∧ g2.ClosedList = g.ClosedList := by
  have := (expandCells_spec strategy rc state
    (fun l => g.OpenList.countP p ≤ l.countP p)
    (fun l t hl _ => by
      have hl2 : g.OpenList.countP p ≤ l.countP p := hl
      show g.OpenList.countP p ≤ (merge strategy l t).countP p
      rw [countP_merge]
      omega) l hl g (le_refl _)).2 g2 h
  exact ⟨this.1, this.2.1⟩

theorem expand_countP_mono (strategy : Strategy) (rc : Bool) (state : SudokuState)
    (p : SudokuState → Bool) (g g2 : Globals)
    (h : expand strategy rc state g = Expansion.finished g2) :
    g.OpenList.countP p ≤ g2.OpenList.countP p :=
  ((expand_spec strategy rc state (fun l => g.OpenList.countP p ≤ l.countP p)
    (fun l t hl _ => by
      have hl2 : g.OpenList.countP p ≤ l.countP p := hl
      show g.OpenList.countP p ≤ (merge strategy l t).countP p
      rw [countP_merge]
      omega) g (le_refl _)).2 g2 h).1

/-- A child of `state` is no repeat when no state of the closed list has more cells
filled than `state`. -/
theorem child_not_repeat (rc : Bool) (state : SudokuState) (closed : List SudokuState)
    (hcl : ∀ u, u ∈ closed → gridCount u ≤ gridCount state) (x y i : Nat) (hx : x < 9)
    (hy : y < 9) (hi : 1 ≤ i) (hok : placeOK state x y i = true) (m : MaybeTable) (v : Int) :
    ¬ isRepeat rc closed (setValue (deduce (setNum (clone state) x y i) m).1 v) = true := by
  intro h
  obtain ⟨_, u, hu, hs⟩ := isRepeat_true rc closed _ h
  have h1 := sameCells_gridCount hs
  rw [gridCount_setValue] at h1
  have h2 := gridCount_child state m x y i hx hy hi hok
  have h3 := hcl u hu
  omega

/-- The children loop for one cell, when it runs to its end, puts the child for the
digit `i0` on the open list. -/
theorem expandDigits_countP_add (strategy : Strategy) (rc : Bool) (state : SudokuState)
    (p : SudokuState → Bool) (hp : ∀ t v, p (setValue t v) = p t) (x y c : Nat) (hx : x < 9)
    (hy : y < 9) (i0 : Nat) (hok : placeOK state x y i0 = true)
    (hpc : ∀ m, p (deduce (setNum (clone state) x y i0) m).1 = true)
    (l : List Nat) (hl : ∀ i, i ∈ l → 1 ≤ i ∧ i ≤ 9) (hi0 : i0 ∈ l) (g g2 : Globals)
    (h : expandDigits strategy rc state x y c l g = Expansion.finished g2)
    (hcl : ∀ u, u ∈ g.ClosedList → gridCount u ≤ gridCount state) :
    g.OpenList.countP p + 1 ≤ g2.OpenList.countP p := by
  induction l generalizing g with
  | nil => exact absurd hi0 (List.not_mem_nil _)
  | cons i l ih =>
    have hi := hl i (List.mem_cons_self _ _)
    have hl2 : ∀ j, j ∈ l → 1 ≤ j ∧ j ≤ 9 := fun j hj => hl j (List.mem_cons_of_mem _ hj)
    rw [expandDigits_cons] at h
    by_cases hp1 : placeOK state x y i = true
    · rw [if_pos hp1] at h
      by_cases hc : gridCount (deduce (setNum (clone state) x y i) g.Maybe).1 = 81
      · rw [if_pos hc] at h
        exact absurd h (by simp)
      · rw [if_neg hc, if_neg (child_not_repeat rc state g.ClosedList hcl x y i hx hy hi.1 hp1
          g.Maybe _)] at h
        by_cases hii : i = i0
        · have hm := (expandDigits_countP_mono strategy rc state p x y c hx hy l hl2 _ g2 h).1
          simp only [] at hm
          rw [countP_merge, hp, hii, hpc, if_pos rfl] at hm
          exact hm
        · have hm := ih hl2 ((List.mem_cons.mp hi0).resolve_left (fun e => hii e.symm)) _ h hcl
          simp only [] at hm
          rw [countP_merge] at hm
          omega
    · rw [if_neg hp1] at h
      have hii : i ≠ i0 := by
        intro e
        rw [e] at hp1
        exact hp1 hok
      exact ih hl2 ((List.mem_cons.mp hi0).resolve_left (fun e => hii e.symm)) g h hcl

/-- The expansion loops over the cells `l`, when they run to their end, put the child
for the cell `(x, y)` of `l` and the digit `i0` on the open list. -/
theorem expandCells_countP_add (strategy : Strategy) (rc : Bool) (state : SudokuState)
    (p : SudokuState → Bool) (hp : ∀ t v, p (setValue t v) = p t) (x y : Nat) (i0 : Nat)
    (hi1 : 1 ≤ i0) (hi9 : i0 ≤ 9) (hok : placeOK state x y i0 = true)
    (hpc : ∀ m, p (deduce (setNum (clone state) x y i0) m).1 = true)
    (l : List (Nat × Nat)) (hl : ∀ q, q ∈ l → q.1 < 9 ∧ q.2 < 9) (hq0 : (x, y) ∈ l)
    (g g2 : Globals) (h : expandCells strategy rc state l g = Expansion.finished g2)
    (hcl : ∀ u, u ∈ g.ClosedList → gridCount u ≤ gridCount state) :
    g.OpenList.countP p + 1 ≤ g2.OpenList.countP p := by
  induction l generalizing g with
  | nil => exact absurd hq0 (List.not_mem_nil _)
  | cons q l ih =>
    have hq := hl q (List.mem_cons_self _ _)
    have hl2 : ∀ r, r ∈ l → r.1 < 9 ∧ r.2 < 9 := fun r hr => hl r (List.mem_cons_of_mem _ hr)
    rw [expandCells_cons] at h
    cases he : expandDigits strategy rc state q.1 q.2 (choiceCount state q.1 q.2) digits g with
    | found child g1 =>
      rw [he] at h
      exact absurd h (by simp)
    | finished g1 =>
      rw [he] at h
      simp only [] at h
      have hd := expandDigits_countP_mono strategy rc state p q.1 q.2 _ hq.1 hq.2 digits
        (fun i hi => (mem_digits i).mp hi) g g1 he
      by_cases hqq : q = (x, y)
      · rw [hqq] at he hq
        have h1 := expandDigits_countP_add strategy rc state p hp x y _ hq.1 hq.2 i0 hok hpc
          digits (fun i hi => (mem_digits i).mp hi) ((mem_digits i0).mpr ⟨hi1, hi9⟩) g g1 he hcl
        have h2 := (expandCells_countP_mono strategy rc state p l hl2 g1 g2 h).1
        omega
      · have h1 := ih hl2 ((List.mem_cons.mp hq0).resolve_left (fun e => hqq e.symm)) g1 h
          (by rw [hd.2]; exact hcl)
        omega

theorem expandCells_append (strategy : Strategy) (rc : Bool) (state : SudokuState)
    (l1 l2 : List (Nat × Nat)) (g g2 : Globals)
    (h : expandCells strategy rc state (l1 ++ l2) g = Expansion.finished g2) :
    ∃ g1, expandCells strategy rc state l1 g = Expansion.finished g1 ∧
      expandCells strategy rc state l2 g1 = Expansion.finished g2 := by
  induction l1 generalizing g with
  | nil => exact ⟨g, expandCells_nil _ _ _ _, h⟩
  | cons q l ih =>
    rw [List.cons_append, expandCells_cons] at h
    rw [expandCells_cons]
    cases he : expandDigits strategy rc state q.1 q.2 (choiceCount state q.1 q.2) digits g with
    | found child g1 =>
      rw [he] at h
      exact absurd h (by simp)
    | finished g1 =>
      rw [he] at h
      simp only [] at h ⊢
      exact ih g1 h

/-- The expansion of a state, when it runs to its end, puts the children for two
different cells on the open list. -/
theorem expand_countP_two (strategy : Strategy) (rc : Bool) (state : SudokuState)
    (p : SudokuState → Bool) (hp : ∀ t v, p (setValue t v) = p t) (k : Nat)
    (x1 y1 i1 x2 y2 i2 : Nat) (h1 : (x1, y1) ∈ cells.take k) (h2 : (x2, y2) ∈ cells.drop k)
    (hi1 : 1 ≤ i1 ∧ i1 ≤ 9) (hi2 : 1 ≤ i2 ∧ i2 ≤ 9)
    (hok1 : placeOK state x1 y1 i1 = true) (hok2 : placeOK state x2 y2 i2 = true)
    (hpc1 : ∀ m, p (deduce (setNum (clone state) x1 y1 i1) m).1 = true)
    (hpc2 : ∀ m, p (deduce (setNum (clone state) x2 y2 i2) m).1 = true)
    (g g2 : Globals) (h : expand strategy rc state g = Expansion.finished g2)
    (hcl : ∀ u, u ∈ g.ClosedList → gridCount u ≤ gridCount state) :
    g.OpenList.countP p + 2 ≤ g2.OpenList.countP p := by
  unfold expand at h
  rw [← List.take_append_drop k cells] at h
  obtain ⟨g1, ha, hb⟩ := expandCells_append strategy rc state _ _ _ g2 h
  have hla : ∀ q, q ∈ cells.take k → q.1 < 9 ∧ q.2 < 9 :=
    fun q hq => (mem_cells q).mp (List.mem_of_mem_take hq)
  have hlb : ∀ q, q ∈ cells.drop k → q.1 < 9 ∧ q.2 < 9 :=
    fun q hq => (mem_cells q).mp (List.mem_of_mem_drop hq)
  have hcl2 : ∀ u, u ∈ g.ClosedList ++ [state] → gridCount u ≤ gridCount state := by
    intro u hu
    rcases List.mem_append.mp hu with hu | hu
    · exact hcl u hu
    · rw [List.mem_singleton] at hu
      rw [hu]
  have hm := expandCells_countP_mono strategy rc state p _ hla _ g1 ha
  have a1 := expandCells_countP_add strategy rc state p hp x1 y1 i1 hi1.1 hi1.2 hok1 hpc1 _
    hla h1 _ g1 ha hcl2
  have a2 := expandCells_countP_add strategy rc state p hp x2 y2 i2 hi2.1 hi2.2 hok2 hpc2 _
    hlb h2 g1 g2 hb (by rw [hm.2]; exact hcl2)
  simp only [] at a1
  omega

/-- When the expansion of the propagated initial grid puts two states with `p` on the
open list, then from the second head of the loop on two states with `p` are on the
closed list, current, or on the open list. -/
theorem reached_countP_two (strategy : Strategy) (rc : Bool) (root : SudokuState)
    (m : MaybeTable) (p : SudokuState → Bool)
    (hfirst : ∀ g g2, g.ClosedList = [] →
      expand strategy rc (deduce root m).1 g = Expansion.finished g2 →
      2 ≤ g2.OpenList.countP p)
    (state : SudokuState) (g : Globals)
    (h : Reached strategy rc (initialGlobals root m) state g) :
    (g.ClosedList = [] ∧ state = (deduce root m).1) ∨
      2 ≤ (g.ClosedList ++ state :: g.OpenList).countP p := by
  apply reached_induct strategy rc (initialGlobals root m)
    (fun state g => (g.ClosedList = [] ∧ state = (deduce root m).1) ∨
      2 ≤ (g.ClosedList ++ state :: g.OpenList).countP p) _ _ state g h
  · intro first rest ho _
    simp only [initialGlobals, List.cons.injEq] at ho
    left
    rw [← ho.1]
    exact ⟨rfl, rfl⟩
  · intro state g1 g2 nxt rest _ hP he ho
    right
    have hc := ((expand_spec strategy rc state (fun _ => True) (fun _ _ _ _ => trivial) g1
      trivial).2 g2 he).2.1
    have hm := expand_countP_mono strategy rc state p g1 g2 he
    show 2 ≤ (g2.ClosedList ++ nxt :: rest).countP p
    rw [← ho, hc]
    rcases hP with ⟨h1, h2⟩ | hP
    · have := hfirst g1 g2 h1 (by rw [← h2]; exact he)
      rw [List.countP_append]
      omega
    · rw [List.countP_append, List.countP_cons] at hP
      rw [List.countP_append, List.countP_append, List.countP_cons, List.countP_nil]
      omega

/-- Two entries of a list with `p`, when `p` holds for two or more entries. -/
theorem countP_two {α : Type} (p : α → Bool) (l : List α) (h : 2 ≤ l.countP p) :
    ∃ (i j : Nat) (u v : α), i < j ∧ l[i]? = some u ∧ l[j]? = some v ∧ p u = true ∧
      p v = true := by
  induction l with
  | nil => simp at h
  | cons a l ih =>
    rw [List.countP_cons] at h
    by_cases pa : p a = true
    · rw [if_pos pa] at h
      have h1 : 0 < l.countP p := by omega
      obtain ⟨v, hv, pv⟩ := List.countP_pos_iff.mp h1
      obtain ⟨n, hn⟩ := List.mem_iff_getElem?.mp hv
      exact ⟨0, n + 1, a, v, by omega, List.getElem?_cons_zero, by rw [List.getElem?_cons_succ]; exact hn, pa, pv⟩
    · rw [if_neg pa] at h
      obtain ⟨i, j, u, v, hij, hi, hj, pu, pv⟩ := ih (by omega)
      exact ⟨i + 1, j + 1, u, v, by omega, by rw [List.getElem?_cons_succ]; exact hi,
        by rw [List.getElem?_cons_succ]; exact hj, pu, pv⟩

theorem state_ext (a b : SudokuState) (hg : a.grid = b.grid) (hv : a.value = b.value) :
    a = b := by
  cases a
  cases b
  simp only [SudokuState.mk.injEq]
  exact ⟨hg, hv⟩

theorem deadGrid_clone : clone deadGrid = deadGrid := by
  apply state_ext
  · funext i
    rw [clone_grid]
    by_cases hi : i < 81
    · rw [if_pos hi]
    · rw [if_neg hi]
      show (0 : Int) = List.getD _ i 0
      rw [List.getD_eq_default]
      simp only [List.length_cons, List.length_nil]
      omega
  · exact clone_value deadGrid

/-- No digit can be written to the cell `(0, 0)` of `deadGrid`. -/
theorem deadGrid_dead (v : Int) (h1 : 1 ≤ v) (h9 : v ≤ 9) : placeOK deadGrid 0 0 v = false := by
  interval_cases v <;> decide

/-- On `deadGrid`, `search` returns `NULL`, under every strategy and with the repeat
check on or off, and two states with the cells of `deadChild` are on the closed list
then. -/
theorem deadGrid_search (strategy : Strategy) (rc : Bool) :
    ∃ fuel g2, search strategy rc fuel (initialGlobals deadGrid noMaybe) = some (none, g2) ∧
      2 ≤ g2.ClosedList.countP (fun t => isDuplicate t deadChild) := by
  obtain ⟨fuel, res, h⟩ := search_some strategy rc (initialGlobals deadGrid noMaybe)
  have hnone : res.1 = none := by
    cases hr : res.1 with
    | none => rfl
    | some child =>
      exfalso
      have hres : res = (some child, res.2) := by rw [← hr]
      rw [hres] at h
      obtain ⟨h81, hext⟩ := search_found_extends strategy rc fuel deadGrid noMaybe
        deadGrid_valid child res.2 h
      have hs : Solves child deadGrid := ⟨hext.1, h81, hext.2⟩
      have hd := solves_digit child deadGrid hs 0 0 (by decide) (by decide)
      have hp := solves_placeOK child deadGrid hs 0 0 (by decide) (by decide) (by decide)
      rw [deadGrid_dead _ hd.1 hd.2] at hp
      exact absurd hp (by simp)
  refine ⟨fuel, res.2, by rw [← hnone]; exact h, ?_⟩
  rcases search_cases strategy rc fuel _ _ h with ⟨h0, _⟩ | ⟨first, rest, _, _, h1⟩ |
      ⟨first, rest, ho, hc, h1⟩
  · simp [initialGlobals] at h0
  · rw [h1] at hnone
    simp at hnone
  · obtain ⟨state2, g3, hr, hres⟩ := searchLoop_result strategy rc _ _ _ _ _
      (Reached.start first rest ho hc) h1
    rcases hres with ⟨c, hc1, _⟩ | ⟨_, he, hnil⟩
    · rw [hnone] at hc1
      simp at hc1
    · have hfirst : ∀ g g2, g.ClosedList = [] →
          expand strategy rc (deduce deadGrid noMaybe).1 g = Expansion.finished g2 →
          2 ≤ g2.OpenList.countP (fun t => isDuplicate t deadChild) := by
        intro g g2 hcl hex
        rw [deadGrid_deduce] at hex
        have := expand_countP_two strategy rc deadGrid (fun t => isDuplicate t deadChild)
          (fun _ _ => rfl) 4 3 0 6 3 3 7 (by decide) (by decide) (by decide) (by decide)
          (by decide) (by decide)
          (by
            intro m
            rw [deadGrid_clone]
            show isDuplicate (deduce (setNum deadGrid 3 0 6) m).1 deadChild = true
            rw [deadGrid_child1]
            exact deadGrid_dup1)
          (by
            intro m
            rw [deadGrid_clone]
            show isDuplicate (deduce (setNum deadGrid 3 3 7) m).1 deadChild = true
            rw [deadGrid_child2]
            exact deadGrid_dup2)
          g g2 hex (by rw [hcl]; intro u hu; exact absurd hu (List.not_mem_nil u))
        omega
      have hinv := reached_countP_two strategy rc deadGrid noMaybe
        (fun t => isDuplicate t deadChild) hfirst state2 g3 hr
      have hc2 := ((expand_spec strategy rc state2 (fun _ => True) (fun _ _ _ _ => trivial) g3
        trivial).2 res.2 he).2.1
      have hm := expand_countP_mono strategy rc state2 (fun t => isDuplicate t deadChild)
        g3 res.2 he
      rw [hnil, List.countP_nil] at hm
      rw [hc2]
      rcases hinv with ⟨h1, h2⟩ | hinv
      · have := hfirst g3 res.2 h1 (by rw [← h2]; exact he)
        rw [hnil, List.countP_nil] at this
        omega
      · rw [List.countP_append, List.countP_cons] at hinv
        rw [List.countP_append, List.countP_cons, List.countP_nil]
        omega

/-! ## The claims -/

/-- C3. `isValid` returns true iff every one of the 81 cells holds a value in
`[0, 9]` and, for every digit `d` in `1 .. 9`, no row, no column and no 3x3 box holds
`d` in two different cells; and a grid with the same non-zero number in two different
cells of one row makes `isValid` return false. -/
theorem isValid_spec (s : SudokuState) :
    (isValid s = true ↔
      (∀ x y, x < 9 → y < 9 → 0 ≤ getNum s x y ∧ getNum s x y ≤ 9) ∧
      (∀ d : Nat, 1 ≤ d → d ≤ 9 →
        (∀ y x1 x2, y < 9 → x1 < 9 → x2 < 9 →
          getNum s x1 y = d → getNum s x2 y = d → x1 = x2) ∧
        (∀ x y1 y2, x < 9 → y1 < 9 → y2 < 9 →
          getNum s x y1 = d → getNum s x y2 = d → y1 = y2) ∧
        (∀ x1 y1 x2 y2, x1 < 9 → y1 < 9 → x2 < 9 → y2 < 9 →
          x1 / 3 = x2 / 3 → y1 / 3 = y2 / 3 →
          getNum s x1 y1 = d → getNum s x2 y2 = d → x1 = x2 ∧ y1 = y2))) ∧
    (∀ x1 x2 y, x1 < 9 → x2 < 9 → y < 9 → x1 ≠ x2 → getNum s x1 y ≠ 0 →
      getNum s x1 y = getNum s x2 y → isValid s = false) := by
  have key : isValid s = true ↔
      (∀ x y, x < 9 → y < 9 → 0 ≤ getNum s x y ∧ getNum s x y ≤ 9) ∧
      (∀ d : Nat, 1 ≤ d → d ≤ 9 →
        (∀ y x1 x2, y < 9 → x1 < 9 → x2 < 9 →
          getNum s x1 y = d → getNum s x2 y = d → x1 = x2) ∧
        (∀ x y1 y2, x < 9 → y1 < 9 → y2 < 9 →
          getNum s x y1 = d → getNum s x y2 = d → y1 = y2) ∧
        (∀ x1 y1 x2 y2, x1 < 9 → y1 < 9 → x2 < 9 → y2 < 9 →
          x1 / 3 = x2 / 3 → y1 / 3 = y2 / 3 →
          getNum s x1 y1 = d → getNum s x2 y2 = d → x1 = x2 ∧ y1 = y2)) := by
    rw [isValid_iff]
    constructor
    · rintro ⟨hr, hn⟩
      refine ⟨hr, ?_⟩
      intro d hd1 hd9
      refine ⟨?_, ?_, ?_⟩
      · intro y x1 x2 hy hx1 hx2 e1 e2
        exact (hn x1 y x2 y hx1 hy hx2 hy (by omega) (by rw [e1, e2]) (Or.inl rfl)).1
      · intro x y1 y2 hx hy1 hy2 e1 e2
        exact (hn x y1 x y2 hx hy1 hx hy2 (by omega) (by rw [e1, e2])
          (Or.inr (Or.inl rfl))).2
      · intro x1 y1 x2 y2 hx1 hy1 hx2 hy2 hbx hby e1 e2
        exact hn x1 y1 x2 y2 hx1 hy1 hx2 hy2 (by omega) (by rw [e1, e2])
          (Or.inr (Or.inr ⟨hbx, hby⟩))
    · rintro ⟨hr, hd⟩
      refine ⟨hr, ?_⟩
      intro x1 y1 x2 y2 hx1 hy1 hx2 hy2 h1 he hu
      have h9 := (hr x1 y1 hx1 hy1).2
      obtain ⟨i, hi⟩ : ∃ i : Nat, getNum s x1 y1 = i := ⟨(getNum s x1 y1).toNat, by omega⟩
      obtain ⟨hrow, hcol, hbox⟩ := hd i (by omega) (by omega)
      rcases hu with rfl | rfl | ⟨hbx, hby⟩
      · exact ⟨hrow y1 x1 x2 hy1 hx1 hx2 hi (by rw [← he, hi]), rfl⟩
      · exact ⟨rfl, hcol x1 y1 y2 hx1 hy1 hy2 hi (by rw [← he, hi])⟩
      · exact hbox x1 y1 x2 y2 hx1 hy1 hx2 hy2 hbx hby hi (by rw [← he, hi])
  refine ⟨key, ?_⟩
  intro x1 x2 y hx1 hx2 hy hne h0 he
  by_contra hv
  rw [Bool.not_eq_false] at hv
  obtain ⟨hr, hn⟩ := (isValid_iff s).mp hv
  have := (hr x1 y hx1 hy).1
  exact hne (hn x1 y x2 y hx1 hy hx2 hy (by omega) he (Or.inl rfl)).1

/-- C4. For a cell `(x, y)` of the grid whose content is not negative, and any
number `d` (in particular every digit `1 .. 9`), `placeOK(x, y, d)` is true iff the
cell is empty and no cell of row `y`, no cell of column `x` and no cell of the 3x3 box
of `(x, y)` holds `d`. -/
theorem placeOK_spec (s : SudokuState) (x y : Nat) (d : Int) (hx : x < 9) (hy : y < 9)
    (hcell : 0 ≤ getNum s x y) :
    placeOK s x y d = true ↔
      getNum s x y = 0 ∧ (∀ a, a < 9 → getNum s a y ≠ d) ∧
      (∀ b, b < 9 → getNum s x b ≠ d) ∧
      (∀ a b, a < 9 → b < 9 → a / 3 = x / 3 → b / 3 = y / 3 → getNum s a b ≠ d) := by
  rw [placeOK_iff]
  constructor
  · rintro ⟨h0, hr, hc, hb⟩
    exact ⟨by omega, hr, hc, fun a b _ _ ha hb2 => hb a b ha hb2⟩
  · rintro ⟨h0, hr, hc, hb⟩
    exact ⟨by omega, hr, hc, fun a b ha hb2 => hb a b (by omega) (by omega) ha hb2⟩

/-- Instance of `placeOK_spec` at cell `(2, 0)` of the header puzzle and digit 2. -/
theorem placeOK_spec_witness :
    (2 < 9 ∧ 0 < 9 ∧ 0 ≤ getNum headerPuzzle 2 0) ∧
    (placeOK headerPuzzle 2 0 2 = true ↔
      getNum headerPuzzle 2 0 = 0 ∧ (∀ a, a < 9 → getNum headerPuzzle a 0 ≠ 2) ∧
      (∀ b, b < 9 → getNum headerPuzzle 2 b ≠ 2) ∧
      (∀ a b, a < 9 → b < 9 → a / 3 = 2 / 3 → b / 3 = 0 / 3 →
        getNum headerPuzzle a b ≠ 2)) :=
  ⟨⟨by decide, by decide, by decide⟩,
    placeOK_spec headerPuzzle 2 0 2 (by decide) (by decide) (by decide)⟩

/-- C8. `clone()` copies the 81 cells and leaves the value 0, so the clone is a
duplicate of the original; `isDuplicate` is true iff all 81 cells are equal, and
changing the values of the two states does not change its result. -/
theorem clone_isDuplicate (g a b : SudokuState) (v w : Int) :
    (∀ i, i < 81 → (clone g).grid i = g.grid i) ∧
    getValue (clone g) = 0 ∧
    isDuplicate (clone g) g = true ∧
    (isDuplicate a b = true ↔ ∀ i, i < 81 → a.grid i = b.grid i) ∧
    isDuplicate (setValue a v) (setValue b w) = isDuplicate a b := by
  refine ⟨?_, clone_value g, ?_, isDuplicate_iff a b, rfl⟩
  · intro i hi
    rw [clone_grid, if_pos hi]
  · rw [isDuplicate_iff]
    intro i hi
    rw [clone_grid, if_pos hi]

/-- C5. Propagation keeps validity: `deduce` turns a valid grid `g` into a valid grid,
and the child that `search` makes from a valid parent `p`, by `clone`, `setNum(x, y, d)`
for a digit `d` that `placeOK` allows, and `deduce`, is valid. -/
theorem deduce_preserves_isValid (g p : SudokuState) (m m2 : MaybeTable) (x y d : Nat)
    (hg : isValid g = true) (hp : isValid p = true) (hx : x < 9) (hy : y < 9)
    (hd1 : 1 ≤ d) (hd9 : d ≤ 9) (hok : placeOK p x y d = true) :
    isValid (deduce g m).1 = true ∧
    isValid (deduce (setNum (clone p) x y d) m2).1 = true := by
  refine ⟨deduce_isValid g m hg, ?_⟩
  apply deduce_isValid
  have hc : isValid (clone p) = true := by
    rw [sameCells_isValid (sameCells_clone p)]
    exact hp
  have hpc : placeOK (clone p) x y d = true := by
    rw [sameCells_placeOK (sameCells_clone p) x y d hx hy]
    exact hok
  rw [isValid_iff] at hc ⊢
  exact valid_setNum (clone p) x y d hx hy (by omega) (by omega) hpc hc

/-- Instance of `deduce_preserves_isValid`: the header puzzle, and its child for the
digit 2 in cell `(2, 0)`. -/
theorem deduce_preserves_isValid_witness :
    (isValid headerPuzzle = true ∧ 2 < 9 ∧ 0 < 9 ∧ 1 ≤ 2 ∧ 2 ≤ 9 ∧
      placeOK headerPuzzle 2 0 (2 : Nat) = true) ∧
    isValid (deduce headerPuzzle (fun _ _ _ => false)).1 = true ∧
    isValid (deduce (setNum (clone headerPuzzle) 2 0 (2 : Nat)) (fun _ _ _ => false)).1
      = true :=
  ⟨⟨by decide, by decide, by decide, by decide, by decide, by decide⟩,
    deduce_preserves_isValid headerPuzzle headerPuzzle _ _ 2 0 2 (by decide) (by decide)
      (by decide) (by decide) (by decide) (by decide) (by decide)⟩

/-- C6. Monotonic fill: the child made from a parent `p` by `clone`, `setNum(x, y, d)`
for a digit `d` that `placeOK` allows, and `deduce` has a `gridCount` strictly greater
than that of `p`. -/
theorem child_gridCount (p : SudokuState) (m : MaybeTable) (x y d : Nat) (hx : x < 9)
    (hy : y < 9) (hd : 1 ≤ d) (hok : placeOK p x y d = true) :
    gridCount p < gridCount (deduce (setNum (clone p) x y d) m).1 := by
  have he : getNum (clone p) x y ≤ 0 := by
    rw [getNum_clone p x y hx hy]
    exact placeOK_empty p x y d hok
  have h1 := gridCount_setNum (clone p) x y d hx hy he (by omega)
  have h2 := sameCells_gridCount (sameCells_clone p)
  have h3 := deduce_gridCount (setNum (clone p) x y d) m
  omega

/-- Instance of `child_gridCount`: the child of the header puzzle for the digit 2 in
cell `(2, 0)`. -/
theorem child_gridCount_witness :
    (2 < 9 ∧ 0 < 9 ∧ 1 ≤ 2 ∧ placeOK headerPuzzle 2 0 (2 : Nat) = true) ∧
    gridCount headerPuzzle
      < gridCount (deduce (setNum (clone headerPuzzle) 2 0 (2 : Nat)) (fun _ _ _ => false)).1 :=
  ⟨⟨by decide, by decide, by decide, by decide⟩,
    child_gridCount headerPuzzle _ 2 0 2 (by decide) (by decide) (by decide) (by decide)⟩

/-- C7. Propagation is idempotent: `deduce` applied to the grid that `deduce` left,
whatever the table `Maybe` holds then (in particular what the first call left in it),
leaves every cell as it is. This holds for every grid. -/
theorem deduce_idempotent (g : SudokuState) (m m2 : MaybeTable) :
    (deduce (deduce g m).1 m2).1 = (deduce g m).1 ∧
    (deduce (deduce g m).1 (deduce g m).2).1 = (deduce g m).1 ∧
    ∀ i, i < 81 → (deduce (deduce g m).1 m2).1.grid i = (deduce g m).1.grid i := by
  have key : ∀ m3, (deduce (deduce g m).1 m3).1 = (deduce g m).1 := by
    intro m3
    have h := deduce_done g m m3
    rw [deduce_of_done _ m3 h.1, h.2]
  refine ⟨key m2, key _, ?_⟩
  intro i _
  rw [key m2]

/-- C1. For a valid initial grid, every strategy and either repeat-check setting: a
state that `search` returns has all 81 cells filled with digits `1 .. 9`, is valid,
holds each digit exactly once in every row, every column and every 3x3 box, and holds
the number of the initial grid in every cell that was not empty there. -/
theorem search_returns_solution (strategy : Strategy) (rc : Bool) (fuel : Nat)
    (root : SudokuState) (m : MaybeTable) (child : SudokuState) (g2 : Globals)
    (hv : isValid root = true)
    (h : search strategy rc fuel (initialGlobals root m) = some (some child, g2)) :
    gridCount child = 81 ∧
    (∀ x y, x < 9 → y < 9 → 1 ≤ getNum child x y ∧ getNum child x y ≤ 9) ∧
    isValid child = true ∧
    (∀ d : Nat, 1 ≤ d → d ≤ 9 →
      (∀ y, y < 9 → ∃! x, x < 9 ∧ getNum child x y = d) ∧
      (∀ x, x < 9 → ∃! y, y < 9 ∧ getNum child x y = d) ∧
      (∀ bx bz, bx < 3 → bz < 3 →
        ∃! q : Nat × Nat, q.1 / 3 = bx ∧ q.2 / 3 = bz ∧ getNum child q.1 q.2 = d)) ∧
    (∀ x y, x < 9 → y < 9 → getNum root x y ≠ 0 → getNum child x y = getNum root x y) := by
  obtain ⟨h81, hcv, hagree⟩ := search_found_extends strategy rc fuel root m hv child g2 h
  obtain ⟨hr, hn⟩ := (isValid_iff child).mp hcv
  have hfull := gridCount_full child h81
  refine ⟨h81, ?_, hcv, ?_, hagree⟩
  · intro x y hx hy
    exact ⟨by have := hfull x y hx hy; omega, (hr x y hx hy).2⟩
  · intro d hd1 hd9
    refine ⟨?_, ?_, ?_⟩
    · intro y hy
      obtain ⟨x, hx, hxd⟩ := row_complete child hcv h81 y hy d (by omega) (by omega)
      refine ⟨x, ⟨hx, hxd⟩, ?_⟩
      rintro x2 ⟨hx2, hx2d⟩
      exact (hn x2 y x y hx2 hy hx hy (by rw [hx2d]; omega) (by rw [hx2d, hxd])
        (Or.inl rfl)).1
    · intro x hx
      obtain ⟨y, hy, hyd⟩ := col_complete child hcv h81 x hx d (by omega) (by omega)
      refine ⟨y, ⟨hy, hyd⟩, ?_⟩
      rintro y2 ⟨hy2, hy2d⟩
      exact (hn x y2 x y hx hy2 hx hy (by rw [hy2d]; omega) (by rw [hy2d, hyd])
        (Or.inr (Or.inl rfl))).2
    · intro bx bz hbx hbz
      obtain ⟨a, b, ha, hb, hab⟩ :=
        box_complete child hcv h81 bx bz hbx hbz d (by omega) (by omega)
      refine ⟨(a, b), ⟨ha, hb, hab⟩, ?_⟩
      rintro ⟨a2, b2⟩ ⟨ha2, hb2, hab2⟩
      simp only at ha2 hb2 hab2
      have := hn a2 b2 a b (by omega) (by omega) (by omega) (by omega)
        (by rw [hab2]; omega) (by rw [hab2, hab]) (Or.inr (Or.inr ⟨by omega, by omega⟩))
      rw [this.1, this.2]

/-- Instance of `search_returns_solution`: the example grid with the cell `(4, 4)`
emptied, depth-first with the repeat check on. -/
theorem search_returns_solution_witness :
    isValid (setNum solvedGrid 4 4 0) = true ∧
    ∃ child g2,
      search Strategy.DEPTH true 0
        (initialGlobals (setNum solvedGrid 4 4 0) (fun _ _ _ => false))
        = some (some child, g2) ∧
      gridCount child = 81 ∧ isValid child = true := by
  obtain ⟨g, hs, _⟩ := search_emptied solvedGrid (by decide) (by decide) 4 4 (by decide)
    (by decide) (fun _ _ _ => false) Strategy.DEPTH true 0
  have hv : isValid (setNum solvedGrid 4 4 0) = true := by decide
  have h := search_returns_solution Strategy.DEPTH true 0 (setNum solvedGrid 4 4 0)
    (fun _ _ _ => false) solvedGrid g hv hs
  exact ⟨hv, solvedGrid, g, hs, h.1, h.2.2.1⟩

/-- C2. End-to-end scenario A: for a complete valid grid `s` and a cell `(x, y)`,
`search` on the grid obtained from `s` by setting the cell to 0 returns `s` itself
(so the cell has its digit back and every other cell is as it was) with `ExpandCount`
0, under every strategy and repeat-check setting, whatever bound the loop is given. -/
theorem search_one_empty_cell (s : SudokuState) (x y : Nat) (m : MaybeTable)
    (strategy : Strategy) (rc : Bool) (fuel : Nat) (hv : isValid s = true)
    (hc : gridCount s = 81) (hx : x < 9) (hy : y < 9) :
    ∃ g, search strategy rc fuel (initialGlobals (setNum s x y 0) m) = some (some s, g) ∧
      g.ExpandCount = 0 := by
  obtain ⟨g, h1, h2, _⟩ := search_emptied s hv hc x y hx hy m strategy rc fuel
  exact ⟨g, h1, h2⟩

/-- Instance of `search_one_empty_cell`: the example grid and its cell `(4, 4)`,
best-first without the repeat check. -/
theorem search_one_empty_cell_witness :
    (isValid solvedGrid = true ∧ gridCount solvedGrid = 81 ∧ 4 < 9 ∧ 4 < 9) ∧
    ∃ g, search Strategy.BEST false 0
        (initialGlobals (setNum solvedGrid 4 4 0) (fun _ _ _ => false))
        = some (some solvedGrid, g) ∧ g.ExpandCount = 0 :=
  ⟨⟨by decide, by decide, by decide, by decide⟩,
    search_one_empty_cell solvedGrid 4 4 (fun _ _ _ => false) Strategy.BEST false 0
      (by decide) (by decide) (by decide) (by decide)⟩

/-- C10. Best-first ordering. `merge` under `BEST` puts the new state `s` right after
the elements whose value is above its own, that is before the first element whose
value is less than or equal to its own, or at the back; the other elements keep their
order; a list sorted by non-increasing value stays sorted. So in a best-first search
the open list is sorted at every head of the loop, and the state that is taken from
the front after an expansion has the greatest value of the open list; among equal
values the state merged last stands first. -/
theorem best_first_order (l : List SudokuState) (s : SudokuState) (rc : Bool)
    (root : SudokuState) (m : MaybeTable) (state : SudokuState) (g : Globals)
    (hr : Reached Strategy.BEST rc (initialGlobals root m) state g) :
    (∃ l1 l2, l = l1 ++ l2 ∧ merge Strategy.BEST l s = l1 ++ s :: l2 ∧
      (∀ t, t ∈ l1 → getValue s < getValue t) ∧
      (∀ t, l2.head? = some t → getValue t ≤ getValue s)) ∧
    (SortedDesc l → SortedDesc (merge Strategy.BEST l s)) ∧
    SortedDesc g.OpenList ∧
    (∀ g1 nxt rest, expand Strategy.BEST rc state g = Expansion.finished g1 →
      g1.OpenList = nxt :: rest →
      SortedDesc rest ∧ ∀ t, t ∈ rest → getValue t ≤ getValue nxt) := by
  have hs := reached_sorted rc root m state g hr
  refine ⟨mergeBest_split l s, mergeBest_sorted l s, hs, ?_⟩
  intro g1 nxt rest he ho
  have h1 := ((expand_spec Strategy.BEST rc state SortedDesc
    (fun l t hl _ => mergeBest_sorted l t hl) g hs).2 g1 he).1
  rw [ho] at h1
  have h2 := List.pairwise_cons.mp h1
  exact ⟨h2.2, h2.1⟩

/-- Instance of `best_first_order`: the head of the loop for the empty grid. -/
theorem best_first_order_witness :
    ∃ state g, Reached Strategy.BEST true (initialGlobals emptyGrid noMaybe) state g ∧
      SortedDesc g.OpenList ∧
      SortedDesc (merge Strategy.BEST [emptyGrid] (setValue emptyGrid 7)) :=
  ⟨_, _, reached_emptyGrid Strategy.BEST true,
    (best_first_order [emptyGrid] (setValue emptyGrid 7) true emptyGrid noMaybe _ _
      (reached_emptyGrid Strategy.BEST true)).2.2.1,
    (best_first_order [emptyGrid] (setValue emptyGrid 7) true emptyGrid noMaybe _ _
      (reached_emptyGrid Strategy.BEST true)).2.1 (List.pairwise_singleton _ _)⟩

/-- C11. Depth-first and breadth-first ordering. `merge` under `DEPTH` puts the state
in front of the open list and under `BREADTH` behind it, the other elements keeping
their order; merging several states one after the other gives them reversed in front,
or in their order behind; and `search` goes on with the front of the open list. So
depth-first takes the state merged last first, and breadth-first takes the states in
the order in which they were merged. -/
theorem depth_breadth_order (l ss : List SudokuState) (s : SudokuState) (strategy : Strategy)
    (rc : Bool) (n : Nat) (state : SudokuState) (g : Globals) :
    merge Strategy.DEPTH l s = s :: l ∧
    merge Strategy.BREADTH l s = l ++ [s] ∧
    ss.foldl (merge Strategy.DEPTH) l = ss.reverse ++ l ∧
    ss.foldl (merge Strategy.BREADTH) l = l ++ ss ∧
    (∀ g1 nxt rest, expand strategy rc state g = Expansion.finished g1 →
      g1.OpenList = nxt :: rest →
      searchLoop strategy rc (n + 1) state g
        = searchLoop strategy rc n nxt { g1 with OpenList := rest }) := by
  refine ⟨rfl, rfl, ?_, ?_, ?_⟩
  · induction ss generalizing l with
    | nil => rfl
    | cons a ss ih =>
      rw [List.foldl_cons, ih]
      simp [merge]
  · induction ss generalizing l with
    | nil => simp
    | cons a ss ih =>
      rw [List.foldl_cons, ih]
      simp [merge]
  · intro g1 nxt rest he ho
    rw [searchLoop_succ, he]
    simp only []
    rw [ho]

/-- C14. Expansion counter. When `search` returns, with a state or with `NULL`, the
closed list is the one it started with followed by `ExpandCount` states: the counter
is reset at the start and goes up by one with each state put on the closed list,
never in the children loop. It is 0 exactly when the open list was empty at the start
or the propagated root is complete. -/
theorem expandCount_spec (strategy : Strategy) (rc : Bool) (fuel : Nat) (g : Globals)
    (res : Option SudokuState × Globals) (h : search strategy rc fuel g = some res) :
    (∃ added, res.2.ClosedList = g.ClosedList ++ added ∧
      added.length = res.2.ExpandCount) ∧
    (res.2.ExpandCount = 0 ↔
      (g.OpenList = [] ∨
        ∃ first rest, g.OpenList = first :: rest ∧
          gridCount (deduce first g.Maybe).1 = 81)) := by
  rcases search_cases strategy rc fuel g res h with ⟨ho, h1⟩ | ⟨first, rest, ho, hc, h1⟩ |
      ⟨first, rest, ho, hc, h1⟩
  · rw [h1]
    exact ⟨⟨[], by simp, rfl⟩, fun _ => Or.inl ho, fun _ => rfl⟩
  · rw [h1]
    exact ⟨⟨[], by simp, rfl⟩, fun _ => Or.inr ⟨first, rest, ho, hc⟩, fun _ => rfl⟩
  · obtain ⟨state2, g2, hr, hres⟩ := searchLoop_result strategy rc g _ _ _ _
      (Reached.start first rest ho hc) h1
    obtain ⟨added, h2, h3⟩ := reached_count strategy rc g state2 g2 hr
    have hsp := expand_spec strategy rc state2 (fun _ => True) (fun _ _ _ _ => trivial) g2
      trivial
    have key : res.2.ClosedList = g2.ClosedList ++ [state2] ∧
        res.2.ExpandCount = g2.ExpandCount + 1 := by
      rcases hres with ⟨c, _, hc2⟩ | ⟨_, hc2, _⟩
      · exact (hsp.1 _ _ hc2).2
      · exact (hsp.2 _ hc2).2
    refine ⟨⟨added ++ [state2], ?_, ?_⟩, ?_⟩
    · rw [key.1, h2, List.append_assoc]
    · rw [key.2, List.length_append, h3]
      rfl
    · constructor
      · intro h0
        omega
      · rintro (h0 | ⟨f2, r2, h0, hc0⟩)
        · rw [ho] at h0
          exact absurd h0 (by simp)
        · rw [ho] at h0
          simp only [List.cons.injEq] at h0
          rw [← h0.1] at hc0
          exact absurd hc0 hc

/-- Instance of `expandCount_spec`: the example grid with the cell `(4, 4)` emptied. -/
theorem expandCount_spec_witness :
    ∃ res, search Strategy.BREADTH true 0 (initialGlobals (setNum solvedGrid 4 4 0) noMaybe)
        = some res ∧
      (∃ added, res.2.ClosedList
          = (initialGlobals (setNum solvedGrid 4 4 0) noMaybe).ClosedList ++ added ∧
        added.length = res.2.ExpandCount) := by
  obtain ⟨g, hs, _⟩ := search_emptied solvedGrid (by decide) (by decide) 4 4 (by decide)
    (by decide) noMaybe Strategy.BREADTH true 0
  exact ⟨_, hs, (expandCount_spec Strategy.BREADTH true 0 _ _ hs).1⟩

/-- C19. No stale candidate data. The grid that `deduce` leaves does not depend on
what `Maybe` holds when `deduce` is called, and neither does any pass: the first part
of a pass gives every entry of `bool Maybe[9][9][10]` the value `cand`, computed from
the grid alone, before the second and the third part read the table. -/
theorem maybe_not_stale (g : SudokuState) (m1 m2 : MaybeTable) :
    (deduce g m1).1 = (deduce g m2).1 ∧
    (deducePass g m1).1 = (deducePass g m2).1 ∧
    (deducePass g m1).2.2 = (deducePass g m2).2.2 ∧
    (∀ x y z, x < 9 → y < 9 → z < 10 →
      fillMaybe g m1 x y z = cand g x y z ∧ fillMaybe g m2 x y z = cand g x y z) ∧
    TableEq (eliminate g (fillMaybe g m1)) (eliminate g (fillMaybe g m2)) := by
  refine ⟨deduce_indep g m1 m2, (deducePass_indep g m1 m2).1, (deducePass_indep g m1 m2).2,
    ?_, eliminate_tableEq g _ _ (fillMaybe_tableEq g m1 m2)⟩
  intro x y z hx hy hz
  rw [fillMaybe_apply, fillMaybe_apply, if_pos ⟨hx, hy, hz⟩, if_pos ⟨hx, hy, hz⟩]
  exact ⟨rfl, rfl⟩

/-- C20. Frontier invariant. For a valid initial grid, at every head of the loop of
`search` the state about to be expanded and every state on the open and on the closed
list are valid and have fewer than 81 filled cells, and this still holds for the lists
that the expansion leaves; so a state taken from the open list is never complete, and
a state that `search` returns is the propagated root or a child found complete right
after its propagation. -/
theorem frontier_invariant (strategy : Strategy) (rc : Bool) (root : SudokuState)
    (m : MaybeTable) (state : SudokuState) (g : Globals) (hv : isValid root = true)
    (hr : Reached strategy rc (initialGlobals root m) state g) :
    (isValid state = true ∧ gridCount state < 81) ∧
    (∀ t, t ∈ g.OpenList → isValid t = true ∧ gridCount t < 81) ∧
    (∀ t, t ∈ g.ClosedList → isValid t = true ∧ gridCount t < 81) ∧
    (∀ g1, expand strategy rc state g = Expansion.finished g1 →
      (∀ t, t ∈ g1.OpenList → isValid t = true ∧ gridCount t < 81) ∧
      (∀ t, t ∈ g1.ClosedList → isValid t = true ∧ gridCount t < 81)) ∧
    (∀ fuel child g2,
      search strategy rc fuel (initialGlobals root m) = some (some child, g2) →
      (child = (deduce root m).1 ∧ gridCount child = 81) ∨
      (∃ parent g1, Reached strategy rc (initialGlobals root m) parent g1 ∧
        FoundChild parent child)) := by
  obtain ⟨hs, ho, hc⟩ := reached_pending strategy rc root m hv state g hr
  refine ⟨hs, ho, hc, ?_, ?_⟩
  · intro g1 he
    obtain ⟨h1, h3, _⟩ := (expand_spec strategy rc state (fun l => ∀ t, t ∈ l → Pending t)
      (by
        intro l t hl hch u hu
        rcases (mem_merge strategy l t u).mp hu with rfl | hu
        · exact pending_child state _ hs.1 hch
        · exact hl u hu)
      g ho).2 g1 he
    refine ⟨h1, ?_⟩
    intro t ht
    rw [h3, List.mem_append, List.mem_singleton] at ht
    rcases ht with ht | rfl
    · exact hc t ht
    · exact hs
  · intro fuel child g2 h
    rcases search_found strategy rc fuel _ child g2 h with ⟨first, rest, ho2, hc2, h81⟩ | h2
    · left
      simp only [initialGlobals, List.cons.injEq] at ho2
      rw [← ho2.1] at hc2
      exact ⟨hc2, h81⟩
    · right
      exact h2

/-- Instance of `frontier_invariant`: the head of the loop for the empty grid. -/
theorem frontier_invariant_witness :
    isValid emptyGrid = true ∧
    ∃ state g, Reached Strategy.DEPTH false (initialGlobals emptyGrid noMaybe) state g ∧
      isValid state = true ∧ gridCount state < 81 :=
  ⟨by decide, _, _, reached_emptyGrid Strategy.DEPTH false,
    (frontier_invariant Strategy.DEPTH false emptyGrid noMaybe _ _ (by decide)
      (reached_emptyGrid Strategy.DEPTH false)).1⟩

/-- C18. Box-adjacency test. For a cell `(x, y)` of the grid, `boxCheck(x, y, d)` is
true iff each other box of the same stack has a cell, in a column other than `x`,
whose `Maybe` entry for `d` is set, and each other box of the same band has such a
cell in a row other than `y`; there are exactly two other boxes in the stack and two
in the band (the tests for boxes beyond the grid are skipped); every index pair that
`boxCheck`, `columnCheck` and `rowCheck` read lies in `0 .. 8`, and `boxCheck` depends
on the table at those index pairs only. -/
theorem boxCheck_spec (m m2 : MaybeTable) (x y d : Nat) (hx : x < 9) (hy : y < 9) :
    (boxCheck m x y d = true ↔
      (∀ k, k < 3 → k ≠ y / 3 →
        ∃ a b, a / 3 = x / 3 ∧ b / 3 = k ∧ a ≠ x ∧ m a b d = true) ∧
      (∀ k, k < 3 → k ≠ x / 3 →
        ∃ a b, a / 3 = k ∧ b / 3 = y / 3 ∧ b ≠ y ∧ m a b d = true)) ∧
    ((List.range 3).filter fun k => decide (k ≠ y / 3)).length = 2 ∧
    ((List.range 3).filter fun k => decide (k ≠ x / 3)).length = 2 ∧
    (∀ p, p ∈ boxCheckReads x y → 0 ≤ p.1 ∧ p.1 ≤ 8 ∧ 0 ≤ p.2 ∧ p.2 ≤ 8) ∧
    ((∀ p, p ∈ boxCheckReads x y →
        m p.1.toNat p.2.toNat d = m2 p.1.toNat p.2.toNat d) →
      boxCheck m x y d = boxCheck m2 x y d) :=
  ⟨boxCheck_iff m x y d hx hy, two_other_boxes y hy, two_other_boxes x hx,
    boxCheckReads_bounds x y hx hy, boxCheck_reads_only m m2 x y d⟩

/-- Instance of `boxCheck_spec`: the cell `(4, 8)` and the digit 5, with the table
that the first part of a pass gives for the empty grid. -/
theorem boxCheck_spec_witness :
    (4 < 9 ∧ 8 < 9) ∧
    (∀ p, p ∈ boxCheckReads 4 8 → 0 ≤ p.1 ∧ p.1 ≤ 8 ∧ 0 ≤ p.2 ∧ p.2 ≤ 8) ∧
    ((List.range 3).filter fun k => decide (k ≠ 8 / 3)).length = 2 :=
  ⟨⟨by decide, by decide⟩,
    (boxCheck_spec (cand emptyGrid) noMaybe 4 8 5 (by decide) (by decide)).2.2.2.1,
    (boxCheck_spec (cand emptyGrid) noMaybe 4 8 5 (by decide) (by decide)).2.1⟩

/-- C16. Propagation only makes forced placements. If the complete valid grid `s`
agrees with `g` on all non-empty cells of `g`, then it agrees with the grid that
`deduce` leaves on all non-empty cells of that grid, and no pass clears the entry of
the digit of `s` in any cell: `deduce` never eliminates the digit of a solution and
never writes a digit that a solution contradicts. -/
theorem deduce_sound (g s : SudokuState) (m : MaybeTable) (hs : isValid s = true)
    (hc : gridCount s = 81)
    (ha : ∀ x y, x < 9 → y < 9 → getNum g x y ≠ 0 → getNum s x y = getNum g x y) :
    (∀ x y, x < 9 → y < 9 → getNum (deduce g m).1 x y ≠ 0 →
      getNum s x y = getNum (deduce g m).1 x y) ∧
    (∀ x y, x < 9 → y < 9 →
      eliminate g (fillMaybe g m) x y (getNum s x y).toNat = true) :=
  ⟨(solves_deduce s g ⟨hs, hc, ha⟩ m).2.2, solves_refined s g ⟨hs, hc, ha⟩ m⟩

/-- Instance of `deduce_sound`: the example grid as solution of itself with the
cells `(0, 0)` and `(4, 4)` emptied. -/
theorem deduce_sound_witness :
    (isValid solvedGrid = true ∧ gridCount solvedGrid = 81 ∧
      ∀ x, x < 9 → ∀ y, y < 9 → getNum twoEmptied x y ≠ 0 →
        getNum solvedGrid x y = getNum twoEmptied x y) ∧
    (∀ x y, x < 9 → y < 9 → getNum (deduce twoEmptied noMaybe).1 x y ≠ 0 →
      getNum solvedGrid x y = getNum (deduce twoEmptied noMaybe).1 x y) :=
  ⟨⟨by decide, by decide, by decide⟩,
    (deduce_sound twoEmptied solvedGrid noMaybe (by decide) (by decide)
      (fun x y hx hy => (by decide : ∀ x, x < 9 → ∀ y, y < 9 → getNum twoEmptied x y ≠ 0 →
        getNum solvedGrid x y = getNum twoEmptied x y) x hx y hy)).1⟩

/-- C17, as stated, fails: in the example grid with the cells `(0, 0)` and `(4, 4)`
emptied, the cell `(4, 4)` is empty and is left with exactly one candidate, the
digit 5, by the first two parts of the pass, and is still empty after the pass. -/
theorem lone_second_cell_not_written :
    getNum twoEmptied 4 4 = 0 ∧
    loneCount (eliminate twoEmptied (fillMaybe twoEmptied noMaybe)) 4 4 = (1, 5) ∧
    getNum (deducePass twoEmptied noMaybe).1 4 4 = 0 := by
  have hsup : supported twoEmptied = true := by decide!
  refine ⟨by decide, ?_, ?_⟩
  · rw [loneCount_congr _ (cand twoEmptied) 4 4
      (fun z hz => eliminate_of_supported twoEmptied noMaybe hsup 4 4 z (by decide) (by decide)
        (by have := (mem_digits z).mp hz; omega))]
    decide!
  · rw [(deducePass_of_supported twoEmptied noMaybe hsup).1, lone_eq]
    have hf : (colMajor (List.range 9) (List.range 9)).find?
        (loneTest twoEmptied (cand twoEmptied)) = some (0, 0) := by decide!
    rw [hf]
    decide!

/-- C17, amended. In a pass of `deduce`, the first empty cell, in the order of the
loops (`x` outermost), that the first two parts leave with exactly one candidate has
that digit written; no other cell is changed in that pass, and `done` is cleared, so
that the other such cells are looked at again in the next pass. -/
theorem lone_first_written (s : SudokuState) (m : MaybeTable) (x y : Nat) (hx : x < 9)
    (hy : y < 9) (he : getNum s x y ≤ 0)
    (h1 : (loneCount (eliminate s (fillMaybe s m)) x y).1 = 1)
    (hfirst : ∀ a b, a < 9 → b < 9 → (a < x ∨ (a = x ∧ b < y)) →
      ¬ (getNum s a b ≤ 0 ∧ (loneCount (eliminate s (fillMaybe s m)) a b).1 = 1)) :
    (deducePass s m).1 = setNum s x y (loneCount (eliminate s (fillMaybe s m)) x y).2 ∧
    (deducePass s m).2.2 = false := by
  unfold deducePass
  simp only []
  rw [lone_eq]
  have hf : (colMajor (List.range 9) (List.range 9)).find?
      (loneTest s (eliminate s (fillMaybe s m))) = some (x, y) := by
    apply find?_first _ _ _ cells9_sorted
    · exact (mem_cells9 (x, y)).mpr ⟨hx, hy⟩
    · unfold loneTest
      simp only [Bool.and_eq_true, decide_eq_true_eq]
      exact ⟨he, h1⟩
    · rintro ⟨a, b⟩ hq hlt
      have hq2 := (mem_cells9 (a, b)).mp hq
      have := hfirst a b hq2.1 hq2.2 hlt
      unfold loneTest
      by_contra hne
      simp only [Bool.not_eq_false, Bool.and_eq_true, decide_eq_true_eq] at hne
      exact this hne
  rw [hf]
  exact ⟨rfl, rfl⟩

/-- Instance of `lone_first_written`: the cell `(0, 0)` of the example grid with the
cells `(0, 0)` and `(4, 4)` emptied. -/
theorem lone_first_written_witness :
    (0 < 9 ∧ getNum twoEmptied 0 0 ≤ 0 ∧
      (loneCount (eliminate twoEmptied (fillMaybe twoEmptied noMaybe)) 0 0).1 = 1) ∧
    (deducePass twoEmptied noMaybe).2.2 = false := by
  have hsup : supported twoEmptied = true := by decide!
  have h1 : (loneCount (eliminate twoEmptied (fillMaybe twoEmptied noMaybe)) 0 0).1 = 1 := by
    rw [loneCount_congr _ (cand twoEmptied) 0 0
      (fun z hz => eliminate_of_supported twoEmptied noMaybe hsup 0 0 z (by decide) (by decide)
        (by have := (mem_digits z).mp hz; omega))]
    decide!
  exact ⟨⟨by decide, by decide, h1⟩,
    (lone_first_written twoEmptied noMaybe 0 0 (by decide) (by decide) (by decide) h1
      (fun a b _ _ hlt => by omega)).2⟩

/-- C12. Termination. For every initial grid, every strategy and either repeat-check
setting: the loop of each `deduce` call is left within 82 passes, and `search` returns
(a state, or `NULL` when the open list is empty) after finitely many passes of its
loop, with a finite number of expansions; a larger bound on the passes gives the same
result. -/
theorem search_terminates (strategy : Strategy) (rc : Bool) (root : SudokuState)
    (m : MaybeTable) :
    (∀ (s : SudokuState) (m2 : MaybeTable), deduceLoop 82 s m2 = some (deduce s m2)) ∧
    ∃ fuel res, ∀ n, fuel ≤ n →
      search strategy rc n (initialGlobals root m) = some res := by
  refine ⟨deduceLoop_eq_some, ?_⟩
  obtain ⟨fuel, res, h⟩ := search_some strategy rc (initialGlobals root m)
  refine ⟨fuel, res, fun n hn => ?_⟩
  have e : n = fuel + (n - fuel) := by omega
  rw [e]
  exact search_mono strategy rc fuel (n - fuel) _ res h

/-- C15. Completeness of the search. For a valid initial grid `root` that has a
completion `s` (a complete valid grid that agrees with `root` on all non-empty cells of
`root`), every strategy and either repeat-check setting: `search` never returns `NULL`,
and it does return: for every large enough bound on the passes of its loop the result
is one and the same complete grid. -/
theorem search_complete (strategy : Strategy) (rc : Bool) (root s : SudokuState)
    (m : MaybeTable) (hv : isValid root = true) (hs : isValid s = true)
    (hc : gridCount s = 81)
    (ha : ∀ x y, x < 9 → y < 9 → getNum root x y ≠ 0 → getNum s x y = getNum root x y) :
    (∀ fuel res, search strategy rc fuel (initialGlobals root m) = some res →
      res.1 ≠ none) ∧
    ∃ fuel child g2,
      (∀ n, fuel ≤ n →
        search strategy rc n (initialGlobals root m) = some (some child, g2)) ∧
      gridCount child = 81 := by
  constructor
  · intro fuel res h
    obtain ⟨child, hch⟩ := search_not_null strategy rc fuel root s m hv ⟨hs, hc, ha⟩ res h
    rw [hch]
    exact Option.some_ne_none child
  · obtain ⟨fuel, child, g2, h1, h2, _⟩ := search_solves strategy rc root s m hv ⟨hs, hc, ha⟩
    exact ⟨fuel, child, g2, h1, h2⟩

/-- Instance of `search_complete`: the example grid with the cells `(0, 0)` and
`(4, 4)` emptied, best-first with the repeat check on; the example grid is a
completion. -/
theorem search_complete_witness :
    (isValid twoEmptied = true ∧ isValid solvedGrid = true ∧ gridCount solvedGrid = 81 ∧
      ∀ x, x < 9 → ∀ y, y < 9 → getNum twoEmptied x y ≠ 0 →
        getNum solvedGrid x y = getNum twoEmptied x y) ∧
    ∃ fuel child g2,
      (∀ n, fuel ≤ n →
        search Strategy.BEST true n (initialGlobals twoEmptied noMaybe)
          = some (some child, g2)) ∧
      gridCount child = 81 :=
  ⟨⟨by decide, by decide, by decide, by decide⟩,
    (search_complete Strategy.BEST true twoEmptied solvedGrid noMaybe (by decide) (by decide)
      (by decide)
      (fun x y hx hy => (by decide : ∀ x, x < 9 → ∀ y, y < 9 → getNum twoEmptied x y ≠ 0 →
        getNum solvedGrid x y = getNum twoEmptied x y) x hx y hy)).2⟩

/-- C13. End-to-end scenario B: `search` on the empty grid, depth-first with the repeat
check off, returns: for every large enough bound on the passes of its loop the result
is one and the same grid, which has 81 filled cells and is valid, and the expansion
counter is above 0. -/
theorem search_emptyGrid :
    ∃ fuel child g2,
      (∀ n, fuel ≤ n →
        search Strategy.DEPTH false n (initialGlobals emptyGrid noMaybe)
          = some (some child, g2)) ∧
      gridCount child = 81 ∧ isValid child = true ∧ 0 < g2.ExpandCount := by
  have hsol : Solves solvedGrid emptyGrid :=
    ⟨by decide, by decide, fun x y _ _ hne => absurd rfl hne⟩
  obtain ⟨fuel, child, g2, h1, h2, h3⟩ :=
    search_solves Strategy.DEPTH false emptyGrid solvedGrid noMaybe (by decide) hsol
  refine ⟨fuel, child, g2, h1, h2, h3.1, ?_⟩
  apply search_expandCount_pos Strategy.DEPTH false fuel _ child g2 (h1 fuel (le_refl _))
  intro first rest ho
  simp only [initialGlobals, List.cons.injEq] at ho
  rw [← ho.1]
  show gridCount (deduce emptyGrid noMaybe).1 ≠ 81
  rw [deduce_emptyGrid]
  decide

/-- C9, evaluated at an input where it fails. On the valid grid `deadGrid`, with the
repeat check on and under every strategy, `search` returns `NULL`, and the closed list
then holds, at two different positions, two states whose 81 cells are equal: both
were expanded. The two were put on the open list in one expansion, and `repeat` looks
at the closed list only. -/
theorem repeat_misses_open_list :
    ∀ strategy : Strategy, ∃ fuel g2,
      search strategy true fuel (initialGlobals deadGrid noMaybe) = some (none, g2) ∧
      ∃ (i j : Nat) (u v : SudokuState), i < j ∧ g2.ClosedList[i]? = some u ∧
        g2.ClosedList[j]? = some v ∧ isDuplicate u v = true := by
  intro strategy
  obtain ⟨fuel, g2, h, hcount⟩ := deadGrid_search strategy true
  obtain ⟨i, j, u, v, hij, hi, hj, pu, pv⟩ := countP_two _ _ hcount
  refine ⟨fuel, g2, h, i, j, u, v, hij, hi, hj, ?_⟩
  rw [isDuplicate_iff] at pu pv ⊢
  intro n hn
  rw [pu n hn, pv n hn]

end Sudoku
